import Mathlib

/-!
# go-filebrowser: path confinement and directory listing

A shallow embedding of `browse.go` (package `filebrowser`).

Go strings are modelled by Lean strings (so only valid UTF-8 contents are
covered); `len` counts bytes, as in Go.  The functions of the Go standard
library that `browse.go` calls are modelled in their own sections
(`path/filepath` on Unix, `sort`, `net/http`), or taken from a `Runtime`
record (`html/template`, `net/url`).
-/

set_option autoImplicit false

/-! ## Go builtins -/

/-- Go's builtin `len` on a string: its length in bytes. -/
def len (s : String) : Nat := s.utf8ByteSize

/-- Values of Go's `error` interface that `browse.go` can tell apart: the
package-level sentinel `ErrAccessDenied`, and every other error value. -/
inductive Error where
  | accessDenied
  | other (msg : String)
deriving DecidableEq, Repr

/-- The sentinel `var ErrAccessDenied = errors.New("filebrowser: access denied")`. -/
def ErrAccessDenied : Error := Error.accessDenied

/-! ## `path/filepath` (Unix) -/

namespace filepath

/-- The Unix path separator test `os.IsPathSeparator`. -/
def isPathSeparator (c : Char) : Bool := c == '/'

/-- The `..` step of `Clean` when it can backtrack:
`out.w--; for out.w > dotdot && !os.IsPathSeparator(out.index(out.w)) { out.w-- }`.
The written part of the buffer `out.buf[0:out.w]` is kept last byte first. -/
def backtrack (dotdot : Nat) : List Char → List Char
  | [] => []
  | c :: rest =>
    if dotdot < rest.length && !isPathSeparator c then backtrack dotdot rest else rest

/-- The test `r == n || os.IsPathSeparator(path[r])` on the unread input `path[r:]`. -/
def atEndOrSeparator : List Char → Bool
  | [] => true
  | c :: _ => isPathSeparator c

/-- The main loop `for r < n { switch ... }` of `Clean`.  Arguments: the flag
`rooted`, a bound on the number of iterations, the unread input `path[r:]`,
the written buffer (last byte first) and the index `dotdot`. -/
def cleanLoop (rooted : Bool) : Nat → List Char → List Char → Nat → List Char
  | 0, _, out, _ => out
  | fuel + 1, p, out, dotdot =>
    match p with
    | [] => out
    | c :: rest =>
      if isPathSeparator c then
        -- empty path element
        cleanLoop rooted fuel rest out dotdot
      else if c == '.' && atEndOrSeparator rest then
        -- . element
        cleanLoop rooted fuel rest out dotdot
      else if c == '.' && rest.head? == some '.' && atEndOrSeparator rest.tail then
        -- .. element: remove to last separator
        if dotdot < out.length then
          cleanLoop rooted fuel rest.tail (backtrack dotdot out) dotdot
        else if !rooted then
          let out2 := '.' :: '.' :: (if 0 < out.length then '/' :: out else out)
          cleanLoop rooted fuel rest.tail out2 out2.length
        else
          cleanLoop rooted fuel rest.tail out dotdot
      else
        -- real path element: add slash if needed, then copy the element
        let out1 :=
          if (rooted && out.length != 1) || (!rooted && out.length != 0) then '/' :: out
          else out
        cleanLoop rooted fuel (p.dropWhile (fun x => !isPathSeparator x))
          ((p.takeWhile (fun x => !isPathSeparator x)).reverse ++ out1) dotdot

/-- The body of `filepath.Clean` on the bytes of the path (no volume name on Unix). -/
def cleanChars (path : List Char) : List Char :=
  match path with
  | [] => ['.']
  | c :: rest =>
    let out :=
      if isPathSeparator c then cleanLoop true (path.length + 1) rest ['/'] 1
      else cleanLoop false (path.length + 1) path [] 0
    -- Turn empty string into "."
    if out.isEmpty then ['.'] else out.reverse

/-- Lexical path cleaning, `filepath.Clean`. -/
def Clean (path : String) : String := ⟨cleanChars path.data⟩

/-- The string `strings.Join(elem, "/")`, on bytes. -/
def joinSep : List String → List Char
  | [] => []
  | [e] => e.data
  | e :: es => e.data ++ '/' :: joinSep es

/-- Joining of path elements, `filepath.Join`: leading empty elements are
skipped, the rest is joined with the separator and cleaned. -/
def Join (elem : List String) : String :=
  match elem.dropWhile (fun e => e.data.isEmpty) with
  | [] => ""
  | es => Clean ⟨joinSep es⟩

/-- On Unix `filepath.IsAbs(path)` is `strings.HasPrefix(path, "/")`. -/
def IsAbs (path : String) : Bool := path.data.head? == some '/'

/-- The function `filepath.Abs` on Unix; `getwd` is the result of `os.Getwd()`. -/
def Abs (getwd : Except Error String) (path : String) : Except Error String :=
  if IsAbs path then Except.ok (Clean path)
  else
    match getwd with
    | Except.error e => Except.error e
    | Except.ok wd => Except.ok (Join [wd, path])

end filepath

/-! ## Directory entries and their ordering (`ByType`) -/

/-- The attributes of an `os.FileInfo` value that the listing reads. -/
structure FileInfo where
  Name : String
  Size : Int
  Mode : Nat
  ModTime : Int
  IsDir : Bool
deriving DecidableEq, Repr

/-- An element of the slice `[]os.FileInfo` that `FileListing` builds: either a
value obtained from the `FileSystem`, or `&previousDirectory{fi}`, the wrapper
type that embeds an `os.FileInfo` and overrides `Name`. -/
inductive Entry where
  | info (fi : FileInfo)
  | previousDirectory (fi : FileInfo)
deriving DecidableEq, Repr

namespace Entry

/-- The wrapped `os.FileInfo` (the embedded field of `previousDirectory`). -/
def inner : Entry → FileInfo
  | info fi => fi
  | previousDirectory fi => fi

/-- Method `Name`: `func (p *previousDirectory) Name() string { return ".." }`. -/
def Name : Entry → String
  | info fi => fi.Name
  | previousDirectory _ => ".."

/-- Method `IsDir`, promoted from the embedded value. -/
def IsDir (e : Entry) : Bool := e.inner.IsDir

/-- Method `Size`, promoted from the embedded value. -/
def Size (e : Entry) : Int := e.inner.Size

/-- Method `Mode`, promoted from the embedded value. -/
def Mode (e : Entry) : Nat := e.inner.Mode

/-- Method `ModTime`, promoted from the embedded value. -/
def ModTime (e : Entry) : Int := e.inner.ModTime

/-- Whether the entry is the injected `previousDirectory` wrapper. -/
def isPrevious : Entry → Bool
  | info _ => false
  | previousDirectory _ => true

end Entry

/-- Go: `type ByType []os.FileInfo`. -/
abbrev ByType := List Entry

namespace ByType

/-- Go: `func (b ByType) Len() int`. -/
def Len (b : ByType) : Nat := b.length

/-- Go: `func (b ByType) Less(i, j int) bool`.  An index out of range panics in
Go; `sort.Sort` only passes indices below `Len`. -/
def Less (b : ByType) (i j : Nat) : Bool :=
  match b.get? i, b.get? j with
  | some x, some y =>
    if x.Name == ".." then true
    else if x.IsDir && !y.IsDir then true
    else false
  | _, _ => false

/-- Go: `func (b ByType) Swap(i, j int)`: `b[i], b[j] = b[j], b[i]`. -/
def Swap (b : ByType) (i j : Nat) : ByType :=
  match b.get? i, b.get? j with
  | some x, some y => (b.set i y).set j x
  | _, _ => b

end ByType

/-! ## The `FileSystem` interface and its disk-backed implementation `FS` -/

/-- The methods of `type FileSystem interface` that `Browser` calls (`Open`
and `Walk` are never called by the package and are left out). -/
structure FileSystem where
  Stat : String → Except Error FileInfo
  ReadDir : String → Except Error (List FileInfo)
  Abs : String → Except Error String

/-- The operating-system calls behind `FS`: `os.Getwd`, `os.Stat` and
`ioutil.ReadDir`, as functions of the (fixed) state of the disk. -/
structure OS where
  Getwd : Except Error String
  Stat : String → Except Error FileInfo
  ReadDir : String → Except Error (List FileInfo)

/-- Go: `type FS struct { Base string }`. -/
structure FS where
  Base : String
deriving DecidableEq, Repr

namespace FS

/-- Go: `func (f *FS) Stat(name string)`: `os.Stat(filepath.Join(f.Base, name))`. -/
def Stat (os : OS) (f : FS) (name : String) : Except Error FileInfo :=
  os.Stat (filepath.Join [f.Base, name])

/-- Go: `func (f *FS) ReadDir(root string)`: `ioutil.ReadDir(filepath.Join(f.Base, root))`. -/
def ReadDir (os : OS) (f : FS) (root : String) : Except Error (List FileInfo) :=
  os.ReadDir (filepath.Join [f.Base, root])

/-- Go: `func (f *FS) Abs(path string)`: `filepath.Abs(filepath.Join(f.Base, path))`. -/
def Abs (os : OS) (f : FS) (path : String) : Except Error String :=
  filepath.Abs os.Getwd (filepath.Join [f.Base, path])

/-- The value `&FS{Base: ...}` seen through the `FileSystem` interface. -/
def toFileSystem (os : OS) (f : FS) : FileSystem :=
  { Stat := f.Stat os, ReadDir := f.ReadDir os, Abs := f.Abs os }

end FS

/-! ## Package `sort`: `sort.Sort` (pattern-defeating quicksort, Go 1.19 and later) -/

namespace sort

/-- Go: `type Interface interface { Len() int; Less(i, j int) bool; Swap(i, j int) }`
for a collection of type `σ`; `Swap` returns the updated collection. -/
structure Interface (σ : Type) where
  Len : σ → Nat
  Less : σ → Nat → Nat → Bool
  Swap : σ → Nat → Nat → σ

variable {σ : Type}

/-- The inner loop of `insertionSort`:
`for j := i; j > a && data.Less(j, j-1); j-- { data.Swap(j, j-1) }`. -/
def insertionInner (I : Interface σ) (a : Nat) : Nat → σ → σ
  | 0, data => data
  | j + 1, data =>
    if a < j + 1 && I.Less data (j + 1) j then insertionInner I a j (I.Swap data (j + 1) j)
    else data

/-- The outer loop of `insertionSort`, `for i := ...; i < b; i++`, with `n`
iterations left. -/
def insertionOuter (I : Interface σ) (a : Nat) : Nat → Nat → σ → σ
  | 0, _, data => data
  | n + 1, i, data => insertionOuter I a n (i + 1) (insertionInner I a i data)

/-- Go: `func insertionSort(data Interface, a, b int)`. -/
def insertionSort (I : Interface σ) (data : σ) (a b : Nat) : σ :=
  insertionOuter I a (b - (a + 1)) (a + 1) data

/-- Go: `func siftDown(data Interface, lo, hi, first int)`; the loop variable is
`root`, and the first argument bounds the number of iterations. -/
def siftDown (I : Interface σ) (hi first : Nat) : Nat → Nat → σ → σ
  | 0, _, data => data
  | fuel + 1, root, data =>
    let child := 2 * root + 1
    if hi ≤ child then data
    else
      let child := if child + 1 < hi && I.Less data (first + child) (first + child + 1)
        then child + 1 else child
      if !I.Less data (first + root) (first + child) then data
      else siftDown I hi first fuel child (I.Swap data (first + root) (first + child))

/-- First loop of `heapSort`: `for i := (hi - 1) / 2; i >= 0; i-- { siftDown(data, i, hi, first) }`. -/
def heapBuild (I : Interface σ) (hi first : Nat) : Nat → σ → σ
  | 0, data => siftDown I hi first hi 0 data
  | i + 1, data => heapBuild I hi first i (siftDown I hi first hi (i + 1) data)

/-- Second loop of `heapSort`:
`for i := hi - 1; i >= 0; i-- { data.Swap(first, first+i); siftDown(data, lo, i, first) }`. -/
def heapPop (I : Interface σ) (first : Nat) : Nat → σ → σ
  | 0, data => siftDown I 0 first 0 0 (I.Swap data first first)
  | i + 1, data =>
    heapPop I first i (siftDown I (i + 1) first (i + 1) 0 (I.Swap data first (first + (i + 1))))

/-- Go: `func heapSort(data Interface, a, b int)`. -/
def heapSort (I : Interface σ) (data : σ) (a b : Nat) : σ :=
  let hi := b - a
  if hi = 0 then data
  else heapPop I a (hi - 1) (heapBuild I hi a ((hi - 1) / 2) data)

/-- Scan `for i <= j && data.Less(i, a) { i++ }` of `partition`. -/
def scanLess (I : Interface σ) (data : σ) (a j : Nat) : Nat → Nat → Nat
  | 0, i => i
  | fuel + 1, i => if i ≤ j && I.Less data i a then scanLess I data a j fuel (i + 1) else i

/-- Scan `for i <= j && !data.Less(j, a) { j-- }` of `partition`. -/
def scanNotLess (I : Interface σ) (data : σ) (a i : Nat) : Nat → Nat
  | 0 => 0
  | j + 1 => if i ≤ j + 1 && !I.Less data (j + 1) a then scanNotLess I data a i j else j + 1

/-- The `for { ... }` loop of `partition`; returns the data and the final `j`. -/
def partitionLoop (I : Interface σ) (a : Nat) : Nat → σ → Nat → Nat → σ × Nat
  | 0, data, _, j => (data, j)
  | fuel + 1, data, i, j =>
    let i := scanLess I data a j (j + 1 - i) i
    let j := scanNotLess I data a i j
    if j < i then (data, j)
    else partitionLoop I a fuel (I.Swap data i j) (i + 1) (j - 1)

/-- Go: `func partition(data Interface, a, b, pivot int) (newpivot int, alreadyPartitioned bool)`. -/
def partition (I : Interface σ) (data : σ) (a b pivot : Nat) : σ × Nat × Bool :=
  let data := I.Swap data a pivot
  let i := scanLess I data a (b - 1) (b - a) (a + 1)
  let j := scanNotLess I data a i (b - 1)
  if j < i then (I.Swap data j a, j, true)
  else
    let r := partitionLoop I a (b - a) (I.Swap data i j) (i + 1) (j - 1)
    (I.Swap r.1 r.2 a, r.2, false)

/-- Scan `for i <= j && !data.Less(a, i) { i++ }` of `partitionEqual`. -/
def scanNotGreater (I : Interface σ) (data : σ) (a j : Nat) : Nat → Nat → Nat
  | 0, i => i
  | fuel + 1, i => if i ≤ j && !I.Less data a i then scanNotGreater I data a j fuel (i + 1) else i

/-- Scan `for i <= j && data.Less(a, j) { j-- }` of `partitionEqual`. -/
def scanGreater (I : Interface σ) (data : σ) (a i : Nat) : Nat → Nat
  | 0 => 0
  | j + 1 => if i ≤ j + 1 && I.Less data a (j + 1) then scanGreater I data a i j else j + 1

/-- The `for { ... }` loop of `partitionEqual`; returns the data and the final `i`. -/
def partitionEqualLoop (I : Interface σ) (a : Nat) : Nat → σ → Nat → Nat → σ × Nat
  | 0, data, i, _ => (data, i)
  | fuel + 1, data, i, j =>
    let i := scanNotGreater I data a j (j + 1 - i) i
    let j := scanGreater I data a i j
    if j < i then (data, i)
    else partitionEqualLoop I a fuel (I.Swap data i j) (i + 1) (j - 1)

/-- Go: `func partitionEqual(data Interface, a, b, pivot int) (newpivot int)`. -/
def partitionEqual (I : Interface σ) (data : σ) (a b pivot : Nat) : σ × Nat :=
  partitionEqualLoop I a (b - a + 1) (I.Swap data a pivot) (a + 1) (b - 1)

/-- The shifting loop `for j := i - 1; j >= 1; j-- { if !data.Less(j, j-1) { break }; data.Swap(j, j-1) }`
of `partialInsertionSort`. -/
def shiftLeft (I : Interface σ) : Nat → σ → σ
  | 0, data => data
  | j + 1, data =>
    if !I.Less data (j + 1) j then data else shiftLeft I j (I.Swap data (j + 1) j)

/-- The shifting loop `for j := i + 1; j < b; j++ { if !data.Less(j, j-1) { break }; data.Swap(j, j-1) }`
of `partialInsertionSort`, with `n` iterations left. -/
def shiftRight (I : Interface σ) : Nat → Nat → σ → σ
  | 0, _, data => data
  | n + 1, j, data =>
    if !I.Less data j (j - 1) then data else shiftRight I n (j + 1) (I.Swap data j (j - 1))

/-- Scan `for i < b && !data.Less(i, i-1) { i++ }` of `partialInsertionSort`. -/
def scanSorted (I : Interface σ) (data : σ) (b : Nat) : Nat → Nat → Nat
  | 0, i => i
  | fuel + 1, i => if i < b && !I.Less data i (i - 1) then scanSorted I data b fuel (i + 1) else i

/-- The loop `for j := 0; j < maxSteps; j++ { ... }` of `partialInsertionSort`,
with `steps` iterations left; returns the data and the result of the function. -/
def partialInsertionLoop (I : Interface σ) (a b : Nat) : Nat → Nat → σ → σ × Bool
  | 0, _, data => (data, false)
  | steps + 1, i, data =>
    let i := scanSorted I data b (b - i) i
    if i = b then (data, true)
    else if b - a < 50 then (data, false)
    else
      let data := I.Swap data i (i - 1)
      let data := if 2 ≤ i - a then shiftLeft I (i - 1) data else data
      let data := if 2 ≤ b - i then shiftRight I (b - (i + 1)) (i + 1) data else data
      partialInsertionLoop I a b steps i data

/-- Go: `func partialInsertionSort(data Interface, a, b int) bool`, with
`maxSteps = 5` and `shortestShifting = 50`. -/
def partialInsertionSort (I : Interface σ) (data : σ) (a b : Nat) : σ × Bool :=
  partialInsertionLoop I a b 5 (a + 1) data

/-- Halving loop behind `bitsLen`, with a bound on the number of iterations. -/
def bitsLenLoop : Nat → Nat → Nat
  | 0, _ => 0
  | fuel + 1, n => if n = 0 then 0 else bitsLenLoop fuel (n / 2) + 1

/-- Go: `bits.Len(uint(n))`: the number of bits needed to write `n`. -/
def bitsLen (n : Nat) : Nat := bitsLenLoop n n

/-- Go: `func (r *xorshift) Next() uint64` on a 64-bit state. -/
def xorshiftNext (r : Nat) : Nat :=
  let r := r ^^^ ((r <<< 13) % 2 ^ 64)
  let r := r ^^^ (r >>> 7)
  r ^^^ ((r <<< 17) % 2 ^ 64)

/-- The loop `for i := 0; i < 3; i++ { ... }` of `breakPatterns`, with `n`
iterations left. -/
def breakPatternsLoop (I : Interface σ) (a length modulus idx : Nat) : Nat → Nat → Nat → σ → σ
  | 0, _, _, data => data
  | n + 1, i, random, data =>
    let random := xorshiftNext random
    let other := random % modulus
    let other := if length ≤ other then other - length else other
    breakPatternsLoop I a length modulus idx n (i + 1) random (I.Swap data (idx - 1 + i) (a + other))

/-- Go: `func breakPatterns(data Interface, a, b int)`; `modulus` is
`nextPowerOfTwo(length)`, so `random & (modulus - 1)` is `random % modulus`. -/
def breakPatterns (I : Interface σ) (data : σ) (a b : Nat) : σ :=
  let length := b - a
  if 8 ≤ length then
    breakPatternsLoop I a length (2 ^ bitsLen length) (a + (length / 4) * 2 - 1) 3 0 length data
  else data

/-- Go: `func order2(data Interface, a, b int, swaps *int) (int, int)`; the
counter `swaps` is returned as third component. -/
def order2 (I : Interface σ) (data : σ) (a b swaps : Nat) : Nat × Nat × Nat :=
  if I.Less data b a then (b, a, swaps + 1) else (a, b, swaps)

/-- Go: `func median(data Interface, a, b, c int, swaps *int) int`. -/
def median (I : Interface σ) (data : σ) (a b c swaps : Nat) : Nat × Nat :=
  let r1 := order2 I data a b swaps
  let r2 := order2 I data r1.2.1 c r1.2.2
  let r3 := order2 I data r1.1 r2.1 r2.2.2
  (r3.2.1, r3.2.2)

/-- Go: `func medianAdjacent(data Interface, a int, swaps *int) int`. -/
def medianAdjacent (I : Interface σ) (data : σ) (a swaps : Nat) : Nat × Nat :=
  median I data (a - 1) a (a + 1) swaps

/-- Go: `type sortedHint int`. -/
inductive sortedHint where
  | unknownHint
  | increasingHint
  | decreasingHint
deriving DecidableEq, Repr

/-- Go: `func choosePivot(data Interface, a, b int) (pivot int, hint sortedHint)`,
with `shortestNinther = 50` and `maxSwaps = 4 * 3`. -/
def choosePivot (I : Interface σ) (data : σ) (a b : Nat) : Nat × sortedHint :=
  let l := b - a
  let i := a + l / 4 * 1
  let j := a + l / 4 * 2
  let k := a + l / 4 * 3
  let r : Nat × Nat :=
    if 8 ≤ l then
      if 50 ≤ l then
        let ri := medianAdjacent I data i 0
        let rj := medianAdjacent I data j ri.2
        let rk := medianAdjacent I data k rj.2
        median I data ri.1 rj.1 rk.1 rk.2
      else median I data i j k 0
    else (j, 0)
  if r.2 = 0 then (r.1, sortedHint.increasingHint)
  else if r.2 = 12 then (r.1, sortedHint.decreasingHint)
  else (r.1, sortedHint.unknownHint)

/-- Go: `func reverseRange(data Interface, a, b int)`: the loop `for i < j`, with
a bound on the number of iterations. -/
def reverseLoop (I : Interface σ) : Nat → Nat → Nat → σ → σ
  | 0, _, _, data => data
  | fuel + 1, i, j, data =>
    if i < j then reverseLoop I fuel (i + 1) (j - 1) (I.Swap data i j) else data

/-- Go: `func reverseRange(data Interface, a, b int)`. -/
def reverseRange (I : Interface σ) (data : σ) (a b : Nat) : σ :=
  reverseLoop I (b - a) a (b - 1) data

/-- Go: `func pdqsort(data Interface, a, b, limit int)` with `maxInsertion = 12`.
The `for` loop and the recursive call share the first argument, a bound on
the number of iterations and nested calls; the loop state is `a`, `b`,
`limit`, `wasBalanced` and `wasPartitioned`. -/
def pdqsortLoop (I : Interface σ) : Nat → σ → Nat → Nat → Nat → Bool → Bool → σ
  | 0, data, _, _, _, _, _ => data
  | fuel + 1, data, a, b, limit, wasBalanced, wasPartitioned =>
    let length := b - a
    if length ≤ 12 then insertionSort I data a b
    -- Fall back to heapsort if too many bad choices were made.
    else if limit = 0 then heapSort I data a b
    else
      -- If the last partitioning was imbalanced, we need to breakPatterns.
      let data := if !wasBalanced then breakPatterns I data a b else data
      let limit := if !wasBalanced then limit - 1 else limit
      let ph := choosePivot I data a b
      let data := if ph.2 = sortedHint.decreasingHint then reverseRange I data a b else data
      let pivot := if ph.2 = sortedHint.decreasingHint then (b - 1) - (ph.1 - a) else ph.1
      let hint := if ph.2 = sortedHint.decreasingHint then sortedHint.increasingHint else ph.2
      -- The slice is likely already sorted.
      let pis : σ × Bool :=
        if wasBalanced && wasPartitioned && hint = sortedHint.increasingHint then
          partialInsertionSort I data a b
        else (data, false)
      if pis.2 then pis.1
      else
        let data := pis.1
        if 0 < a && !I.Less data (a - 1) pivot then
          let pe := partitionEqual I data a b pivot
          pdqsortLoop I fuel pe.1 pe.2 b limit wasBalanced wasPartitioned
        else
          let pr := partition I data a b pivot
          let mid := pr.2.1
          let leftLen := mid - a
          let rightLen := b - mid
          let balanceThreshold := length / 8
          if leftLen < rightLen then
            pdqsortLoop I fuel (pdqsortLoop I fuel pr.1 a mid limit true true)
              (mid + 1) b limit (decide (balanceThreshold ≤ leftLen)) pr.2.2
          else
            pdqsortLoop I fuel (pdqsortLoop I fuel pr.1 (mid + 1) b limit true true)
              a mid limit (decide (balanceThreshold ≤ rightLen)) pr.2.2

/-- Go: `func Sort(data Interface)`, that is `sort.Sort`. -/
def sortSort (I : Interface σ) (data : σ) : σ :=
  let n := I.Len data
  if n ≤ 1 then data
  else pdqsortLoop I (n + 1) data 0 n (bitsLen n) true true

/-- Go: `func IsSorted(data Interface) bool`: no element is `Less` than its predecessor. -/
def IsSorted (I : Interface σ) (data : σ) : Bool :=
  (List.range (I.Len data - 1)).all (fun i => !I.Less data (i + 1) i)

end sort

/-- The value `ByType(files)` seen through `sort.Interface`. -/
def ByType.Interface : sort.Interface ByType :=
  { Len := ByType.Len, Less := ByType.Less, Swap := ByType.Swap }

/-! ## The rest of the standard library, as seen by `browse.go` -/

/-- Go: `type Template string`. -/
abbrev Template := String

/-- The map handed to `t.Execute`: the keys `"Files"`, `"Path"` and `"UnescapedPath"`. -/
structure TemplateData where
  Files : ByType
  Path : String
  UnescapedPath : String
deriving DecidableEq, Repr

/-- What one call `t.Execute(w, data)` does: the successive `Write` calls it
makes on `w`, and the error it returns (from the execution of the template or
from a failed write), if any. -/
structure ExecResult where
  writes : List String
  err : Option Error
deriving DecidableEq, Repr

/-- The library functions whose code is not part of the package and which the
package reaches through values it is given: `sort.Sort`,
`template.New("files").Parse` (a parsed template is represented by what its
`Execute` does) and `url.PathUnescape`. -/
structure Runtime where
  sortSort : sort.Interface ByType → ByType → ByType
  templateParse : String → Except Error (TemplateData → ExecResult)
  PathUnescape : String → Except Error String

/-! ## `net/http`: the response writer -/

/-- The state of an `http.ResponseWriter`: the status code once the header
has been written, and the body written so far. -/
structure ResponseWriter where
  status : Option Nat
  body : String
deriving DecidableEq, Repr

namespace ResponseWriter

/-- A fresh response: nothing written yet. -/
def new : ResponseWriter := { status := none, body := "" }

/-- Go: `w.WriteHeader(code)`: only the first call sets the status code. -/
def WriteHeader (w : ResponseWriter) (code : Nat) : ResponseWriter :=
  match w.status with
  | none => { w with status := some code }
  | some _ => w

/-- Go: `w.Write(b)`: writes the header with status 200 first if it has not been
written yet, then appends to the body. -/
def Write (w : ResponseWriter) (b : String) : ResponseWriter :=
  let w := w.WriteHeader 200
  { w with body := w.body ++ b }

/-- The status code the client receives: 200 when the handler returns without
having written the header. -/
def sentStatus (w : ResponseWriter) : Nat := w.status.getD 200

end ResponseWriter

namespace http

/-- Go: `http.StatusForbidden`. -/
def StatusForbidden : Nat := 403

/-- Go: `http.StatusInternalServerError`. -/
def StatusInternalServerError : Nat := 500

/-- Go: `http.StatusText` on the two codes the package uses. -/
def StatusText (code : Nat) : String :=
  if code = 403 then "Forbidden"
  else if code = 500 then "Internal Server Error"
  else ""

/-- Go: `http.Error(w, error, code)`: `w.WriteHeader(code); fmt.Fprintln(w, error)`
(the header fields it sets are not modelled). -/
def Error (w : ResponseWriter) (error : String) (code : Nat) : ResponseWriter :=
  (w.WriteHeader code).Write (error ++ "\n")

/-- The part of `*http.Request` that the handler reads: the parsed query,
`r.URL.Query()`, as a list of keys with their values. -/
structure Request where
  query : List (String × List String)
deriving DecidableEq, Repr

/-- Go: `r.URL.Query().Get(key)`: the first value of the key, or the empty string. -/
def Request.queryGet (r : Request) (key : String) : String :=
  match r.query.find? (fun kv => kv.1 == key) with
  | some (_, v :: _) => v
  | _ => ""

end http

/-! ## `Browser` -/

/-- Go: `type Browser struct { fs FileSystem; rootAbs string; template Template }`. -/
structure Browser where
  fs : FileSystem
  rootAbs : String
  template : Template

/-- Go: `func New(fs FileSystem, template Template) (*Browser, error)`. -/
def New (fs : FileSystem) (template : Template) : Except Error Browser :=
  match fs.Abs "" with
  | Except.error err => Except.error err
  | Except.ok rootAbs =>
    Except.ok { fs := fs, template := template, rootAbs := filepath.Clean rootAbs }

/-- A call that `FileListing` makes on the `FileSystem`, with its argument. -/
inductive FSCall where
  | Abs (path : String)
  | ReadDir (root : String)
  | Stat (name : String)
deriving DecidableEq, Repr

/-- Everything observable of one call `b.FileListing(path, w)`: the returned
error, the calls made on the `FileSystem` in order, the lines printed with
`fmt.Println`, the map passed to `t.Execute` when the call gets that far, and
the successive writes made on `w`. -/
structure Listing where
  err : Option Error
  calls : List FSCall
  stdout : List String
  data : Option TemplateData
  writes : List String
deriving DecidableEq, Repr

/-- The values `FileListing` holds when it reaches `sort.Sort`: the cleaned
request path, its resolution `abs`, the slice `files` (with the parent entry
when one was appended) and the calls made on the `FileSystem` so far. -/
structure Collected where
  path : String
  abs : String
  files : ByType
  calls : List FSCall
deriving DecidableEq, Repr

namespace Browser

/-- The beginning of `FileListing`, up to `sort.Sort`: clean and resolve the
path, check the confinement, read the directory, append the parent entry.
An early `return err` is the `Except.error` case, with all that is observable
of the call. -/
def collectFiles (b : Browser) (path : String) : Except Listing Collected :=
  let path := if path = "" then "/" else path
  let path := filepath.Clean path
  match b.fs.Abs path with
  | Except.error err =>
    Except.error
      { err := some err, calls := [FSCall.Abs path], stdout := [], data := none, writes := [] }
  | Except.ok abs =>
    if len abs < len b.rootAbs then
      Except.error
        { err := some ErrAccessDenied, calls := [FSCall.Abs path], stdout := [], data := none,
          writes := [] }
    else
      match b.fs.ReadDir path with
      | Except.error err =>
        Except.error
          { err := some err, calls := [FSCall.Abs path, FSCall.ReadDir path], stdout := [],
            data := none, writes := [] }
      | Except.ok files =>
        let files : ByType := files.map Entry.info
        -- fmt.Println(abs)
        if abs ≠ "/" ∧ abs ≠ "." ∧ abs ≠ b.rootAbs then
          match b.fs.Stat ".." with
          | Except.error err =>
            Except.error
              { err := some err,
                calls := [FSCall.Abs path, FSCall.ReadDir path, FSCall.Stat ".."],
                stdout := [abs], data := none, writes := [] }
          | Except.ok previous =>
            Except.ok
              { path := path, abs := abs,
                files := files ++ [Entry.previousDirectory previous],
                calls := [FSCall.Abs path, FSCall.ReadDir path, FSCall.Stat ".."] }
        else
          Except.ok
            { path := path, abs := abs, files := files,
              calls := [FSCall.Abs path, FSCall.ReadDir path] }

/-- The end of `FileListing`, from `sort.Sort(ByType(files))` on: sort, parse
the template, unescape the path, execute the template on `w`. -/
def renderListing (rt : Runtime) (b : Browser) (c : Collected) : Listing :=
  let files := rt.sortSort ByType.Interface c.files
  match rt.templateParse b.template with
  | Except.error err =>
    { err := some err, calls := c.calls, stdout := [c.abs], data := none, writes := [] }
  | Except.ok t =>
    match rt.PathUnescape c.path with
    | Except.error err =>
      { err := some err, calls := c.calls, stdout := [c.abs], data := none, writes := [] }
    | Except.ok unescaped =>
      let data : TemplateData :=
        { Files := files, Path := c.path,
          UnescapedPath := filepath.Clean (filepath.Join [b.rootAbs, unescaped]) }
      let r := t data
      { err := r.err, calls := c.calls, stdout := [c.abs], data := some data,
        writes := r.writes }

/-- Go: `func (b *Browser) FileListing(path string, w io.Writer) error`. -/
def FileListing (rt : Runtime) (b : Browser) (path : String) : Listing :=
  match b.collectFiles path with
  | Except.error early => early
  | Except.ok c => b.renderListing rt c

/-- Go: `func (b *Browser) error(w http.ResponseWriter, r *http.Request, err error)`
(the line written to the log is not modelled). -/
def error (_b : Browser) (w : ResponseWriter) (_r : http.Request) (_err : Error) :
    ResponseWriter :=
  (w.WriteHeader http.StatusInternalServerError).Write "an error occurred"

/-- Go: `func (b *Browser) ServeHTTP(w http.ResponseWriter, r *http.Request)`:
the writes of `FileListing` go to `w`, then the returned error is mapped to a
response. -/
def ServeHTTP (rt : Runtime) (b : Browser) (w : ResponseWriter) (r : http.Request) :
    ResponseWriter :=
  let path := r.queryGet "path"
  let res := b.FileListing rt path
  let w := res.writes.foldl ResponseWriter.Write w
  match res.err with
  | some err =>
    if err = ErrAccessDenied then
      http.Error w (http.StatusText http.StatusForbidden) http.StatusForbidden
    else
      b.error w r err
  | none => w

end Browser

/-! ## A concrete runtime and a concrete disk, for evaluating the code -/

namespace url

/-- Go: `func ishex(c byte) bool`. -/
def ishex (c : Char) : Bool :=
  ('0' ≤ c && c ≤ '9') || ('a' ≤ c && c ≤ 'f') || ('A' ≤ c && c ≤ 'F')

/-- Go: `func unhex(c byte) byte`. -/
def unhex (c : Char) : Nat :=
  if '0' ≤ c && c ≤ '9' then c.toNat - '0'.toNat
  else if 'a' ≤ c && c ≤ 'f' then c.toNat - 'a'.toNat + 10
  else if 'A' ≤ c && c ≤ 'F' then c.toNat - 'A'.toNat + 10
  else 0

/-- First pass of `unescape` in mode `encodePathSegment`: the first `%` that
is not followed by two hexadecimal digits, cut to three bytes. -/
def badEscape : List Char → Option (List Char)
  | [] => none
  | '%' :: h1 :: h2 :: rest =>
    if ishex h1 && ishex h2 then badEscape rest else some ['%', h1, h2]
  | '%' :: rest => some ('%' :: rest)
  | _ :: rest => badEscape rest

/-- Second pass of `unescape` in mode `encodePathSegment`: every `%XX` is
replaced by the byte it denotes (bytes from 0x80 on are outside what a Lean
string can hold one by one; they are rendered as the code point of that number). -/
def decode : List Char → List Char
  | [] => []
  | '%' :: h1 :: h2 :: rest => Char.ofNat (unhex h1 * 16 + unhex h2) :: decode rest
  | c :: rest => c :: decode rest

/-- Go: `func PathUnescape(s string) (string, error)`. -/
def PathUnescape (s : String) : Except Error String :=
  match badEscape s.data with
  | some bad => Except.error (Error.other ("invalid URL escape " ++ String.mk bad))
  | none => Except.ok ⟨decode s.data⟩

end url

/-- Whether the template text contains the left action delimiter. -/
def hasAction : List Char → Bool
  | [] => false
  | '\x7b' :: '\x7b' :: _ => true
  | _ :: rest => hasAction rest

/-- The template text `<b>` followed by the action `.Path.Nope`: the action
selects a field of the string stored under `"Path"`, which fails when the
template is executed. -/
def brokenTemplate : Template := "<b>\x7b\x7b .Path.Nope \x7d\x7d"

/-- The behaviour of `template.New("files").Parse(text)` and of `Execute` on
the parsed template, for the template texts used in this development: a text
without action is copied to `w` in one write; `brokenTemplate` parses, and its
execution writes the text node `<b>` and then stops with an error at the
action.  Other texts are not covered and are reported as errors here. -/
def sampleParse (text : String) : Except Error (TemplateData → ExecResult) :=
  if text = brokenTemplate then
    Except.ok (fun _ =>
      { writes := ["<b>"],
        err := some (Error.other "template: files: can't evaluate field Nope in type string") })
  else if hasAction text.data then
    Except.error (Error.other "template: not covered")
  else
    Except.ok (fun _ => { writes := if text = "" then [] else [text], err := none })

/-- The runtime with the `sort.Sort` of Go 1.19 and later. -/
def goRuntime : Runtime :=
  { sortSort := sort.sortSort, templateParse := sampleParse, PathUnescape := url.PathUnescape }

/-- A directory as `os.Stat` describes it. -/
def dirInfo (name : String) : FileInfo :=
  { Name := name, Size := 4096, Mode := 2147484141, ModTime := 0, IsDir := true }

/-- A regular file as `os.Stat` describes it. -/
def fileInfo (name : String) : FileInfo :=
  { Name := name, Size := 12, Mode := 420, ModTime := 0, IsDir := false }

/-- A disk with the directories `/srv`, `/srv/files` (holding `a.txt` and
`sub`), `/srv/files/sub` (holding `deep`), `/srv/files/sub/deep` (empty),
`/srv/secret-data` (holding `passwords.txt`) and `/etc`; the process runs in `/`. -/
def sampleOS : OS :=
  { Getwd := Except.ok "/"
    Stat := fun p =>
      if p = "/" then Except.ok (dirInfo "/")
      else if p = "/srv" then Except.ok (dirInfo "srv")
      else if p = "/srv/files" then Except.ok (dirInfo "files")
      else if p = "/srv/files/sub" then Except.ok (dirInfo "sub")
      else if p = "/srv/files/sub/deep" then Except.ok (dirInfo "deep")
      else if p = "/srv/files/a.txt" then Except.ok (fileInfo "a.txt")
      else if p = "/srv/secret-data" then Except.ok (dirInfo "secret-data")
      else if p = "/srv/secret-data/passwords.txt" then Except.ok (fileInfo "passwords.txt")
      else if p = "/etc" then Except.ok (dirInfo "etc")
      else Except.error (Error.other ("stat " ++ p ++ ": no such file or directory"))
    ReadDir := fun p =>
      if p = "/" then Except.ok [dirInfo "etc", dirInfo "srv"]
      else if p = "/srv" then Except.ok [dirInfo "files", dirInfo "secret-data"]
      else if p = "/srv/files" then Except.ok [fileInfo "a.txt", dirInfo "sub"]
      else if p = "/srv/files/sub" then Except.ok [dirInfo "deep"]
      else if p = "/srv/files/sub/deep" then Except.ok []
      else if p = "/srv/secret-data" then Except.ok [fileInfo "passwords.txt"]
      else if p = "/etc" then Except.ok []
      else Except.error (Error.other ("open " ++ p ++ ": no such file or directory")) }

/-- The file system `&FS{Base: "/srv/files"}` on `sampleOS`. -/
def sampleFS : FileSystem := FS.toFileSystem sampleOS { Base := "/srv/files" }

/-- The browser that `New(&FS{Base: "/srv/files"}, template)` returns on `sampleOS`. -/
def sampleBrowser (template : Template) : Browser :=
  { fs := sampleFS, rootAbs := "/srv/files", template := template }

/-! ## Notions used to state the properties -/

/-- Equality of results `(value, error)` can be decided. -/
instance decEqExcept {ε α : Type} [DecidableEq ε] [DecidableEq α] : DecidableEq (Except ε α)
  | Except.error a, Except.error b =>
    if h : a = b then isTrue (by rw [h]) else isFalse (by intro h1; cases h1; exact h rfl)
  | Except.ok a, Except.ok b =>
    if h : a = b then isTrue (by rw [h]) else isFalse (by intro h1; cases h1; exact h rfl)
  | Except.error _, Except.ok _ => isFalse (by intro h; cases h)
  | Except.ok _, Except.error _ => isFalse (by intro h; cases h)

namespace filepath

/-- The elements of a path: what stands between its separators, without the
empty elements. -/
def components (s : String) : List (List Char) :=
  (s.data.splitOn '/').filter (fun c => !c.isEmpty)

/-- The path `s` is an absolute path in the form `Clean` produces: it is the
result of cleaning some rooted path. -/
def CleanAbs (s : String) : Prop := ∃ p : String, IsAbs p = true ∧ s = Clean p

/-- The path `a` is a strict ancestor of the path `r`: its elements are a
proper prefix of the elements of `r`. -/
def StrictAncestor (a r : String) : Prop :=
  components a <+: components r ∧ components a ≠ components r

instance (a r : String) : Decidable (StrictAncestor a r) := by
  unfold StrictAncestor; infer_instance

/-- The path `d` is the path `r` or lies below it: the elements of `r` are a
prefix of the elements of `d`. -/
def Within (r d : String) : Prop := components r <+: components d

instance (r d : String) : Decidable (Within r d) := by
  unfold Within; infer_instance

/-- The number of bytes of a sequence of characters in UTF-8. -/
def byteCount : List Char → Nat
  | [] => 0
  | c :: cs => byteCount cs + c.utf8Size

/-- The elements `cs`, each one after a separator. -/
def slashed : List (List Char) → List Char
  | [] => []
  | c :: cs => '/' :: (c ++ slashed cs)

/-- The absolute path with elements `cs`: the root when there is none. -/
def absForm (cs : List (List Char)) : List Char :=
  match cs with
  | [] => ['/']
  | _ :: _ => slashed cs

/-- Every element is non-empty and holds no separator. -/
def GoodElems (cs : List (List Char)) : Prop := ∀ c ∈ cs, c ≠ [] ∧ '/' ∉ c

/-- The buffer of `Clean` on a rooted path (last byte first): an absolute
path in clean form. -/
def RootedBuf (out : List Char) : Prop :=
  ∃ cs, GoodElems cs ∧ out = (absForm cs).reverse

end filepath

/-- The path `FileListing` works with, its first two statements:
`if path == "" { path = "/" }; path = filepath.Clean(path)`. -/
def requestPath (path : String) : String :=
  filepath.Clean (if path = "" then "/" else path)

/-- The contract of `sort.Sort` on the slice `l`: the result is a
rearrangement of `l` that `sort.IsSorted` accepts. -/
def Runtime.SortsCorrectly (rt : Runtime) (l : ByType) : Prop :=
  (rt.sortSort ByType.Interface l).Perm l ∧
    sort.IsSorted ByType.Interface (rt.sortSort ByType.Interface l) = true

/-- Neither the file system nor the runtime returns the sentinel
`ErrAccessDenied` of the package as an error of its own. -/
def SentinelFree (rt : Runtime) (b : Browser) : Prop :=
  (∀ x, b.fs.ReadDir x ≠ Except.error ErrAccessDenied) ∧
  (∀ x, b.fs.Stat x ≠ Except.error ErrAccessDenied) ∧
  rt.templateParse b.template ≠ Except.error ErrAccessDenied ∧
  (∀ x, rt.PathUnescape x ≠ Except.error ErrAccessDenied) ∧
  (∀ t d, rt.templateParse b.template = Except.ok t → (t d).err ≠ some ErrAccessDenied)

/-- The comparison `ByType.Less` makes between the entry at index `i` (here
`x`) and the entry at index `j` (here `y`). -/
def lessEntries (x y : Entry) : Bool :=
  if x.Name == ".." then true
  else if x.IsDir && !y.IsDir then true
  else false

/-- The entries of one category that are not displayed as `..`: the
directories when `dir` is true, the others when it is false. -/
def ofKind (dir : Bool) (e : Entry) : Bool := e.Name != ".." && e.IsDir == dir

/-- Thirteen directory entries in the order `ioutil.ReadDir` returns them
(sorted by file name): the second one is a directory, the others are regular files. -/
def wideEntries : List FileInfo :=
  [fileInfo "e00", dirInfo "e01", fileInfo "e02", fileInfo "e03", fileInfo "e04",
   fileInfo "e05", fileInfo "e06", fileInfo "e07", fileInfo "e08", fileInfo "e09",
   fileInfo "e10", fileInfo "e11", fileInfo "e12"]

/-- A disk whose directory `/srv/wide` holds `wideEntries`; the process runs in `/`. -/
def wideOS : OS :=
  { Getwd := Except.ok "/"
    Stat := fun p =>
      if p = "/srv" then Except.ok (dirInfo "srv")
      else if p = "/srv/wide" then Except.ok (dirInfo "wide")
      else Except.error (Error.other ("stat " ++ p ++ ": no such file or directory"))
    ReadDir := fun p =>
      if p = "/srv/wide" then Except.ok wideEntries
      else Except.error (Error.other ("open " ++ p ++ ": no such file or directory")) }

/-- The browser that `New(&FS{Base: "/srv/wide"}, "listing")` returns on `wideOS`. -/
def wideBrowser : Browser :=
  { fs := FS.toFileSystem wideOS { Base := "/srv/wide" }, rootAbs := "/srv/wide",
    template := "listing" }


/-! ## Notions used to state that `sort.Sort` orders a slice -/

/-- The rank of an entry in the order `ByType.Less` describes: the entry
displayed as `..`, then the directories, then the other entries. -/
def entryRank (e : Entry) : Nat :=
  if e.Name = ".." then 0 else if e.IsDir = true then 1 else 2

/-- The rank of the entry at index `i` (0 when there is none). -/
def rankAt (d : ByType) (i : Nat) : Nat :=
  match d.get? i with
  | some e => entryRank e
  | none => 0

/-- The slice can be ordered by rank: every entry displayed as `..` is a
directory, and at most one index holds such an entry. -/
def Sortable (d : ByType) : Prop :=
  (∀ e ∈ d, e.Name = ".." → e.IsDir = true) ∧
  (∀ i j, i < d.length → j < d.length → rankAt d i = 0 → rankAt d j = 0 → i = j)

/-- The slice `d'` is `d` after exchanges of entries at indices of `[a, b)`. -/
inductive Shuffle (a b : Nat) : ByType → ByType → Prop where
  | refl (d : ByType) : Shuffle a b d d
  | step {d d' : ByType} (i j : Nat) : Shuffle a b d d' → a ≤ i → i < b → a ≤ j → j < b →
      b ≤ d'.length → Shuffle a b d (ByType.Swap d' i j)

/-- The ranks of the entries at the indices of `[a, b)` do not decrease. -/
def SortedOn (d : ByType) (a b : Nat) : Prop :=
  ∀ i j, a ≤ i → i < j → j < b → rankAt d i ≤ rankAt d j

/-- The state of the inner loop of `insertionSort` at index `j`, while the
entry first found at index `i` is moved down: away from index `j` the ranks
on `[a, i]` do not decrease, and no entry after index `j` has a smaller rank
than the entry at index `j`. -/
def InsertionInv (d : ByType) (a j i : Nat) : Prop :=
  (∀ x y, a ≤ x → x < y → y ≤ i → x ≠ j → y ≠ j → rankAt d x ≤ rankAt d y) ∧
  (∀ y, j < y → y ≤ i → rankAt d j ≤ rankAt d y)

/-- The result of the exchange loop of `partition`: the entries after index
`a` up to index `j` have a smaller rank than the pivot kept at index `a`, the
entries after index `j` do not. -/
def Partitioned (d : ByType) (a b j : Nat) : Prop :=
  a ≤ j ∧ j < b ∧ (∀ x, a < x → x ≤ j → rankAt d x < rankAt d a) ∧
    (∀ x, j < x → x < b → rankAt d a ≤ rankAt d x)

/-- The result of `partition`: the pivot is at index `mid`, the entries of
the range before it have a smaller rank, the entries after it do not. -/
def PartitionedAt (d : ByType) (a b mid : Nat) : Prop :=
  a ≤ mid ∧ mid < b ∧ (∀ x, a ≤ x → x < mid → rankAt d x < rankAt d mid) ∧
    (∀ x, mid < x → x < b → rankAt d mid ≤ rankAt d x)

/-- The result of `partitionEqual`: from index `mid` on the entries of the
range have a greater rank than the pivot kept at index `a`, before it they do not. -/
def PartitionedEqual (d : ByType) (a b mid : Nat) : Prop :=
  a < mid ∧ mid ≤ b ∧ (∀ x, a < x → x < mid → rankAt d x ≤ rankAt d a) ∧
    (∀ x, mid ≤ x → x < b → rankAt d a < rankAt d x)

/-- No entry of the range `[a, b)` has a smaller rank than the entry right
before the range, when there is one. -/
def LowerBound (d : ByType) (a b : Nat) : Prop :=
  0 < a → ∀ x, a ≤ x → x < b → rankAt d (a - 1) ≤ rankAt d x

/-- The heap property at node `r` of the heap stored at the indices
`first, ..., first + n - 1`: no child of `r` has a greater rank than `r`. -/
def HeapAt (d : ByType) (first n r : Nat) : Prop :=
  (2 * r + 1 < n → rankAt d (first + (2 * r + 1)) ≤ rankAt d (first + r)) ∧
  (2 * r + 2 < n → rankAt d (first + (2 * r + 2)) ≤ rankAt d (first + r))

/-- What a directory tree guarantees about the answers of the file system to
the request `p`: `ReadDir` returns no entry named `..` (the entries `.` and
`..` are never enumerated), and what `Stat("..")` describes is a directory. -/
def RealListing (b : Browser) (p : String) : Prop :=
  (∀ files, b.fs.ReadDir (requestPath p) = Except.ok files → ∀ fi ∈ files, fi.Name ≠ "..") ∧
  (∀ previous, b.fs.Stat ".." = Except.ok previous → previous.IsDir = true)
/-! # Properties -/

/-! ## Byte lengths and the clean form of absolute paths -/

namespace filepath

theorem len_mk (l : List Char) : len ⟨l⟩ = byteCount l := by
  show String.utf8ByteSize.go l = byteCount l
  induction l with
  | nil => rfl
  | cons c cs ih =>
    show String.utf8ByteSize.go cs + c.utf8Size = byteCount cs + c.utf8Size
    rw [ih]

theorem len_eq (s : String) : len s = byteCount s.data := len_mk s.data

theorem byteCount_append (a b : List Char) : byteCount (a ++ b) = byteCount a + byteCount b := by
  induction a with
  | nil => simp [byteCount]
  | cons c cs ih => simp [byteCount, ih]; omega

theorem byteCount_pos {l : List Char} (h : l ≠ []) : 0 < byteCount l := by
  cases l with
  | nil => exact absurd rfl h
  | cons c cs => have := c.utf8Size_pos; simp [byteCount]; omega

theorem byteCount_slash : byteCount ['/'] = 1 := by decide

theorem slashed_append (a b : List (List Char)) : slashed (a ++ b) = slashed a ++ slashed b := by
  induction a with
  | nil => rfl
  | cons c cs ih => simp [slashed, ih]

theorem byteCount_slashed_cons (c : List Char) (cs : List (List Char)) :
    byteCount (slashed (c :: cs)) = 1 + byteCount c + byteCount (slashed cs) := by
  have h1 : byteCount ('/' :: (c ++ slashed cs)) = byteCount (c ++ slashed cs) + 1 := by
    show byteCount (c ++ slashed cs) + ('/' : Char).utf8Size = _
    have : ('/' : Char).utf8Size = 1 := by decide
    rw [this]
  show byteCount ('/' :: (c ++ slashed cs)) = _
  rw [h1, byteCount_append]; omega

theorem one_le_byteCount_absForm (cs : List (List Char)) : 1 ≤ byteCount (absForm cs) := by
  cases cs with
  | nil => simp [absForm, byteCount_slash]
  | cons c cs => simp only [absForm]; rw [byteCount_slashed_cons]; omega

theorem two_le_byteCount_slashed {c : List Char} (cs : List (List Char)) (hc : c ≠ []) :
    2 ≤ byteCount (slashed (c :: cs)) := by
  rw [byteCount_slashed_cons]; have := byteCount_pos hc; omega

/-- The byte length of an absolute path does not decrease when elements are added. -/
theorem byteCount_absForm_le (a ex : List (List Char)) :
    byteCount (absForm a) ≤ byteCount (absForm (a ++ ex)) := by
  cases a with
  | nil => simpa [absForm, byteCount_slash] using one_le_byteCount_absForm ex
  | cons c cs =>
    show byteCount (slashed (c :: cs)) ≤ byteCount (slashed ((c :: cs) ++ ex))
    rw [slashed_append, byteCount_append]; omega

/-- The byte length of an absolute path grows when elements are added. -/
theorem byteCount_absForm_lt (a ex : List (List Char)) (hex : ex ≠ []) (hgood : GoodElems ex) :
    byteCount (absForm a) < byteCount (absForm (a ++ ex)) := by
  obtain ⟨e, es, rfl⟩ := List.exists_cons_of_ne_nil hex
  have he : e ≠ [] := (hgood e (List.mem_cons_self _ _)).1
  have h2 := two_le_byteCount_slashed es he
  cases a with
  | nil =>
    show byteCount ['/'] < byteCount (slashed (e :: es))
    rw [byteCount_slash]; omega
  | cons c cs =>
    show byteCount (slashed (c :: cs)) < byteCount (slashed ((c :: cs) ++ (e :: es)))
    rw [slashed_append, byteCount_append]; omega

end filepath
namespace filepath

theorem length_slashed_cons_ge {c : List Char} (cs : List (List Char)) (hc : c ≠ []) :
    2 ≤ (slashed (c :: cs)).length := by
  have : 0 < c.length := List.length_pos.mpr hc
  simp [slashed]; omega

theorem length_absForm_eq_one {cs : List (List Char)} (h : GoodElems cs) :
    (absForm cs).length = 1 ↔ cs = [] := by
  cases cs with
  | nil => simp [absForm]
  | cons c cs =>
    have := length_slashed_cons_ge cs (h c (List.mem_cons_self _ _)).1
    simp only [absForm]; constructor
    · intro h1; omega
    · intro h1; cases h1

theorem absForm_ne_nil (cs : List (List Char)) : absForm cs ≠ [] := by
  cases cs <;> simp [absForm, slashed]

theorem absForm_concat (cs : List (List Char)) (c : List Char) :
    absForm (cs ++ [c]) = slashed cs ++ '/' :: c := by
  have h : absForm (cs ++ [c]) = slashed (cs ++ [c]) := by
    cases cs <;> rfl
  rw [h, slashed_append]; simp [slashed]

theorem backtrack_elem (w R : List Char) (hw : ∀ x ∈ w, x ≠ '/') (hR : R ≠ []) :
    backtrack 1 (w ++ '/' :: R) = R := by
  induction w with
  | nil => simp [backtrack, isPathSeparator]
  | cons x w ih =>
    have hx : x ≠ '/' := hw x (List.mem_cons_self _ _)
    have hlen : 1 < (w ++ '/' :: R).length := by
      have : 0 < R.length := List.length_pos.mpr hR
      simp; omega
    show backtrack 1 (x :: (w ++ '/' :: R)) = R
    have hc : (decide (1 < (w ++ '/' :: R).length) && !isPathSeparator x) = true := by
      rw [decide_eq_true hlen]; simp [isPathSeparator, hx]
    rw [backtrack, if_pos hc]
    exact ih (fun y hy => hw y (List.mem_cons_of_mem _ hy))

theorem backtrack_first (w : List Char) (hw : ∀ x ∈ w, x ≠ '/') (hne : w ≠ []) :
    backtrack 1 (w ++ ['/']) = ['/'] := by
  induction w with
  | nil => exact absurd rfl hne
  | cons x w ih =>
    have hx : x ≠ '/' := hw x (List.mem_cons_self _ _)
    show backtrack 1 (x :: (w ++ ['/'])) = ['/']
    cases w with
    | nil => simp [backtrack]
    | cons y w =>
      have hc : (decide (1 < ((y :: w) ++ ['/']).length) && !isPathSeparator x) = true := by
        simp [isPathSeparator, hx]
      rw [backtrack, if_pos hc]
      exact ih (fun z hz => hw z (List.mem_cons_of_mem _ hz)) (by simp)

theorem rootedBuf_root : RootedBuf ['/'] := ⟨[], by simp [GoodElems], rfl⟩

theorem rootedBuf_backtrack {out : List Char} (h : RootedBuf out) (hlen : 1 < out.length) :
    RootedBuf (backtrack 1 out) := by
  obtain ⟨cs, hgood, rfl⟩ := h
  have hne : cs ≠ [] := by
    intro h0; subst h0; simp [absForm] at hlen
  obtain ⟨cs', c, rfl⟩ := (List.eq_nil_or_concat cs).resolve_left hne
  have hc := hgood c (by simp)
  have hgood' : GoodElems cs' := fun d hd => hgood d (by simp [hd])
  refine ⟨cs', hgood', ?_⟩
  have hw : ∀ x ∈ c.reverse, x ≠ '/' := by
    intro x hx h0; subst h0; exact hc.2 (List.mem_reverse.mp hx)
  rw [List.concat_eq_append, absForm_concat, List.reverse_append, List.reverse_cons,
    List.append_assoc]
  show backtrack 1 (c.reverse ++ '/' :: (slashed cs').reverse) = _
  cases cs' with
  | nil =>
    simpa [slashed, absForm] using backtrack_first c.reverse hw (by simpa using hc.1)
  | cons d ds =>
    have hR : (slashed (d :: ds)).reverse ≠ [] := by simp [slashed]
    rw [backtrack_elem _ _ hw hR]; rfl

theorem rootedBuf_push {out : List Char} (h : RootedBuf out) (e : List Char) (he : e ≠ [])
    (hs : '/' ∉ e) :
    RootedBuf (e.reverse ++ (if (true && out.length != 1) || (!true && out.length != 0)
      then '/' :: out else out)) := by
  obtain ⟨cs, hgood, rfl⟩ := h
  refine ⟨cs ++ [e], ?_, ?_⟩
  · intro d hd
    rcases List.mem_append.mp hd with hd | hd
    · exact hgood d hd
    · simp at hd; subst hd; exact ⟨he, hs⟩
  · rw [absForm_concat]
    have h1 := length_absForm_eq_one hgood
    cases cs with
    | nil => simp [absForm, slashed]
    | cons d ds =>
      have h2 := length_slashed_cons_ge ds (hgood d (List.mem_cons_self _ _)).1
      have h3 : ¬ (slashed (d :: ds)).length = 1 := by omega
      simp [h3, absForm]

theorem takeWhile_not_sep (p : List Char) :
    '/' ∉ p.takeWhile (fun x => !isPathSeparator x) := by
  intro h
  have := List.mem_takeWhile_imp h
  simp [isPathSeparator] at this

theorem rootedBuf_cleanLoop (fuel : Nat) : ∀ (p out : List Char), RootedBuf out →
    RootedBuf (cleanLoop true fuel p out 1) := by
  induction fuel with
  | zero => intro p out h; simpa [cleanLoop] using h
  | succ n ih =>
    intro p out h
    cases p with
    | nil => simpa [cleanLoop] using h
    | cons c rest =>
      rw [cleanLoop]
      by_cases h1 : isPathSeparator c = true
      · rw [if_pos h1]; exact ih _ _ h
      rw [if_neg h1]
      by_cases h2 : (c == '.' && atEndOrSeparator rest) = true
      · rw [if_pos h2]; exact ih _ _ h
      rw [if_neg h2]
      by_cases h3 : (c == '.' && rest.head? == some '.' && atEndOrSeparator rest.tail) = true
      · rw [if_pos h3]
        by_cases h4 : 1 < out.length
        · rw [if_pos h4]; exact ih _ _ (rootedBuf_backtrack h h4)
        · rw [if_neg h4]
          simp only [Bool.not_true, Bool.false_eq_true, if_false]
          exact ih _ _ h
      · rw [if_neg h3]
        exact ih _ _ (rootedBuf_push h _ (by simp [List.takeWhile, h1]) (takeWhile_not_sep _))

/-- Cleaning a rooted path gives an absolute path in clean form. -/
theorem cleanChars_rooted (rest : List Char) :
    ∃ cs, GoodElems cs ∧ cleanChars ('/' :: rest) = absForm cs := by
  obtain ⟨cs, hgood, hout⟩ := rootedBuf_cleanLoop (('/' :: rest).length + 1) rest ['/'] rootedBuf_root
  refine ⟨cs, hgood, ?_⟩
  have hne : (absForm cs).reverse ≠ [] := by simpa using absForm_ne_nil cs
  simp only [cleanChars, isPathSeparator, beq_self_eq_true, if_true]
  rw [hout]
  simp [absForm_ne_nil]

theorem CleanAbs.data {s : String} (h : CleanAbs s) :
    ∃ cs, GoodElems cs ∧ s.data = absForm cs := by
  obtain ⟨p, hp, rfl⟩ := h
  obtain ⟨l⟩ := p
  cases l with
  | nil => simp [IsAbs] at hp
  | cons c rest =>
    have hc : c = '/' := by simpa [IsAbs] using hp
    subst hc
    exact cleanChars_rooted rest

end filepath
namespace filepath

theorem splitOnP_slashed (cs : List (List Char)) (hgood : GoodElems cs) :
    ∀ w : List Char, (∀ x ∈ w, x ≠ '/') →
      (w ++ slashed cs).splitOnP (fun x => x == '/') = w :: cs := by
  induction cs with
  | nil =>
    intro w hw
    simpa [slashed] using List.splitOnP_eq_single (fun x => x == '/') w (by simpa using hw)
  | cons c cs ih =>
    intro w hw
    have hc := hgood c (List.mem_cons_self _ _)
    have hgood' : GoodElems cs := fun d hd => hgood d (List.mem_cons_of_mem _ hd)
    show (w ++ '/' :: (c ++ slashed cs)).splitOnP (fun x => x == '/') = w :: c :: cs
    rw [List.splitOnP_first (fun x => x == '/') w (by simpa using hw) '/' (by simp)]
    rw [ih hgood' c (fun x hx h0 => hc.2 (h0 ▸ hx))]

theorem components_of_data {s : String} {cs : List (List Char)} (hgood : GoodElems cs)
    (h : s.data = absForm cs) : components s = cs := by
  have hfilter : cs.filter (fun c => !c.isEmpty) = cs := by
    apply List.filter_eq_self.mpr
    intro c hc
    have := (hgood c hc).1
    cases c with
    | nil => exact absurd rfl this
    | cons _ _ => rfl
  unfold components List.splitOn
  rw [h]
  cases cs with
  | nil =>
    have h1 : (absForm []).splitOnP (fun x => x == '/') = [[], []] := by
      simp [absForm]
    rw [h1]; rfl
  | cons c cs =>
    have h1 := splitOnP_slashed (c :: cs) hgood [] (by simp)
    simp only [List.nil_append] at h1
    show List.filter _ ((slashed (c :: cs)).splitOnP (fun x => x == '/')) = _
    rw [h1]
    show List.filter (fun c => !c.isEmpty) (c :: cs) = c :: cs
    exact hfilter

theorem CleanAbs.isAbs {s : String} (h : CleanAbs s) : IsAbs s = true := by
  obtain ⟨cs, _, hd⟩ := h.data
  unfold IsAbs
  rw [hd]
  cases cs <;> simp [absForm, slashed]

/-- A strict ancestor, in clean absolute form, is a shorter string. -/
theorem len_lt_of_strictAncestor {a r : String} (ha : CleanAbs a) (hr : CleanAbs r)
    (h : StrictAncestor a r) : len a < len r := by
  obtain ⟨ca, hga, hda⟩ := ha.data
  obtain ⟨cr, hgr, hdr⟩ := hr.data
  have hca := components_of_data hga hda
  have hcr := components_of_data hgr hdr
  obtain ⟨⟨ex, hex⟩, hne⟩ := h
  rw [hca, hcr] at hex hne
  subst hex
  have hexne : ex ≠ [] := by
    intro h0; apply hne; simp [h0]
  have hgex : GoodElems ex := fun d hd => hgr d (List.mem_append_right _ hd)
  rw [len_eq, len_eq, hda, hdr]
  exact byteCount_absForm_lt ca ex hexne hgex

/-- A path below another one, both in clean absolute form, is not a shorter string. -/
theorem len_le_of_within {r d : String} (hr : CleanAbs r) (hd : CleanAbs d)
    (h : Within r d) : len r ≤ len d := by
  obtain ⟨cr, hgr, hdr⟩ := hr.data
  obtain ⟨cd, hgd, hdd⟩ := hd.data
  have hcr := components_of_data hgr hdr
  have hcd := components_of_data hgd hdd
  obtain ⟨ex, hex⟩ := h
  rw [hcr, hcd] at hex
  subst hex
  rw [len_eq, len_eq, hdr, hdd]
  exact byteCount_absForm_le cr ex

/-- An absolute path of at most one byte is the root. -/
theorem eq_root_of_len_le_one {s : String} (h : IsAbs s = true) (hl : len s ≤ 1) : s = "/" := by
  obtain ⟨l⟩ := s
  cases l with
  | nil => simp [IsAbs] at h
  | cons c rest =>
    have hc : c = '/' := by simpa [IsAbs] using h
    subst hc
    cases rest with
    | nil => rfl
    | cons d rest =>
      rw [len_mk] at hl
      have := d.utf8Size_pos
      have h1 : ('/' : Char).utf8Size = 1 := by decide
      simp only [byteCount, h1] at hl
      omega

end filepath


/-! ## The disk-backed `FS` resolves to clean absolute paths -/

namespace filepath

theorem Join_two_cleanAbs (wd j : String) (h : IsAbs wd = true) : CleanAbs (Join [wd, j]) := by
  obtain ⟨l⟩ := wd
  cases l with
  | nil => simp [IsAbs] at h
  | cons c rest =>
    have hc : c = '/' := by simpa [IsAbs] using h
    subst hc
    refine ⟨⟨joinSep [⟨'/' :: rest⟩, j]⟩, ?_, ?_⟩
    · simp [IsAbs, joinSep]
    · simp [Join, List.dropWhile]

/-- The result of `filepath.Abs` is in clean absolute form when the working
directory is an absolute path. -/
theorem abs_result_cleanAbs (getwd : Except Error String) (path abs : String)
    (hwd : ∀ wd, getwd = Except.ok wd → IsAbs wd = true)
    (h : Abs getwd path = Except.ok abs) : CleanAbs abs := by
  unfold Abs at h
  by_cases hp : IsAbs path = true
  · rw [if_pos hp] at h
    exact ⟨path, hp, (Except.ok.inj h).symm⟩
  · rw [if_neg hp] at h
    cases hg : getwd with
    | error e => rw [hg] at h; cases h
    | ok wd =>
      rw [hg] at h
      rw [← Except.ok.inj h]
      exact Join_two_cleanAbs wd path (hwd wd hg)

end filepath

/-- The path `FS.Abs` returns is in clean absolute form when the working
directory is an absolute path. -/
theorem FS.Abs_cleanAbs (os : OS) (f : FS) (path abs : String)
    (hwd : ∀ wd, os.Getwd = Except.ok wd → filepath.IsAbs wd = true)
    (h : f.Abs os path = Except.ok abs) : filepath.CleanAbs abs :=
  filepath.abs_result_cleanAbs os.Getwd _ abs hwd h

/-- What `New` returns: the file system and the template it was given, and
the cleaned resolution of the empty path as root. -/
theorem New_ok (fs : FileSystem) (template : Template) (b : Browser)
    (h : New fs template = Except.ok b) :
    b.fs = fs ∧ b.template = template ∧
      ∃ root, fs.Abs "" = Except.ok root ∧ b.rootAbs = filepath.Clean root := by
  unfold New at h
  cases hr : fs.Abs "" with
  | error e => rw [hr] at h; cases h
  | ok root =>
    rw [hr] at h
    have hb := Except.ok.inj h
    subst hb
    exact ⟨rfl, rfl, root, rfl, rfl⟩

/-- The root of a browser that `New` builds on the disk-backed `FS` is in
clean absolute form when the working directory is an absolute path. -/
theorem New_FS_cleanAbs (os : OS) (f : FS) (template : Template) (b : Browser)
    (hwd : ∀ wd, os.Getwd = Except.ok wd → filepath.IsAbs wd = true)
    (h : New (f.toFileSystem os) template = Except.ok b) : filepath.CleanAbs b.rootAbs := by
  obtain ⟨_, _, root, hroot, hclean⟩ := New_ok _ _ b h
  have h1 : filepath.CleanAbs root := FS.Abs_cleanAbs os f "" root hwd hroot
  exact ⟨root, h1.isAbs, hclean⟩

/-- The browser used in the examples is the one `New` returns. -/
theorem New_sampleFS (template : Template) :
    (New sampleFS template).toOption.map (fun b => (b.rootAbs, b.template)) =
      some ("/srv/files", template) := by
  have h : sampleFS.Abs "" = Except.ok "/srv/files" := by decide
  simp [New, h, Except.toOption]
  decide
/-! ## The two phases of `FileListing` -/

namespace Browser

theorem collectFiles_denied (b : Browser) (p abs : String)
    (hres : b.fs.Abs (requestPath p) = Except.ok abs) (hlt : len abs < len b.rootAbs) :
    b.collectFiles p = Except.error
      { err := some ErrAccessDenied, calls := [FSCall.Abs (requestPath p)], stdout := [],
        data := none, writes := [] } := by
  unfold requestPath at hres
  simp only [collectFiles, hres, if_pos hlt]
  rfl

theorem collectFiles_readDir_error (b : Browser) (p abs : String) (e : Error)
    (hres : b.fs.Abs (requestPath p) = Except.ok abs) (hge : ¬ len abs < len b.rootAbs)
    (hread : b.fs.ReadDir (requestPath p) = Except.error e) :
    b.collectFiles p = Except.error
      { err := some e, calls := [FSCall.Abs (requestPath p), FSCall.ReadDir (requestPath p)],
        stdout := [], data := none, writes := [] } := by
  unfold requestPath at hres hread
  simp only [collectFiles, hres, if_neg hge, hread]
  rfl

/-- What a successful first phase has done. -/
theorem collectFiles_ok (b : Browser) (p : String) (c : Collected)
    (h : b.collectFiles p = Except.ok c) :
    ∃ files, b.fs.Abs (requestPath p) = Except.ok c.abs ∧ ¬ len c.abs < len b.rootAbs ∧
      b.fs.ReadDir (requestPath p) = Except.ok files ∧ c.path = requestPath p ∧
      ((c.abs ≠ "/" ∧ c.abs ≠ "." ∧ c.abs ≠ b.rootAbs ∧
          ∃ previous, b.fs.Stat ".." = Except.ok previous ∧
            c.files = files.map Entry.info ++ [Entry.previousDirectory previous] ∧
            c.calls = [FSCall.Abs (requestPath p), FSCall.ReadDir (requestPath p),
              FSCall.Stat ".."]) ∨
       (¬ (c.abs ≠ "/" ∧ c.abs ≠ "." ∧ c.abs ≠ b.rootAbs) ∧
          c.files = files.map Entry.info ∧
          c.calls = [FSCall.Abs (requestPath p), FSCall.ReadDir (requestPath p)])) := by
  unfold collectFiles at h
  simp only at h
  unfold requestPath
  generalize filepath.Clean (if p = "" then "/" else p) = q at h ⊢
  cases hres : b.fs.Abs q with
  | error e => simp [hres] at h
  | ok abs =>
    simp only [hres] at h
    by_cases hlt : len abs < len b.rootAbs
    · simp [hlt] at h
    · simp only [if_neg hlt] at h
      cases hread : b.fs.ReadDir q with
      | error e => simp [hread] at h
      | ok files =>
        simp only [hread] at h
        by_cases hinj : abs ≠ "/" ∧ abs ≠ "." ∧ abs ≠ b.rootAbs
        · simp only [if_pos hinj] at h
          cases hstat : b.fs.Stat ".." with
          | error e => simp [hstat] at h
          | ok previous =>
            simp only [hstat, Except.ok.injEq] at h
            subst h
            exact ⟨files, rfl, hlt, rfl, rfl, Or.inl ⟨hinj.1, hinj.2.1, hinj.2.2, previous, rfl, rfl, rfl⟩⟩
        · simp only [if_neg hinj, Except.ok.injEq] at h
          subst h
          exact ⟨files, rfl, hlt, rfl, rfl, Or.inr ⟨hinj, rfl, rfl⟩⟩

/-- The calls made on the file system by a call that got past the first phase. -/
theorem renderListing_calls (rt : Runtime) (b : Browser) (c : Collected) :
    (b.renderListing rt c).calls = c.calls := by
  unfold renderListing
  cases rt.templateParse b.template with
  | error e => rfl
  | ok t =>
    cases rt.PathUnescape c.path with
    | error e => rfl
    | ok u => rfl

/-- The files handed to the template are the sorted files of the first phase. -/
theorem renderListing_data (rt : Runtime) (b : Browser) (c : Collected) (d : TemplateData)
    (h : (b.renderListing rt c).data = some d) :
    d.Files = rt.sortSort ByType.Interface c.files ∧ d.Path = c.path ∧
      ∃ t, rt.templateParse b.template = Except.ok t ∧
        (b.renderListing rt c).err = (t d).err ∧ (b.renderListing rt c).writes = (t d).writes := by
  unfold renderListing at h ⊢
  cases hp : rt.templateParse b.template with
  | error e => simp [hp] at h
  | ok t =>
    cases hu : rt.PathUnescape c.path with
    | error e => simp [hp, hu] at h
    | ok u =>
      simp only [hp, hu, Option.some.injEq] at h ⊢
      subst h
      exact ⟨rfl, rfl, t, rfl, rfl, rfl⟩

/-- A call of the second phase that hands nothing to the template has failed
and written nothing. -/
theorem renderListing_no_data (rt : Runtime) (b : Browser) (c : Collected)
    (h : (b.renderListing rt c).data = none) :
    (b.renderListing rt c).err ≠ none ∧ (b.renderListing rt c).writes = [] := by
  unfold renderListing at h ⊢
  cases hp : rt.templateParse b.template with
  | error e => simp
  | ok t =>
    cases hu : rt.PathUnescape c.path with
    | error e => simp
    | ok u => simp [hp, hu] at h

/-- An early return of the first phase is an error, hands nothing to the
template and writes nothing. -/
theorem collectFiles_error (b : Browser) (p : String) (l : Listing)
    (h : b.collectFiles p = Except.error l) :
    l.err ≠ none ∧ l.data = none ∧ l.writes = [] := by
  unfold collectFiles at h
  simp only at h
  generalize filepath.Clean (if p = "" then "/" else p) = q at h
  cases hres : b.fs.Abs q with
  | error e => simp only [hres, Except.error.injEq] at h; subst h; simp
  | ok abs =>
    simp only [hres] at h
    by_cases hlt : len abs < len b.rootAbs
    · simp only [if_pos hlt, Except.error.injEq] at h; subst h; simp
    · simp only [if_neg hlt] at h
      cases hread : b.fs.ReadDir q with
      | error e => simp only [hread, Except.error.injEq] at h; subst h; simp
      | ok files =>
        simp only [hread] at h
        by_cases hinj : abs ≠ "/" ∧ abs ≠ "." ∧ abs ≠ b.rootAbs
        · simp only [if_pos hinj] at h
          cases hstat : b.fs.Stat ".." with
          | error e => simp only [hstat, Except.error.injEq] at h; subst h; simp
          | ok previous => simp [hstat] at h
        · simp [if_neg hinj] at h

/-- A call that returns no error went through both phases and handed its
files to the template. -/
theorem FileListing_ok (rt : Runtime) (b : Browser) (p : String)
    (h : (b.FileListing rt p).err = none) :
    ∃ c d, b.collectFiles p = Except.ok c ∧ (b.FileListing rt p).data = some d ∧
      d.Files = rt.sortSort ByType.Interface c.files := by
  unfold FileListing at h ⊢
  cases hc : b.collectFiles p with
  | error l =>
    rw [hc] at h
    exact absurd h (collectFiles_error b p l hc).1
  | ok c =>
    rw [hc] at h
    simp only
    cases hd : (b.renderListing rt c).data with
    | none => exact absurd h (renderListing_no_data rt b c hd).1
    | some d => exact ⟨c, d, rfl, rfl, (renderListing_data rt b c d hd).1⟩

end Browser

/-! ## The ordering `ByType` and what `sort.IsSorted` says about it -/

namespace ByType

theorem Less_cons_cons (x y : Entry) (l : ByType) :
    Less (x :: y :: l) 1 0 = lessEntries y x := by
  simp [Less, lessEntries]

theorem Less_succ (a : Entry) (t : ByType) (i j : Nat) :
    Less (a :: t) (i + 1) (j + 1) = Less t i j := by
  simp [Less]

theorem Swap_succ (a : Entry) (t : ByType) (i j : Nat) :
    Swap (a :: t) (i + 1) (j + 1) = a :: Swap t i j := by
  simp only [Swap, List.get?_cons_succ]
  cases t.get? i <;> cases t.get? j <;> simp

theorem Swap_one_zero (a b : Entry) (t : ByType) : Swap (a :: b :: t) 1 0 = b :: a :: t := by
  simp [Swap]

theorem isSorted_cons_cons (x y : Entry) (l : ByType) :
    sort.IsSorted ByType.Interface (x :: y :: l) =
      (!lessEntries y x && sort.IsSorted ByType.Interface (y :: l)) := by
  unfold sort.IsSorted
  show (List.range (l.length + 1)).all _ = (_ && (List.range l.length).all _)
  rw [List.range_succ_eq_map, List.all_cons, List.all_map]
  have h0 : Less (x :: y :: l) 1 0 = lessEntries y x := Less_cons_cons x y l
  have hs : ∀ i, (!Less (x :: y :: l) (i + 1 + 1) (i + 1)) = !Less (y :: l) (i + 1) i :=
    fun i => by rw [Less_succ]
  have hf : ((fun i => !Less (x :: y :: l) (i + 1) i) ∘ Nat.succ) =
      (fun i => !Less (y :: l) (i + 1) i) := funext hs
  simp only [ByType.Interface, h0]
  rw [hf]

/-- In a sorted slice no entry after the first one is displayed as `..`. -/
theorem name_tail_of_isSorted : ∀ (x : Entry) (l : ByType),
    sort.IsSorted ByType.Interface (x :: l) = true → ∀ e ∈ l, e.Name ≠ ".." := by
  intro x l
  induction l generalizing x with
  | nil => intro _ e he; cases he
  | cons y l ih =>
    intro h e he
    rw [isSorted_cons_cons, Bool.and_eq_true] at h
    rcases List.mem_cons.mp he with rfl | he
    · intro hn
      have : lessEntries e x = true := by simp [lessEntries, hn]
      simp [this] at h
    · exact ih y h.2 e he

/-- In a sorted slice every directory comes before every entry that is not one. -/
theorem dirs_first_of_isSorted : ∀ (l : ByType),
    sort.IsSorted ByType.Interface l = true →
      l.Pairwise (fun a b => b.IsDir = true → a.IsDir = true) := by
  intro l
  induction l with
  | nil => intro _; exact List.Pairwise.nil
  | cons x l ih =>
    cases l with
    | nil => intro _; exact List.pairwise_singleton _ _
    | cons y l =>
      intro h
      rw [isSorted_cons_cons, Bool.and_eq_true] at h
      have hp := ih h.2
      have hxy : y.IsDir = true → x.IsDir = true := by
        intro hy
        by_contra hx
        have : lessEntries y x = true := by
          simp only [lessEntries]
          split_ifs <;> simp_all
        simp [this] at h
      refine List.Pairwise.cons ?_ hp
      intro b hb
      rcases List.mem_cons.mp hb with rfl | hb
      · exact hxy
      · intro hbd
        exact hxy ((List.pairwise_cons.mp hp).1 b hb hbd)

end ByType

/-! ## `sort.Sort` on short slices: insertion sort keeps each category in order -/

namespace ByType

theorem not_both_ofKind (dir : Bool) (x y : Entry) (h : lessEntries y x = true) :
    ¬ (ofKind dir x = true ∧ ofKind dir y = true) := by
  intro ⟨hx, hy⟩
  simp only [ofKind, Bool.and_eq_true, bne_iff_ne, ne_eq, beq_iff_eq] at hx hy
  simp only [lessEntries] at h
  split_ifs at h with h1 h2
  · exact hy.1 (by simpa using h1)
  · simp only [Bool.and_eq_true, Bool.not_eq_true'] at h2
    rw [hx.2] at h2; rw [hy.2] at h2
    cases dir <;> simp at h2

theorem filter_Swap_adjacent (P : Entry → Bool)
    (hP : ∀ x y, lessEntries y x = true → ¬ (P x = true ∧ P y = true)) :
    ∀ (l : ByType) (j : Nat), Less l (j + 1) j = true →
      (Swap l (j + 1) j).filter P = l.filter P := by
  intro l
  induction l with
  | nil => intro j h; simp [Less] at h
  | cons a t ih =>
    intro j h
    cases j with
    | zero =>
      cases t with
      | nil => simp [Less] at h
      | cons b t =>
        rw [Less_cons_cons] at h
        rw [Swap_one_zero]
        have hab := hP a b h
        cases ha : P a <;> cases hb : P b <;> simp_all [List.filter]
    | succ j =>
      rw [Less_succ] at h
      rw [Swap_succ]
      simp only [List.filter, ih j h]

theorem filter_insertionInner (P : Entry → Bool)
    (hP : ∀ x y, lessEntries y x = true → ¬ (P x = true ∧ P y = true)) (a : Nat) :
    ∀ (j : Nat) (l : ByType),
      (sort.insertionInner ByType.Interface a j l).filter P = l.filter P := by
  intro j
  induction j with
  | zero => intro l; rfl
  | succ j ih =>
    intro l
    rw [sort.insertionInner]
    split_ifs with h
    · rw [ih]
      simp only [Bool.and_eq_true] at h
      exact filter_Swap_adjacent P hP l j h.2
    · rfl

theorem filter_insertionOuter (P : Entry → Bool)
    (hP : ∀ x y, lessEntries y x = true → ¬ (P x = true ∧ P y = true)) (a : Nat) :
    ∀ (n i : Nat) (l : ByType),
      (sort.insertionOuter ByType.Interface a n i l).filter P = l.filter P := by
  intro n
  induction n with
  | zero => intro i l; rfl
  | succ n ih =>
    intro i l
    rw [sort.insertionOuter, ih, filter_insertionInner P hP]

/-- On a slice of at most twelve entries `sort.Sort` is an insertion sort. -/
theorem sortSort_short (l : ByType) (h : l.length ≤ 12) :
    sort.sortSort ByType.Interface l = l ∨
      sort.sortSort ByType.Interface l = sort.insertionSort ByType.Interface l 0 l.length := by
  unfold sort.sortSort
  show (if l.length ≤ 1 then l else _) = l ∨ (if l.length ≤ 1 then l else _) = _
  by_cases h1 : l.length ≤ 1
  · left; rw [if_pos h1]
  · right
    rw [if_neg h1]
    show sort.pdqsortLoop ByType.Interface (l.length + 1) l 0 l.length _ true true = _
    rw [sort.pdqsortLoop]
    simp only [Nat.sub_zero]
    rw [if_pos h]

/-- On a slice of at most twelve entries `sort.Sort` keeps the entries of each
category in the order they had. -/
theorem filter_sortSort_short (dir : Bool) (l : ByType) (h : l.length ≤ 12) :
    (sort.sortSort ByType.Interface l).filter (ofKind dir) = l.filter (ofKind dir) := by
  rcases sortSort_short l h with h1 | h1
  · rw [h1]
  · rw [h1, sort.insertionSort]
    exact filter_insertionOuter _ (not_both_ofKind dir) _ _ _ _

end ByType


/-! ## `sort.Sort` with the methods of `ByType` orders the slice -/

namespace ByType

@[simp] theorem Interface_Less (d : ByType) (i j : Nat) :
    ByType.Interface.Less d i j = ByType.Less d i j := rfl

@[simp] theorem Interface_Swap (d : ByType) (i j : Nat) :
    ByType.Interface.Swap d i j = ByType.Swap d i j := rfl

@[simp] theorem Interface_Len (d : ByType) : ByType.Interface.Len d = d.length := rfl

theorem Swap_eq (d : ByType) {i j : Nat} (hi : i < d.length) (hj : j < d.length) :
    Swap d i j = (d.set i (d.get ⟨j, hj⟩)).set j (d.get ⟨i, hi⟩) := by
  unfold Swap
  rw [List.get?_eq_get hi, List.get?_eq_get hj]

@[simp] theorem length_Swap (d : ByType) (i j : Nat) : (Swap d i j).length = d.length := by
  unfold Swap
  cases d.get? i <;> cases d.get? j <;> simp

theorem get?_Swap (d : ByType) {i j : Nat} (hi : i < d.length) (hj : j < d.length) (x : Nat) :
    (Swap d i j).get? x = if x = j then d.get? i else if x = i then d.get? j else d.get? x := by
  rw [Swap_eq d hi hj]
  simp only [List.get?_eq_getElem?, List.getElem?_set, List.length_set, List.get_eq_getElem]
  by_cases hxj : x = j
  · subst hxj; simp [hj, List.getElem?_eq_getElem hi]
  · by_cases hxi : x = i
    · subst hxi; simp [hxj, Ne.symm hxj, hi, List.getElem?_eq_getElem hj]
    · simp [hxj, hxi, Ne.symm hxj, Ne.symm hxi]

theorem rankAt_Swap (d : ByType) {i j : Nat} (hi : i < d.length) (hj : j < d.length) (x : Nat) :
    rankAt (Swap d i j) x =
      if x = j then rankAt d i else if x = i then rankAt d j else rankAt d x := by
  unfold rankAt
  rw [get?_Swap d hi hj]
  split_ifs <;> rfl

theorem Swap_of_none_right (d : ByType) (i j : Nat) (h : d.get? j = none) : Swap d i j = d := by
  unfold Swap
  rw [h]
  cases d.get? i <;> rfl

theorem Swap_of_none_left (d : ByType) (i j : Nat) (h : d.get? i = none) : Swap d i j = d := by
  unfold Swap
  rw [h]

theorem cons_set_perm (a : Entry) : ∀ (t : ByType) (j : Nat) (y : Entry),
    t.get? j = some y → (y :: t.set j a).Perm (a :: t) := by
  intro t
  induction t with
  | nil => intro j y h; simp at h
  | cons b t ih =>
    intro j y h
    cases j with
    | zero =>
      simp only [List.get?_cons_zero, Option.some.injEq] at h
      subst h
      exact List.Perm.swap _ _ _
    | succ j =>
      simp only [List.get?_cons_succ] at h
      show (y :: b :: t.set j a).Perm (a :: b :: t)
      exact (List.Perm.swap _ _ _).trans (((ih j y h).cons b).trans (List.Perm.swap _ _ _))

theorem Swap_perm : ∀ (d : ByType) (i j : Nat), (Swap d i j).Perm d := by
  intro d
  induction d with
  | nil => intro i j; simp [Swap]
  | cons a t ih =>
    intro i j
    cases i with
    | zero =>
      cases j with
      | zero => simp [Swap]
      | succ j =>
        cases hj : t.get? j with
        | none =>
          rw [Swap_of_none_right _ _ _ (by simpa using hj)]
        | some y =>
          have h : Swap (a :: t) 0 (j + 1) = y :: t.set j a := by
            simp [Swap, List.get?_eq_getElem?] at hj ⊢
            simp [hj]
          rw [h]
          exact cons_set_perm a t j y hj
    | succ i =>
      cases j with
      | zero =>
        cases hi : t.get? i with
        | none =>
          rw [Swap_of_none_left _ _ _ (by simpa using hi)]
        | some x =>
          have h : Swap (a :: t) (i + 1) 0 = x :: t.set i a := by
            simp [Swap, List.get?_eq_getElem?] at hi ⊢
            simp [hi]
          rw [h]
          exact cons_set_perm a t i x hi
      | succ j =>
        rw [Swap_succ]
        exact (ih i j).cons a

end ByType

theorem entryRank_eq_zero_iff (e : Entry) : entryRank e = 0 ↔ e.Name = ".." := by
  unfold entryRank
  split_ifs <;> simp_all

theorem rankAt_of_get? {d : ByType} {i : Nat} {e : Entry} (h : d.get? i = some e) :
    rankAt d i = entryRank e := by
  unfold rankAt; rw [h]

theorem lessEntries_iff (x y : Entry)
    (hy : y.Name = ".." → y.IsDir = true) (hxy : ¬ (entryRank x = 0 ∧ entryRank y = 0)) :
    lessEntries x y = true ↔ entryRank x < entryRank y := by
  rw [entryRank_eq_zero_iff, entryRank_eq_zero_iff] at hxy
  unfold lessEntries entryRank
  by_cases h1 : x.Name = ".."
  · have h2 : ¬ y.Name = ".." := fun h => hxy ⟨h1, h⟩
    simp only [h1, beq_self_eq_true, if_true, h2, if_false, true_iff]
    split_ifs <;> omega
  · have h1' : (x.Name == "..") = false := by simpa using h1
    simp only [h1', h1, if_false, Bool.false_eq_true]
    by_cases h2 : y.Name = ".."
    · have := hy h2
      simp [h2, this]
    · cases hxd : x.IsDir <;> cases hyd : y.IsDir <;> simp [h2]

namespace ByType

/-- On a slice that can be ordered by rank, `Less` compares the ranks of the
entries at two different indices. -/
theorem Less_iff {d : ByType} (hv : Sortable d) {i j : Nat} (hi : i < d.length)
    (hj : j < d.length) (hne : i ≠ j) :
    Less d i j = true ↔ rankAt d i < rankAt d j := by
  have hgi := List.get?_eq_get hi
  have hgj := List.get?_eq_get hj
  have hri := rankAt_of_get? hgi
  have hrj := rankAt_of_get? hgj
  have hL : Less d i j = lessEntries (d.get ⟨i, hi⟩) (d.get ⟨j, hj⟩) := by
    unfold Less lessEntries
    rw [hgi, hgj]
  rw [hL, hri, hrj]
  apply lessEntries_iff
  · exact hv.1 _ (List.get_mem _ _ _)
  · rintro ⟨h1, h2⟩
    exact hne (hv.2 i j hi hj (hri ▸ h1) (hrj ▸ h2))

theorem Less_eq_false_iff {d : ByType} (hv : Sortable d) {i j : Nat} (hi : i < d.length)
    (hj : j < d.length) (hne : i ≠ j) :
    Less d i j = false ↔ rankAt d j ≤ rankAt d i := by
  rw [← Bool.not_eq_true, Less_iff hv hi hj hne]
  omega

theorem Sortable_Swap {d : ByType} (hv : Sortable d) (i j : Nat) : Sortable (Swap d i j) := by
  by_cases hi : i < d.length
  · by_cases hj : j < d.length
    · refine ⟨fun e he => hv.1 e ((Swap_perm d i j).subset he), ?_⟩
      intro x y hx hy h1 h2
      rw [length_Swap] at hx hy
      rw [rankAt_Swap d hi hj] at h1 h2
      have key : ∀ z, z < d.length →
          (if z = j then i else if z = i then j else z) < d.length := by
        intro z hz; split_ifs <;> assumption
      have h := hv.2 (if x = j then i else if x = i then j else x)
        (if y = j then i else if y = i then j else y) (key x hx) (key y hy)
        (by split_ifs at h1 ⊢ <;> exact h1) (by split_ifs at h2 ⊢ <;> exact h2)
      split_ifs at h <;> omega
    · rw [Swap_of_none_right _ _ _ (List.get?_eq_none.mpr (by omega))]; exact hv
  · rw [Swap_of_none_left _ _ _ (List.get?_eq_none.mpr (by omega))]; exact hv

end ByType

namespace Shuffle

variable {a b : Nat} {d d' : ByType}

theorem length (h : Shuffle a b d d') : d'.length = d.length := by
  induction h with
  | refl => rfl
  | step i j _ _ _ _ _ _ ih => rw [ByType.length_Swap, ih]

theorem sortable (h : Shuffle a b d d') (hv : Sortable d) : Sortable d' := by
  induction h with
  | refl => exact hv
  | step i j _ _ _ _ _ _ ih => exact ByType.Sortable_Swap ih i j

theorem perm (h : Shuffle a b d d') : d'.Perm d := by
  induction h with
  | refl => exact List.Perm.refl _
  | step i j _ _ _ _ _ _ ih => exact (ByType.Swap_perm _ i j).trans ih

theorem outside (h : Shuffle a b d d') (x : Nat) (hx : x < a ∨ b ≤ x) :
    d'.get? x = d.get? x := by
  induction h with
  | refl => rfl
  | step i j _ hai hib haj hjb hb ih =>
    rw [ByType.get?_Swap _ (by omega) (by omega), if_neg (by omega), if_neg (by omega), ih]

theorem rankAt_outside (h : Shuffle a b d d') (x : Nat) (hx : x < a ∨ b ≤ x) :
    rankAt d' x = rankAt d x := by
  unfold rankAt; rw [h.outside x hx]

/-- A property of the ranks that holds at every index of the range before the
exchanges holds at every index of the range after them. -/
theorem forall_rank (h : Shuffle a b d d') (P : Nat → Prop)
    (hP : ∀ x, a ≤ x → x < b → P (rankAt d x)) : ∀ x, a ≤ x → x < b → P (rankAt d' x) := by
  induction h with
  | refl => exact hP
  | step i j _ hai hib haj hjb hb ih =>
    intro x hax hxb
    rw [ByType.rankAt_Swap _ (by omega) (by omega)]
    split_ifs
    · exact ih i hai hib
    · exact ih j haj hjb
    · exact ih x hax hxb

theorem trans {d'' : ByType} (h1 : Shuffle a b d d') (h2 : Shuffle a b d' d'') :
    Shuffle a b d d'' := by
  induction h2 with
  | refl => exact h1
  | step i j _ hai hib haj hjb hb ih => exact Shuffle.step i j ih hai hib haj hjb hb

theorem mono {a' b' : Nat} (h : Shuffle a b d d') (ha : a' ≤ a) (hb : b ≤ b')
    (hlen : b' ≤ d.length) : Shuffle a' b' d d' := by
  induction h with
  | refl => exact Shuffle.refl _
  | step i j hs hai hib haj hjb _ ih =>
    exact Shuffle.step i j ih (by omega) (by omega) (by omega) (by omega)
      (by rw [hs.length]; exact hlen)

theorem swap (d : ByType) {i j : Nat} (hai : a ≤ i) (hib : i < b) (haj : a ≤ j) (hjb : j < b)
    (hb : b ≤ d.length) : Shuffle a b d (ByType.Swap d i j) :=
  Shuffle.step i j (Shuffle.refl d) hai hib haj hjb hb

end Shuffle

/-! ### Insertion sort -/

theorem sortedOn_of_insertionInv {d : ByType} {a j i : Nat} (h : InsertionInv d a j i)
    (hstop : j = a ∨ (a < j ∧ rankAt d (j - 1) ≤ rankAt d j)) : SortedOn d a (i + 1) := by
  intro x y hax hxy hyi
  by_cases hxj : x = j
  · subst hxj; exact h.2 y hxy (by omega)
  · by_cases hyj : y = j
    · subst hyj
      rcases hstop with h0 | ⟨h1, h2⟩
      · omega
      · by_cases hx1 : x = y - 1
        · subst hx1; exact h2
        · exact Nat.le_trans (h.1 x (y - 1) hax (by omega) (by omega) hxj (by omega)) h2
    · exact h.1 x y hax hxy (by omega) hxj hyj

theorem insertionInner_spec (a i : Nat) : ∀ (j : Nat) (d : ByType), Sortable d → a ≤ j →
    j ≤ i → i < d.length → InsertionInv d a j i →
    Shuffle a (i + 1) d (sort.insertionInner ByType.Interface a j d) ∧
      SortedOn (sort.insertionInner ByType.Interface a j d) a (i + 1) := by
  intro j
  induction j with
  | zero =>
    intro d _ ha _ _ hinv
    exact ⟨Shuffle.refl d, sortedOn_of_insertionInv hinv (Or.inl (by omega))⟩
  | succ j ih =>
    intro d hv ha hji hi hinv
    rw [sort.insertionInner]
    by_cases hc : (decide (a < j + 1) && ByType.Interface.Less d (j + 1) j) = true
    · rw [if_pos hc]
      simp only [Bool.and_eq_true, decide_eq_true_eq, ByType.Interface_Less] at hc
      obtain ⟨haj, hless⟩ := hc
      have hlt := (ByType.Less_iff hv (by omega) (by omega) (by omega)).mp hless
      have hsw : ∀ z, rankAt (ByType.Swap d (j + 1) j) z =
          if z = j then rankAt d (j + 1) else if z = j + 1 then rankAt d j else rankAt d z :=
        ByType.rankAt_Swap d (by omega) (by omega)
      have hinv' : InsertionInv (ByType.Swap d (j + 1) j) a j i := by
        constructor
        · intro x y hax hxy hyi hxj hyj
          rw [hsw, hsw, if_neg hxj, if_neg hyj]
          by_cases hx1 : x = j + 1
          · rw [if_pos hx1, if_neg (by omega)]
            exact hinv.1 j y (by omega) (by omega) hyi (by omega) (by omega)
          · rw [if_neg hx1]
            by_cases hy1 : y = j + 1
            · rw [if_pos hy1]
              exact hinv.1 x j hax (by omega) (by omega) hx1 (by omega)
            · rw [if_neg hy1]
              exact hinv.1 x y hax hxy hyi hx1 hy1
        · intro y hjy hyi
          rw [hsw, hsw, if_pos rfl, if_neg (by omega)]
          by_cases hy1 : y = j + 1
          · rw [if_pos hy1]; omega
          · rw [if_neg hy1]
            exact hinv.2 y (by omega) hyi
      obtain ⟨hs, hsorted⟩ := ih (ByType.Swap d (j + 1) j) (ByType.Sortable_Swap hv _ _)
        (by omega) (by omega) (by rw [ByType.length_Swap]; exact hi) hinv'
      exact ⟨(Shuffle.swap d (by omega) (by omega) (by omega) (by omega) (by omega)).trans hs,
        hsorted⟩
    · rw [if_neg hc]
      refine ⟨Shuffle.refl d, sortedOn_of_insertionInv hinv ?_⟩
      by_cases haj : a < j + 1
      · right
        refine ⟨haj, ?_⟩
        have hless : ByType.Less d (j + 1) j = false := by
          simpa [haj] using hc
        exact (ByType.Less_eq_false_iff hv (by omega) (by omega) (by omega)).mp hless
      · left; omega

theorem insertionOuter_spec (a : Nat) : ∀ (n i : Nat) (d : ByType), Sortable d → a < i →
    i + n ≤ d.length → SortedOn d a i →
    Shuffle a (i + n) d (sort.insertionOuter ByType.Interface a n i d) ∧
      SortedOn (sort.insertionOuter ByType.Interface a n i d) a (i + n) := by
  intro n
  induction n with
  | zero => intro i d _ _ _ hs; exact ⟨Shuffle.refl d, hs⟩
  | succ n ih =>
    intro i d hv hai hlen hs
    rw [sort.insertionOuter]
    have hinv : InsertionInv d a i i :=
      ⟨fun x y hax hxy hyi _ hyi' => hs x y hax hxy (by omega), fun y h1 h2 => by omega⟩
    obtain ⟨hs1, hsorted1⟩ := insertionInner_spec a i i d hv (by omega) (Nat.le_refl _)
      (by omega) hinv
    obtain ⟨hs2, hsorted2⟩ := ih (i + 1) _ (hs1.sortable hv) (by omega)
      (by rw [hs1.length]; omega) hsorted1
    have e : i + 1 + n = i + (n + 1) := by omega
    rw [e] at hs2 hsorted2
    exact ⟨(hs1.mono (Nat.le_refl _) (by omega) (by omega)).trans hs2, hsorted2⟩

/-- Insertion sort orders the range `[a, b)` by exchanges inside the range. -/
theorem insertionSort_spec (d : ByType) (a b : Nat) (hv : Sortable d) (hb : b ≤ d.length) :
    Shuffle a b d (sort.insertionSort ByType.Interface d a b) ∧
      SortedOn (sort.insertionSort ByType.Interface d a b) a b := by
  unfold sort.insertionSort
  by_cases h : a + 1 < b
  · have e : a + 1 + (b - (a + 1)) = b := by omega
    have := insertionOuter_spec a (b - (a + 1)) (a + 1) d hv (by omega) (by omega)
      (fun x y h1 h2 h3 => by omega)
    rw [e] at this
    exact this
  · have e : b - (a + 1) = 0 := by omega
    rw [e]
    exact ⟨Shuffle.refl d, fun x y h1 h2 h3 => by omega⟩

/-! ### Partition -/

theorem scanLess_spec (d : ByType) (a j : Nat) (hv : Sortable d) (hj : j < d.length) :
    ∀ (fuel i : Nat), a < i → i ≤ j + 1 → j + 1 - i ≤ fuel →
      (∀ x, a < x → x < i → rankAt d x < rankAt d a) →
      i ≤ sort.scanLess ByType.Interface d a j fuel i ∧
      sort.scanLess ByType.Interface d a j fuel i ≤ j + 1 ∧
      (∀ x, a < x → x < sort.scanLess ByType.Interface d a j fuel i →
        rankAt d x < rankAt d a) ∧
      (sort.scanLess ByType.Interface d a j fuel i ≤ j →
        rankAt d a ≤ rankAt d (sort.scanLess ByType.Interface d a j fuel i)) := by
  intro fuel
  induction fuel with
  | zero =>
    intro i _ hij hf hleft
    rw [sort.scanLess]
    exact ⟨Nat.le_refl _, hij, hleft, fun h => by omega⟩
  | succ fuel ih =>
    intro i hai hij hf hleft
    rw [sort.scanLess]
    by_cases hc : (decide (i ≤ j) && ByType.Interface.Less d i a) = true
    · rw [if_pos hc]
      simp only [Bool.and_eq_true, decide_eq_true_eq, ByType.Interface_Less] at hc
      have hlt := (ByType.Less_iff hv (by omega) (by omega) (by omega)).mp hc.2
      obtain ⟨h1, h2, h3, h4⟩ := ih (i + 1) (by omega) (by omega) (by omega)
        (fun x hax hxi => by
          by_cases hx : x = i
          · subst hx; exact hlt
          · exact hleft x hax (by omega))
      exact ⟨by omega, h2, h3, h4⟩
    · rw [if_neg hc]
      refine ⟨Nat.le_refl _, hij, hleft, fun hle => ?_⟩
      have hless : ByType.Less d i a = false := by simpa [hle] using hc
      exact (ByType.Less_eq_false_iff hv (by omega) (by omega) (by omega)).mp hless

theorem scanNotLess_spec (d : ByType) (a i b : Nat) (hv : Sortable d) (hai : a < i) :
    ∀ (j : Nat), j < d.length → i ≤ j + 1 →
      (∀ x, j < x → x < b → rankAt d a ≤ rankAt d x) →
      sort.scanNotLess ByType.Interface d a i j ≤ j ∧
      i ≤ sort.scanNotLess ByType.Interface d a i j + 1 ∧
      (∀ x, sort.scanNotLess ByType.Interface d a i j < x → x < b →
        rankAt d a ≤ rankAt d x) ∧
      (i ≤ sort.scanNotLess ByType.Interface d a i j →
        rankAt d (sort.scanNotLess ByType.Interface d a i j) < rankAt d a) := by
  intro j
  induction j with
  | zero =>
    intro _ hij hright
    rw [sort.scanNotLess]
    exact ⟨Nat.le_refl _, hij, hright, fun h => by omega⟩
  | succ j ih =>
    intro hj hij hright
    rw [sort.scanNotLess]
    by_cases hc : (decide (i ≤ j + 1) && !ByType.Interface.Less d (j + 1) a) = true
    · rw [if_pos hc]
      simp only [Bool.and_eq_true, decide_eq_true_eq, ByType.Interface_Less,
        Bool.not_eq_true'] at hc
      have hge := (ByType.Less_eq_false_iff hv (by omega) (by omega) (by omega)).mp hc.2
      obtain ⟨h1, h2, h3, h4⟩ := ih (by omega) (by omega)
        (fun x hjx hxb => by
          by_cases hx : x = j + 1
          · subst hx; exact hge
          · exact hright x (by omega) hxb)
      exact ⟨by omega, h2, h3, h4⟩
    · rw [if_neg hc]
      refine ⟨Nat.le_refl _, hij, hright, fun hle => ?_⟩
      have hless : ByType.Less d (j + 1) a = true := by simpa [hle] using hc
      exact (ByType.Less_iff hv (by omega) (by omega) (by omega)).mp hless

theorem partitionLoop_spec (a b : Nat) : ∀ (fuel : Nat) (d : ByType) (i j : Nat), Sortable d →
    a < i → i ≤ j + 1 → j < b → b ≤ d.length → j + 1 - i ≤ fuel →
    (∀ x, a < x → x < i → rankAt d x < rankAt d a) →
    (∀ x, j < x → x < b → rankAt d a ≤ rankAt d x) →
    Shuffle (a + 1) b d (sort.partitionLoop ByType.Interface a fuel d i j).1 ∧
      Partitioned (sort.partitionLoop ByType.Interface a fuel d i j).1 a b
        (sort.partitionLoop ByType.Interface a fuel d i j).2 := by
  intro fuel
  induction fuel with
  | zero =>
    intro d i j _ hai hij hjb _ hf hleft hright
    rw [sort.partitionLoop]
    exact ⟨Shuffle.refl d, by omega, hjb, fun x h1 h2 => hleft x h1 (by omega), hright⟩
  | succ fuel ih =>
    intro d i j hv hai hij hjb hb hf hleft hright
    rw [sort.partitionLoop]
    obtain ⟨hi1, hi2, hi3, hi4⟩ := scanLess_spec d a j hv (by omega) (j + 1 - i) i hai hij
      (Nat.le_refl _) hleft
    generalize sort.scanLess ByType.Interface d a j (j + 1 - i) i = i' at hi1 hi2 hi3 hi4 ⊢
    obtain ⟨hj1, hj2, hj3, hj4⟩ := scanNotLess_spec d a i' b hv (by omega) j (by omega) hi2
      hright
    generalize sort.scanNotLess ByType.Interface d a i' j = j' at hj1 hj2 hj3 hj4 ⊢
    by_cases hc : j' < i'
    · rw [if_pos hc]
      exact ⟨Shuffle.refl d, by omega, by omega, fun x h1 h2 => hi3 x h1 (by omega), hj3⟩
    · rw [if_neg hc]
      have h5 := hi4 (by omega)
      have h6 := hj4 (by omega)
      have hne : i' ≠ j' := by intro h; subst h; omega
      have hsw : ∀ z, rankAt (ByType.Swap d i' j') z =
          if z = j' then rankAt d i' else if z = i' then rankAt d j' else rankAt d z :=
        ByType.rankAt_Swap d (by omega) (by omega)
      have hpa : rankAt (ByType.Swap d i' j') a = rankAt d a := by
        rw [hsw, if_neg (by omega), if_neg (by omega)]
      obtain ⟨hs, hp⟩ := ih (ByType.Swap d i' j') (i' + 1) (j' - 1)
        (ByType.Sortable_Swap hv _ _) (by omega) (by omega) (by omega)
        (by rw [ByType.length_Swap]; exact hb) (by omega)
        (fun x h1 h2 => by
          rw [hpa, hsw, if_neg (by omega)]
          by_cases hx : x = i'
          · rw [if_pos hx]; exact h6
          · rw [if_neg hx]; exact hi3 x h1 (by omega))
        (fun x h1 h2 => by
          rw [hpa, hsw]
          by_cases hx : x = j'
          · rw [if_pos hx]; exact h5
          · rw [if_neg hx, if_neg (by omega)]; exact hj3 x (by omega) h2)
      exact ⟨(Shuffle.swap d (by omega) (by omega) (by omega) (by omega) hb).trans hs, hp⟩

theorem partitionedAt_of_partitioned {d : ByType} {a b j : Nat} (hb : b ≤ d.length)
    (h : Partitioned d a b j) : PartitionedAt (ByType.Swap d j a) a b j := by
  obtain ⟨h1, h2, h3, h4⟩ := h
  have hsw : ∀ z, rankAt (ByType.Swap d j a) z =
      if z = a then rankAt d j else if z = j then rankAt d a else rankAt d z :=
    ByType.rankAt_Swap d (by omega) (by omega)
  refine ⟨h1, h2, ?_, ?_⟩
  · intro x hax hxj
    rw [hsw, hsw]
    have hja : j ≠ a := by omega
    rw [if_neg hja, if_pos rfl]
    by_cases hx : x = a
    · rw [if_pos hx]; exact h3 j (by omega) (Nat.le_refl _)
    · rw [if_neg hx, if_neg (by omega)]; exact h3 x (by omega) (by omega)
  · intro x hjx hxb
    rw [hsw, hsw]
    by_cases hja : j = a
    · subst hja
      rw [if_pos rfl, if_neg (by omega), if_neg (by omega)]
      exact h4 x hjx hxb
    · rw [if_neg hja, if_pos rfl, if_neg (by omega), if_neg (by omega)]
      exact h4 x hjx hxb

/-- The function `partition` splits the range `[a, b)` around the pivot by
exchanges inside the range. -/
theorem partition_spec (d : ByType) (a b pivot : Nat) (hv : Sortable d) (hap : a ≤ pivot)
    (hpb : pivot < b) (hb : b ≤ d.length) :
    Shuffle a b d (sort.partition ByType.Interface d a b pivot).1 ∧
      PartitionedAt (sort.partition ByType.Interface d a b pivot).1 a b
        (sort.partition ByType.Interface d a b pivot).2.1 := by
  unfold sort.partition
  simp only [ByType.Interface_Swap]
  have hs0 : Shuffle a b d (ByType.Swap d a pivot) :=
    Shuffle.swap d (Nat.le_refl _) (by omega) hap hpb hb
  have hv0 := hs0.sortable hv
  have hl0 : (ByType.Swap d a pivot).length = d.length := ByType.length_Swap _ _ _
  generalize ByType.Swap d a pivot = d0 at hs0 hv0 hl0 ⊢
  obtain ⟨hi1, hi2, hi3, hi4⟩ := scanLess_spec d0 a (b - 1) hv0 (by omega) (b - a) (a + 1)
    (by omega) (by omega) (by omega) (fun x h1 h2 => by omega)
  generalize sort.scanLess ByType.Interface d0 a (b - 1) (b - a) (a + 1) = i at hi1 hi2 hi3 hi4 ⊢
  obtain ⟨hj1, hj2, hj3, hj4⟩ := scanNotLess_spec d0 a i b hv0 (by omega) (b - 1) (by omega)
    (by omega) (fun x h1 h2 => by omega)
  generalize sort.scanNotLess ByType.Interface d0 a i (b - 1) = j at hj1 hj2 hj3 hj4 ⊢
  by_cases hc : j < i
  · rw [if_pos hc]
    simp only
    have hp : Partitioned d0 a b j :=
      ⟨by omega, by omega, fun x h1 h2 => hi3 x h1 (by omega), hj3⟩
    exact ⟨hs0.trans (Shuffle.swap d0 (by omega) (by omega) (Nat.le_refl _) (by omega)
      (by omega)), partitionedAt_of_partitioned (by omega) hp⟩
  · rw [if_neg hc]
    simp only
    have h5 := hi4 (by omega)
    have h6 := hj4 (by omega)
    have hne : i ≠ j := by intro h; subst h; omega
    have hsw : ∀ z, rankAt (ByType.Swap d0 i j) z =
        if z = j then rankAt d0 i else if z = i then rankAt d0 j else rankAt d0 z :=
      ByType.rankAt_Swap d0 (by omega) (by omega)
    have hpa : rankAt (ByType.Swap d0 i j) a = rankAt d0 a := by
      rw [hsw, if_neg (by omega), if_neg (by omega)]
    obtain ⟨hs, hp⟩ := partitionLoop_spec a b (b - a) (ByType.Swap d0 i j) (i + 1) (j - 1)
      (ByType.Sortable_Swap hv0 _ _) (by omega) (by omega) (by omega)
      (by rw [ByType.length_Swap]; omega) (by omega)
      (fun x h1 h2 => by
        rw [hpa, hsw, if_neg (by omega)]
        by_cases hx : x = i
        · rw [if_pos hx]; exact h6
        · rw [if_neg hx]; exact hi3 x h1 (by omega))
      (fun x h1 h2 => by
        rw [hpa, hsw]
        by_cases hx : x = j
        · rw [if_pos hx]; exact h5
        · rw [if_neg hx, if_neg (by omega)]; exact hj3 x (by omega) h2)
    have hs1 : Shuffle a b d0 (ByType.Swap d0 i j) :=
      Shuffle.swap d0 (by omega) (by omega) (by omega) (by omega) (by omega)
    have hs2 := hs1.trans (hs.mono (by omega) (Nat.le_refl _)
      (by rw [ByType.length_Swap]; omega))
    have hlen2 := hs2.length
    generalize sort.partitionLoop ByType.Interface a (b - a) (ByType.Swap d0 i j) (i + 1)
      (j - 1) = r at hs hp hs2 hlen2 ⊢
    refine ⟨hs0.trans (hs2.trans ?_), partitionedAt_of_partitioned (by omega) hp⟩
    exact Shuffle.swap r.1 (by have := hp.1; omega) hp.2.1 (Nat.le_refl _) (by omega) (by omega)

/-! ### Partition of a range whose pivot is a smallest entry -/

theorem scanNotGreater_spec (d : ByType) (a j : Nat) (hv : Sortable d) (hj : j < d.length) :
    ∀ (fuel i : Nat), a < i → i ≤ j + 1 → j + 1 - i ≤ fuel →
      (∀ x, a < x → x < i → rankAt d x ≤ rankAt d a) →
      i ≤ sort.scanNotGreater ByType.Interface d a j fuel i ∧
      sort.scanNotGreater ByType.Interface d a j fuel i ≤ j + 1 ∧
      (∀ x, a < x → x < sort.scanNotGreater ByType.Interface d a j fuel i →
        rankAt d x ≤ rankAt d a) ∧
      (sort.scanNotGreater ByType.Interface d a j fuel i ≤ j →
        rankAt d a < rankAt d (sort.scanNotGreater ByType.Interface d a j fuel i)) := by
  intro fuel
  induction fuel with
  | zero =>
    intro i _ hij hf hleft
    rw [sort.scanNotGreater]
    exact ⟨Nat.le_refl _, hij, hleft, fun h => by omega⟩
  | succ fuel ih =>
    intro i hai hij hf hleft
    rw [sort.scanNotGreater]
    by_cases hc : (decide (i ≤ j) && !ByType.Interface.Less d a i) = true
    · rw [if_pos hc]
      simp only [Bool.and_eq_true, decide_eq_true_eq, ByType.Interface_Less,
        Bool.not_eq_true'] at hc
      have hle := (ByType.Less_eq_false_iff hv (by omega) (by omega) (by omega)).mp hc.2
      obtain ⟨h1, h2, h3, h4⟩ := ih (i + 1) (by omega) (by omega) (by omega)
        (fun x hax hxi => by
          by_cases hx : x = i
          · subst hx; exact hle
          · exact hleft x hax (by omega))
      exact ⟨by omega, h2, h3, h4⟩
    · rw [if_neg hc]
      refine ⟨Nat.le_refl _, hij, hleft, fun hle => ?_⟩
      have hless : ByType.Less d a i = true := by simpa [hle] using hc
      exact (ByType.Less_iff hv (by omega) (by omega) (by omega)).mp hless

theorem scanGreater_spec (d : ByType) (a i b : Nat) (hv : Sortable d) (hai : a < i) :
    ∀ (j : Nat), j < d.length → i ≤ j + 1 →
      (∀ x, j < x → x < b → rankAt d a < rankAt d x) →
      sort.scanGreater ByType.Interface d a i j ≤ j ∧
      i ≤ sort.scanGreater ByType.Interface d a i j + 1 ∧
      (∀ x, sort.scanGreater ByType.Interface d a i j < x → x < b →
        rankAt d a < rankAt d x) ∧
      (i ≤ sort.scanGreater ByType.Interface d a i j →
        rankAt d (sort.scanGreater ByType.Interface d a i j) ≤ rankAt d a) := by
  intro j
  induction j with
  | zero =>
    intro _ hij hright
    rw [sort.scanGreater]
    exact ⟨Nat.le_refl _, hij, hright, fun h => by omega⟩
  | succ j ih =>
    intro hj hij hright
    rw [sort.scanGreater]
    by_cases hc : (decide (i ≤ j + 1) && ByType.Interface.Less d a (j + 1)) = true
    · rw [if_pos hc]
      simp only [Bool.and_eq_true, decide_eq_true_eq, ByType.Interface_Less] at hc
      have hgt := (ByType.Less_iff hv (by omega) (by omega) (by omega)).mp hc.2
      obtain ⟨h1, h2, h3, h4⟩ := ih (by omega) (by omega)
        (fun x hjx hxb => by
          by_cases hx : x = j + 1
          · subst hx; exact hgt
          · exact hright x (by omega) hxb)
      exact ⟨by omega, h2, h3, h4⟩
    · rw [if_neg hc]
      refine ⟨Nat.le_refl _, hij, hright, fun hle => ?_⟩
      have hless : ByType.Less d a (j + 1) = false := by simpa [hle] using hc
      exact (ByType.Less_eq_false_iff hv (by omega) (by omega) (by omega)).mp hless

theorem partitionEqualLoop_spec (a b : Nat) : ∀ (fuel : Nat) (d : ByType) (i j : Nat),
    Sortable d → a < i → i ≤ j + 1 → j < b → b ≤ d.length → j + 2 - i ≤ fuel →
    (∀ x, a < x → x < i → rankAt d x ≤ rankAt d a) →
    (∀ x, j < x → x < b → rankAt d a < rankAt d x) →
    Shuffle (a + 1) b d (sort.partitionEqualLoop ByType.Interface a fuel d i j).1 ∧
      PartitionedEqual (sort.partitionEqualLoop ByType.Interface a fuel d i j).1 a b
        (sort.partitionEqualLoop ByType.Interface a fuel d i j).2 := by
  intro fuel
  induction fuel with
  | zero => intro d i j _ hai hij hjb _ hf; omega
  | succ fuel ih =>
    intro d i j hv hai hij hjb hb hf hleft hright
    rw [sort.partitionEqualLoop]
    obtain ⟨hi1, hi2, hi3, hi4⟩ := scanNotGreater_spec d a j hv (by omega) (j + 1 - i) i hai
      hij (Nat.le_refl _) hleft
    generalize sort.scanNotGreater ByType.Interface d a j (j + 1 - i) i = i' at hi1 hi2 hi3 hi4 ⊢
    obtain ⟨hj1, hj2, hj3, hj4⟩ := scanGreater_spec d a i' b hv (by omega) j (by omega) hi2
      hright
    generalize sort.scanGreater ByType.Interface d a i' j = j' at hj1 hj2 hj3 hj4 ⊢
    by_cases hc : j' < i'
    · rw [if_pos hc]
      exact ⟨Shuffle.refl d, by omega, by omega, hi3, fun x h1 h2 => hj3 x (by omega) h2⟩
    · rw [if_neg hc]
      have h5 := hi4 (by omega)
      have h6 := hj4 (by omega)
      have hne : i' ≠ j' := by intro h; subst h; omega
      have hsw : ∀ z, rankAt (ByType.Swap d i' j') z =
          if z = j' then rankAt d i' else if z = i' then rankAt d j' else rankAt d z :=
        ByType.rankAt_Swap d (by omega) (by omega)
      have hpa : rankAt (ByType.Swap d i' j') a = rankAt d a := by
        rw [hsw, if_neg (by omega), if_neg (by omega)]
      obtain ⟨hs, hp⟩ := ih (ByType.Swap d i' j') (i' + 1) (j' - 1)
        (ByType.Sortable_Swap hv _ _) (by omega) (by omega) (by omega)
        (by rw [ByType.length_Swap]; exact hb) (by omega)
        (fun x h1 h2 => by
          rw [hpa, hsw, if_neg (by omega)]
          by_cases hx : x = i'
          · rw [if_pos hx]; exact h6
          · rw [if_neg hx]; exact hi3 x h1 (by omega))
        (fun x h1 h2 => by
          rw [hpa, hsw]
          by_cases hx : x = j'
          · rw [if_pos hx]; exact h5
          · rw [if_neg hx, if_neg (by omega)]; exact hj3 x (by omega) h2)
      exact ⟨(Shuffle.swap d (by omega) (by omega) (by omega) (by omega) hb).trans hs, hp⟩

/-- The function `partitionEqual` moves the entries of the range `[a, b)`
that do not have a greater rank than the pivot before the others, by
exchanges inside the range. -/
theorem partitionEqual_spec (d : ByType) (a b pivot : Nat) (hv : Sortable d) (hap : a ≤ pivot)
    (hpb : pivot < b) (hb : b ≤ d.length) :
    Shuffle a b d (sort.partitionEqual ByType.Interface d a b pivot).1 ∧
      PartitionedEqual (sort.partitionEqual ByType.Interface d a b pivot).1 a b
        (sort.partitionEqual ByType.Interface d a b pivot).2 ∧
      rankAt (sort.partitionEqual ByType.Interface d a b pivot).1 a = rankAt d pivot := by
  unfold sort.partitionEqual
  simp only [ByType.Interface_Swap]
  have hs0 : Shuffle a b d (ByType.Swap d a pivot) :=
    Shuffle.swap d (Nat.le_refl _) (by omega) hap hpb hb
  have hv0 := hs0.sortable hv
  have hl0 : (ByType.Swap d a pivot).length = d.length := ByType.length_Swap _ _ _
  have hr0 : rankAt (ByType.Swap d a pivot) a = rankAt d pivot := by
    rw [ByType.rankAt_Swap d (by omega) (by omega)]
    by_cases h : a = pivot
    · rw [if_pos h, h]
    · rw [if_neg h, if_pos rfl]
  generalize ByType.Swap d a pivot = d0 at hs0 hv0 hl0 hr0 ⊢
  obtain ⟨hs, hp⟩ := partitionEqualLoop_spec a b (b - a + 1) d0 (a + 1) (b - 1) hv0 (by omega)
    (by omega) (by omega) (by omega) (by omega) (fun x h1 h2 => by omega)
    (fun x h1 h2 => by omega)
  refine ⟨hs0.trans (hs.mono (by omega) (Nat.le_refl _) (by omega)), hp, ?_⟩
  rw [hs.rankAt_outside a (by omega), hr0]

/-! ### The steps of `pdqsort` that only rearrange the range -/

theorem reverseLoop_spec (a b : Nat) : ∀ (fuel i j : Nat) (d : ByType), a ≤ i → j < b →
    b ≤ d.length → Shuffle a b d (sort.reverseLoop ByType.Interface fuel i j d) := by
  intro fuel
  induction fuel with
  | zero => intro i j d _ _ _; exact Shuffle.refl d
  | succ fuel ih =>
    intro i j d hai hjb hb
    rw [sort.reverseLoop]
    by_cases hc : i < j
    · rw [if_pos hc]
      exact (Shuffle.swap d hai (by omega) (by omega) hjb hb).trans
        (ih (i + 1) (j - 1) _ (by omega) (by omega) (by rw [ByType.length_Swap]; exact hb))
    · rw [if_neg hc]; exact Shuffle.refl d

theorem reverseRange_spec (d : ByType) (a b : Nat) (hab : a < b) (hb : b ≤ d.length) :
    Shuffle a b d (sort.reverseRange ByType.Interface d a b) :=
  reverseLoop_spec a b (b - a) a (b - 1) d (Nat.le_refl _) (by omega) hb

theorem two_pow_bitsLenLoop : ∀ (fuel n : Nat), n ≤ fuel → 0 < n →
    2 ^ sort.bitsLenLoop fuel n ≤ 2 * n := by
  intro fuel
  induction fuel with
  | zero => intro n h1 h2; omega
  | succ fuel ih =>
    intro n hn hpos
    rw [sort.bitsLenLoop, if_neg (by omega)]
    by_cases h2 : n / 2 = 0
    · have h0 : sort.bitsLenLoop fuel (n / 2) = 0 := by
        rw [h2]; cases fuel <;> simp [sort.bitsLenLoop]
      rw [h0]; omega
    · have := ih (n / 2) (by omega) (by omega)
      rw [Nat.pow_succ]; omega

theorem breakPatternsLoop_spec (a b length modulus idx : Nat) (hlen : 0 < length)
    (hab : a + length = b) (hmod : modulus ≤ 2 * length) (hmpos : 0 < modulus) :
    ∀ (n i random : Nat) (d : ByType), b ≤ d.length →
      (∀ t, i ≤ t → t < i + n → a ≤ idx - 1 + t ∧ idx - 1 + t < b) →
      Shuffle a b d (sort.breakPatternsLoop ByType.Interface a length modulus idx n i random d) := by
  intro n
  induction n with
  | zero => intro i random d _ _; exact Shuffle.refl d
  | succ n ih =>
    intro i random d hb hidx
    rw [sort.breakPatternsLoop]
    have hlt : sort.xorshiftNext random % modulus < modulus := Nat.mod_lt _ hmpos
    have hother : (if length ≤ sort.xorshiftNext random % modulus
        then sort.xorshiftNext random % modulus - length
        else sort.xorshiftNext random % modulus) < length := by
      split_ifs <;> omega
    have h1 := hidx i (Nat.le_refl _) (by omega)
    exact (Shuffle.swap d h1.1 h1.2 (by omega) (by omega) hb).trans
      (ih (i + 1) _ _ (by rw [ByType.length_Swap]; exact hb)
        (fun t h2 h3 => hidx t (by omega) (by omega)))

theorem breakPatterns_spec (d : ByType) (a b : Nat) (hab : a ≤ b) (hb : b ≤ d.length) :
    Shuffle a b d (sort.breakPatterns ByType.Interface d a b) := by
  unfold sort.breakPatterns
  simp only
  by_cases h8 : 8 ≤ b - a
  · rw [if_pos h8]
    apply breakPatternsLoop_spec a b (b - a) _ _ (by omega) (by omega)
      (two_pow_bitsLenLoop _ _ (Nat.le_refl _) (by omega)) (Nat.pos_pow_of_pos _ (by decide))
      3 0 _ d hb
    intro t _ ht
    have : 2 ≤ (b - a) / 4 * 2 := by omega
    have : (b - a) / 4 * 2 ≤ (b - a) / 2 := by omega
    omega
  · rw [if_neg h8]; exact Shuffle.refl d

theorem order2_mem (d : ByType) (x y s : Nat) :
    ((sort.order2 ByType.Interface d x y s).1 = x ∧
        (sort.order2 ByType.Interface d x y s).2.1 = y) ∨
      ((sort.order2 ByType.Interface d x y s).1 = y ∧
        (sort.order2 ByType.Interface d x y s).2.1 = x) := by
  unfold sort.order2
  split_ifs
  · right; exact ⟨rfl, rfl⟩
  · left; exact ⟨rfl, rfl⟩

theorem median_mem (d : ByType) (x y z s : Nat) :
    (sort.median ByType.Interface d x y z s).1 = x ∨
      (sort.median ByType.Interface d x y z s).1 = y ∨
      (sort.median ByType.Interface d x y z s).1 = z := by
  unfold sort.median
  simp only
  rcases order2_mem d x y s with ⟨h1, h2⟩ | ⟨h1, h2⟩ <;>
  rcases order2_mem d (sort.order2 ByType.Interface d x y s).2.1 z
    (sort.order2 ByType.Interface d x y s).2.2 with ⟨h3, h4⟩ | ⟨h3, h4⟩ <;>
  rcases order2_mem d (sort.order2 ByType.Interface d x y s).1
    (sort.order2 ByType.Interface d (sort.order2 ByType.Interface d x y s).2.1 z
      (sort.order2 ByType.Interface d x y s).2.2).1
    (sort.order2 ByType.Interface d (sort.order2 ByType.Interface d x y s).2.1 z
      (sort.order2 ByType.Interface d x y s).2.2).2.2 with ⟨h5, h6⟩ | ⟨h5, h6⟩ <;>
  simp_all

theorem medianAdjacent_mem (d : ByType) (x s : Nat) :
    x - 1 ≤ (sort.medianAdjacent ByType.Interface d x s).1 ∧
      (sort.medianAdjacent ByType.Interface d x s).1 ≤ x + 1 := by
  unfold sort.medianAdjacent
  rcases median_mem d (x - 1) x (x + 1) s with h | h | h <;> omega

/-- The pivot that `choosePivot` returns is an index of the range. -/
theorem choosePivot_mem (d : ByType) (a b : Nat) (hab : a < b) :
    a ≤ (sort.choosePivot ByType.Interface d a b).1 ∧
      (sort.choosePivot ByType.Interface d a b).1 < b := by
  have hfst : (sort.choosePivot ByType.Interface d a b).1 =
      (if 8 ≤ b - a then
        if 50 ≤ b - a then
          (sort.median ByType.Interface d
            (sort.medianAdjacent ByType.Interface d (a + (b - a) / 4 * 1) 0).1
            (sort.medianAdjacent ByType.Interface d (a + (b - a) / 4 * 2)
              (sort.medianAdjacent ByType.Interface d (a + (b - a) / 4 * 1) 0).2).1
            (sort.medianAdjacent ByType.Interface d (a + (b - a) / 4 * 3)
              (sort.medianAdjacent ByType.Interface d (a + (b - a) / 4 * 2)
                (sort.medianAdjacent ByType.Interface d (a + (b - a) / 4 * 1) 0).2).2).1
            (sort.medianAdjacent ByType.Interface d (a + (b - a) / 4 * 3)
              (sort.medianAdjacent ByType.Interface d (a + (b - a) / 4 * 2)
                (sort.medianAdjacent ByType.Interface d (a + (b - a) / 4 * 1) 0).2).2).2).1
        else (sort.median ByType.Interface d (a + (b - a) / 4 * 1) (a + (b - a) / 4 * 2)
          (a + (b - a) / 4 * 3) 0).1
      else a + (b - a) / 4 * 2) := by
    unfold sort.choosePivot
    simp only
    split_ifs <;> rfl
  rw [hfst]
  by_cases h8 : 8 ≤ b - a
  · rw [if_pos h8]
    by_cases h50 : 50 ≤ b - a
    · rw [if_pos h50]
      have m1 := medianAdjacent_mem d (a + (b - a) / 4 * 1) 0
      have m2 := medianAdjacent_mem d (a + (b - a) / 4 * 2)
        (sort.medianAdjacent ByType.Interface d (a + (b - a) / 4 * 1) 0).2
      have m3 := medianAdjacent_mem d (a + (b - a) / 4 * 3)
        (sort.medianAdjacent ByType.Interface d (a + (b - a) / 4 * 2)
          (sort.medianAdjacent ByType.Interface d (a + (b - a) / 4 * 1) 0).2).2
      rcases median_mem d
        (sort.medianAdjacent ByType.Interface d (a + (b - a) / 4 * 1) 0).1
        (sort.medianAdjacent ByType.Interface d (a + (b - a) / 4 * 2)
          (sort.medianAdjacent ByType.Interface d (a + (b - a) / 4 * 1) 0).2).1
        (sort.medianAdjacent ByType.Interface d (a + (b - a) / 4 * 3)
          (sort.medianAdjacent ByType.Interface d (a + (b - a) / 4 * 2)
            (sort.medianAdjacent ByType.Interface d (a + (b - a) / 4 * 1) 0).2).2).1
        (sort.medianAdjacent ByType.Interface d (a + (b - a) / 4 * 3)
          (sort.medianAdjacent ByType.Interface d (a + (b - a) / 4 * 2)
            (sort.medianAdjacent ByType.Interface d (a + (b - a) / 4 * 1) 0).2).2).2
        with h | h | h <;> rw [h] <;> omega
    · rw [if_neg h50]
      rcases median_mem d (a + (b - a) / 4 * 1) (a + (b - a) / 4 * 2) (a + (b - a) / 4 * 3) 0
        with h | h | h <;> rw [h] <;> omega
  · rw [if_neg h8]; omega

/-! ### Partial insertion sort -/

theorem Shuffle.lowerBound {a b a' b' : Nat} {d d' : ByType} (h : Shuffle a' b' d d')
    (ha : a ≤ a') (hb : b' ≤ b) (hl : LowerBound d a b) : LowerBound d' a b := by
  intro hpos x hax hxb
  rw [h.rankAt_outside (a - 1) (by omega)]
  by_cases hx : a' ≤ x ∧ x < b'
  · exact h.forall_rank (fun r => rankAt d (a - 1) ≤ r)
      (fun y h1 h2 => hl hpos y (by omega) (by omega)) x hx.1 hx.2
  · rw [h.rankAt_outside x (by omega)]
    exact hl hpos x hax hxb

theorem Shuffle.sortedOn_disjoint {a b a' b' : Nat} {d d' : ByType} (h : Shuffle a' b' d d')
    (hd : b ≤ a' ∨ b' ≤ a) (hs : SortedOn d a b) : SortedOn d' a b := by
  intro x y hax hxy hyb
  rw [h.rankAt_outside x (by omega), h.rankAt_outside y (by omega)]
  exact hs x y hax hxy hyb

theorem SortedOn.extend {d : ByType} {a i : Nat} (hs : SortedOn d a i) (hai : a < i)
    (h : rankAt d (i - 1) ≤ rankAt d i) : SortedOn d a (i + 1) := by
  intro x y hax hxy hyi
  by_cases hy : y = i
  · subst hy
    by_cases hx : x = y - 1
    · subst hx; exact h
    · exact Nat.le_trans (hs x (y - 1) hax (by omega) (by omega)) h
  · exact hs x y hax hxy (by omega)

theorem shiftLeft_spec (a i : Nat) : ∀ (j : Nat) (d : ByType), Sortable d → a ≤ j → j ≤ i →
    i < d.length → InsertionInv d a j i → LowerBound d a (i + 1) →
    Shuffle a (i + 1) d (sort.shiftLeft ByType.Interface j d) ∧
      SortedOn (sort.shiftLeft ByType.Interface j d) a (i + 1) := by
  intro j
  induction j with
  | zero =>
    intro d _ ha _ _ hinv _
    exact ⟨Shuffle.refl d, sortedOn_of_insertionInv hinv (Or.inl (by omega))⟩
  | succ j ih =>
    intro d hv ha hji hi hinv hlb
    rw [sort.shiftLeft]
    by_cases hc : (!ByType.Interface.Less d (j + 1) j) = true
    · rw [if_pos hc]
      refine ⟨Shuffle.refl d, sortedOn_of_insertionInv hinv ?_⟩
      by_cases haj : a < j + 1
      · right
        refine ⟨haj, ?_⟩
        have hless : ByType.Less d (j + 1) j = false := by simpa using hc
        exact (ByType.Less_eq_false_iff hv (by omega) (by omega) (by omega)).mp hless
      · left; omega
    · rw [if_neg hc]
      have hless : ByType.Less d (j + 1) j = true := by simpa using hc
      have hlt := (ByType.Less_iff hv (by omega) (by omega) (by omega)).mp hless
      have haj : a < j + 1 := by
        by_contra hn
        have e : a = j + 1 := by omega
        have := hlb (by omega) a (Nat.le_refl _) (by omega)
        rw [e] at this
        simp only [Nat.add_sub_cancel] at this
        omega
      have hsw : ∀ z, rankAt (ByType.Swap d (j + 1) j) z =
          if z = j then rankAt d (j + 1) else if z = j + 1 then rankAt d j else rankAt d z :=
        ByType.rankAt_Swap d (by omega) (by omega)
      have hinv' : InsertionInv (ByType.Swap d (j + 1) j) a j i := by
        constructor
        · intro x y hax hxy hyi hxj hyj
          rw [hsw, hsw, if_neg hxj, if_neg hyj]
          by_cases hx1 : x = j + 1
          · rw [if_pos hx1, if_neg (by omega)]
            exact hinv.1 j y (by omega) (by omega) hyi (by omega) (by omega)
          · rw [if_neg hx1]
            by_cases hy1 : y = j + 1
            · rw [if_pos hy1]
              exact hinv.1 x j hax (by omega) (by omega) hx1 (by omega)
            · rw [if_neg hy1]
              exact hinv.1 x y hax hxy hyi hx1 hy1
        · intro y hjy hyi
          rw [hsw, hsw, if_pos rfl, if_neg (by omega)]
          by_cases hy1 : y = j + 1
          · rw [if_pos hy1]; omega
          · rw [if_neg hy1]
            exact hinv.2 y (by omega) hyi
      have hs1 : Shuffle a (i + 1) d (ByType.Swap d (j + 1) j) :=
        Shuffle.swap d (by omega) (by omega) (by omega) (by omega) (by omega)
      obtain ⟨hs, hsorted⟩ := ih (ByType.Swap d (j + 1) j) (ByType.Sortable_Swap hv _ _)
        (by omega) (by omega) (by rw [ByType.length_Swap]; exact hi) hinv'
        (hs1.lowerBound (Nat.le_refl _) (Nat.le_refl _) hlb)
      exact ⟨hs1.trans hs, hsorted⟩

theorem shiftRight_spec (a b : Nat) : ∀ (n j : Nat) (d : ByType), a < j → j + n ≤ b →
    b ≤ d.length → Shuffle a b d (sort.shiftRight ByType.Interface n j d) := by
  intro n
  induction n with
  | zero => intro j d _ _ _; exact Shuffle.refl d
  | succ n ih =>
    intro j d haj hjb hb
    rw [sort.shiftRight]
    split_ifs
    · exact Shuffle.refl d
    · exact (Shuffle.swap d (by omega) (by omega) (by omega) (by omega) hb).trans
        (ih (j + 1) _ (by omega) (by omega) (by rw [ByType.length_Swap]; exact hb))

theorem scanSorted_spec (d : ByType) (a b : Nat) (hv : Sortable d) (hb : b ≤ d.length) :
    ∀ (fuel i : Nat), a < i → i ≤ b → SortedOn d a i →
      i ≤ sort.scanSorted ByType.Interface d b fuel i ∧
      sort.scanSorted ByType.Interface d b fuel i ≤ b ∧
      SortedOn d a (sort.scanSorted ByType.Interface d b fuel i) := by
  intro fuel
  induction fuel with
  | zero => intro i _ hib hs; exact ⟨Nat.le_refl _, hib, hs⟩
  | succ fuel ih =>
    intro i hai hib hs
    rw [sort.scanSorted]
    by_cases hc : (decide (i < b) && !ByType.Interface.Less d i (i - 1)) = true
    · rw [if_pos hc]
      simp only [Bool.and_eq_true, decide_eq_true_eq, ByType.Interface_Less,
        Bool.not_eq_true'] at hc
      have hle := (ByType.Less_eq_false_iff hv (by omega) (by omega) (by omega)).mp hc.2
      obtain ⟨h1, h2, h3⟩ := ih (i + 1) (by omega) (by omega) (hs.extend hai hle)
      exact ⟨by omega, h2, h3⟩
    · rw [if_neg hc]; exact ⟨Nat.le_refl _, hib, hs⟩

theorem partialInsertionLoop_spec (a b : Nat) : ∀ (steps i : Nat) (d : ByType), Sortable d →
    a < i → i ≤ b → b ≤ d.length → SortedOn d a i → LowerBound d a b →
    Shuffle a b d (sort.partialInsertionLoop ByType.Interface a b steps i d).1 ∧
      ((sort.partialInsertionLoop ByType.Interface a b steps i d).2 = true →
        SortedOn (sort.partialInsertionLoop ByType.Interface a b steps i d).1 a b) := by
  intro steps
  induction steps with
  | zero =>
    intro i d _ _ _ _ _ _
    rw [sort.partialInsertionLoop]
    exact ⟨Shuffle.refl d, fun h => by cases h⟩
  | succ steps ih =>
    intro i d hv hai hib hb hs hlb
    rw [sort.partialInsertionLoop]
    obtain ⟨h1, h2, h3⟩ := scanSorted_spec d a b hv hb (b - i) i hai hib hs
    generalize sort.scanSorted ByType.Interface d b (b - i) i = i' at h1 h2 h3 ⊢
    simp only [ByType.Interface_Swap]
    by_cases he : i' = b
    · rw [if_pos he]
      exact ⟨Shuffle.refl d, fun _ => he ▸ h3⟩
    · rw [if_neg he]
      by_cases h50 : b - a < 50
      · rw [if_pos h50]
        exact ⟨Shuffle.refl d, fun h => by cases h⟩
      · rw [if_neg h50]
        -- the exchange of the entries at `i'` and `i' - 1`
        have hs1 : Shuffle a b d (ByType.Swap d i' (i' - 1)) :=
          Shuffle.swap d (by omega) (by omega) (by omega) (by omega) hb
        have hv1 := hs1.sortable hv
        have hl1 : (ByType.Swap d i' (i' - 1)).length = d.length := ByType.length_Swap _ _ _
        have hsorted1 : SortedOn (ByType.Swap d i' (i' - 1)) a (i' - 1) := by
          intro x y hax hxy hyi
          rw [ByType.rankAt_Swap d (by omega) (by omega),
            ByType.rankAt_Swap d (by omega) (by omega), if_neg (by omega), if_neg (by omega),
            if_neg (by omega), if_neg (by omega)]
          exact h3 x y hax hxy (by omega)
        have hlb1 := hs1.lowerBound (Nat.le_refl _) (Nat.le_refl _) hlb
        generalize ByType.Swap d i' (i' - 1) = d1 at hs1 hv1 hl1 hsorted1 hlb1 ⊢
        -- the smaller one is moved down
        have hstep2 : ∃ d2, d2 = (if 2 ≤ i' - a then sort.shiftLeft ByType.Interface (i' - 1) d1
            else d1) ∧ Shuffle a b d1 d2 ∧ SortedOn d2 a i' := by
          refine ⟨_, rfl, ?_⟩
          by_cases h2a : 2 ≤ i' - a
          · rw [if_pos h2a]
            have hinv : InsertionInv d1 a (i' - 1) (i' - 1) :=
              ⟨fun x y hax hxy hyi _ hyi' => hsorted1 x y hax hxy (by omega),
                fun y h1 h2 => by omega⟩
            obtain ⟨hsl, hsortedl⟩ := shiftLeft_spec a (i' - 1) (i' - 1) d1 hv1 (by omega)
              (Nat.le_refl _) (by omega) hinv
              (fun hpos x hax hxb => hlb1 hpos x hax (by omega))
            have e : i' - 1 + 1 = i' := by omega
            rw [e] at hsl hsortedl
            exact ⟨hsl.mono (Nat.le_refl _) (by omega) (by omega), hsortedl⟩
          · rw [if_neg h2a]
            exact ⟨Shuffle.refl d1, fun x y hax hxy hyi => by omega⟩
        obtain ⟨d2, hd2, hs2, hsorted2⟩ := hstep2
        rw [← hd2]
        have hv2 := hs2.sortable hv1
        have hl2 := hs2.length
        -- the greater one is moved up
        have hstep3 : ∃ d3, d3 = (if 2 ≤ b - i' then
            sort.shiftRight ByType.Interface (b - (i' + 1)) (i' + 1) d2 else d2) ∧
            Shuffle a b d2 d3 ∧ SortedOn d3 a i' := by
          refine ⟨_, rfl, ?_⟩
          by_cases h2b : 2 ≤ b - i'
          · rw [if_pos h2b]
            have hsr := shiftRight_spec i' b (b - (i' + 1)) (i' + 1) d2 (by omega) (by omega)
              (by omega)
            exact ⟨hsr.mono (by omega) (Nat.le_refl _) (by omega),
              hsr.sortedOn_disjoint (Or.inl (Nat.le_refl _)) hsorted2⟩
          · rw [if_neg h2b]
            exact ⟨Shuffle.refl d2, hsorted2⟩
        obtain ⟨d3, hd3, hs3, hsorted3⟩ := hstep3
        rw [← hd3]
        have hs13 := hs1.trans (hs2.trans hs3)
        obtain ⟨hs4, hsorted4⟩ := ih i' d3 (hs13.sortable hv) (by omega) h2
          (by rw [hs13.length]; exact hb) hsorted3
          (hs13.lowerBound (Nat.le_refl _) (Nat.le_refl _) hlb)
        exact ⟨hs13.trans hs4, hsorted4⟩

/-- Partial insertion sort rearranges the range `[a, b)` by exchanges inside
the range, and the range is ordered when it reports success. -/
theorem partialInsertionSort_spec (d : ByType) (a b : Nat) (hv : Sortable d) (hab : a < b)
    (hb : b ≤ d.length) (hlb : LowerBound d a b) :
    Shuffle a b d (sort.partialInsertionSort ByType.Interface d a b).1 ∧
      ((sort.partialInsertionSort ByType.Interface d a b).2 = true →
        SortedOn (sort.partialInsertionSort ByType.Interface d a b).1 a b) :=
  partialInsertionLoop_spec a b 5 (a + 1) d hv (by omega) (by omega) hb
    (fun x y h1 h2 h3 => by omega) hlb

/-! ### Heap sort -/

theorem siftDown_spec (hi first lo : Nat) : ∀ (fuel root : Nat) (d : ByType), Sortable d →
    first + hi ≤ d.length → lo ≤ root → hi ≤ root + fuel →
    (∀ r, lo ≤ r → r < hi → r ≠ root → HeapAt d first hi r) →
    (∀ p, lo ≤ p → (root = 2 * p + 1 ∨ root = 2 * p + 2) →
      (2 * root + 1 < hi → rankAt d (first + (2 * root + 1)) ≤ rankAt d (first + p)) ∧
      (2 * root + 2 < hi → rankAt d (first + (2 * root + 2)) ≤ rankAt d (first + p))) →
    Shuffle first (first + hi) d (sort.siftDown ByType.Interface hi first fuel root d) ∧
      ∀ r, lo ≤ r → r < hi →
        HeapAt (sort.siftDown ByType.Interface hi first fuel root d) first hi r := by
  intro fuel
  induction fuel with
  | zero =>
    intro root d _ _ _ hf hheap _
    rw [sort.siftDown]
    refine ⟨Shuffle.refl d, fun r h1 h2 => hheap r h1 h2 (by omega)⟩
  | succ fuel ih =>
    intro root d hv hlen hlo hf hheap hgp
    rw [sort.siftDown]
    simp only [ByType.Interface_Less, ByType.Interface_Swap]
    by_cases hc0 : hi ≤ 2 * root + 1
    · rw [if_pos hc0]
      refine ⟨Shuffle.refl d, fun r h1 h2 => ?_⟩
      by_cases hr : r = root
      · subst hr; exact ⟨fun h => by omega, fun h => by omega⟩
      · exact hheap r h1 h2 hr
    · rw [if_neg hc0]
      -- the greater child
      have hchild : ∃ c, c = (if (decide (2 * root + 1 + 1 < hi) &&
            ByType.Less d (first + (2 * root + 1)) (first + (2 * root + 1) + 1)) = true
          then 2 * root + 1 + 1 else 2 * root + 1) ∧
          (c = 2 * root + 1 ∨ c = 2 * root + 2) ∧ c < hi ∧
          rankAt d (first + (2 * root + 1)) ≤ rankAt d (first + c) ∧
          (2 * root + 2 < hi → rankAt d (first + (2 * root + 2)) ≤ rankAt d (first + c)) := by
        refine ⟨_, rfl, ?_⟩
        by_cases hc : (decide (2 * root + 1 + 1 < hi) &&
            ByType.Less d (first + (2 * root + 1)) (first + (2 * root + 1) + 1)) = true
        · rw [if_pos hc]
          simp only [Bool.and_eq_true, decide_eq_true_eq] at hc
          have := (ByType.Less_iff hv (by omega) (by omega) (by omega)).mp hc.2
          have e : first + (2 * root + 1) + 1 = first + (2 * root + 2) := by omega
          rw [e] at this
          have e2 : 2 * root + 1 + 1 = 2 * root + 2 := by omega
          rw [e2]
          exact ⟨Or.inr rfl, by omega, by omega, fun _ => Nat.le_refl _⟩
        · rw [if_neg hc]
          refine ⟨Or.inl rfl, by omega, Nat.le_refl _, fun h2 => ?_⟩
          have hless : ByType.Less d (first + (2 * root + 1)) (first + (2 * root + 1) + 1)
              = false := by
            have h3 : 2 * root + 1 + 1 < hi := by omega
            simpa [h3] using hc
          have := (ByType.Less_eq_false_iff hv (by omega) (by omega) (by omega)).mp hless
          have e : first + (2 * root + 1) + 1 = first + (2 * root + 2) := by omega
          rw [e] at this
          exact this
      obtain ⟨c, hcdef, hcc, hchi, hmax1, hmax2⟩ := hchild
      rw [← hcdef]
      by_cases hc : (!ByType.Less d (first + root) (first + c)) = true
      · rw [if_pos hc]
        have hless : ByType.Less d (first + root) (first + c) = false := by simpa using hc
        have hle := (ByType.Less_eq_false_iff hv (by omega) (by omega) (by omega)).mp hless
        refine ⟨Shuffle.refl d, fun r h1 h2 => ?_⟩
        by_cases hr : r = root
        · subst hr
          exact ⟨fun _ => Nat.le_trans hmax1 hle, fun h => Nat.le_trans (hmax2 h) hle⟩
        · exact hheap r h1 h2 hr
      · rw [if_neg hc]
        have hless : ByType.Less d (first + root) (first + c) = true := by simpa using hc
        have hlt := (ByType.Less_iff hv (by omega) (by omega) (by omega)).mp hless
        have hsw : ∀ z, rankAt (ByType.Swap d (first + root) (first + c)) z =
            if z = first + c then rankAt d (first + root)
            else if z = first + root then rankAt d (first + c) else rankAt d z :=
          ByType.rankAt_Swap d (by omega) (by omega)
        have hsame : ∀ z, z ≠ root → z ≠ c →
            rankAt (ByType.Swap d (first + root) (first + c)) (first + z) =
              rankAt d (first + z) := by
          intro z h1 h2
          rw [hsw, if_neg (by omega), if_neg (by omega)]
        have hroot : rankAt (ByType.Swap d (first + root) (first + c)) (first + root) =
            rankAt d (first + c) := by
          rw [hsw, if_neg (by omega), if_pos rfl]
        have hcr : rankAt (ByType.Swap d (first + root) (first + c)) (first + c) =
            rankAt d (first + root) := by
          rw [hsw, if_pos rfl]
        have hs1 : Shuffle first (first + hi) d (ByType.Swap d (first + root) (first + c)) :=
          Shuffle.swap d (by omega) (by omega) (by omega) (by omega) hlen
        obtain ⟨hs, hpost⟩ := ih c (ByType.Swap d (first + root) (first + c))
          (ByType.Sortable_Swap hv _ _) (by rw [ByType.length_Swap]; exact hlen) (by omega)
          (by omega)
          (fun r h1 h2 h3 => by
            by_cases hr : r = root
            · subst hr
              constructor
              · intro h
                rw [hroot]
                rcases hcc with hcc | hcc
                · rw [← hcc, hcr]; omega
                · rw [hsame (2 * r + 1) (by omega) (by omega)]; exact hmax1
              · intro h
                rw [hroot]
                rcases hcc with hcc | hcc
                · rw [hsame (2 * r + 2) (by omega) (by omega)]; exact hmax2 h
                · rw [← hcc, hcr]; omega
            · have hold := hheap r h1 h2 hr
              rw [HeapAt, hsame r hr h3]
              constructor
              · intro h
                by_cases hx : 2 * r + 1 = root
                · rw [hx, hroot]
                  have := hgp r h1 (Or.inl hx.symm)
                  rcases hcc with hcc | hcc
                  · rw [hcc]; exact this.1 (by omega)
                  · rw [hcc]; exact this.2 (by omega)
                · rw [hsame (2 * r + 1) hx (by omega)]
                  exact hold.1 h
              · intro h
                by_cases hx : 2 * r + 2 = root
                · rw [hx, hroot]
                  have := hgp r h1 (Or.inr hx.symm)
                  rcases hcc with hcc | hcc
                  · rw [hcc]; exact this.1 (by omega)
                  · rw [hcc]; exact this.2 (by omega)
                · rw [hsame (2 * r + 2) hx (by omega)]
                  exact hold.2 h)
          (fun p h1 h2 => by
            have hp : p = root := by omega
            subst hp
            have hold := hheap c (by omega) hchi (by omega)
            rw [hroot]
            constructor
            · intro h
              rw [hsame (2 * c + 1) (by omega) (by omega)]; exact hold.1 h
            · intro h
              rw [hsame (2 * c + 2) (by omega) (by omega)]; exact hold.2 h)
        exact ⟨hs1.trans hs, hpost⟩

theorem heapBuild_spec (hi first : Nat) : ∀ (i : Nat) (d : ByType), Sortable d →
    first + hi ≤ d.length →
    (∀ r, i < r → r < hi → HeapAt d first hi r) →
    Shuffle first (first + hi) d (sort.heapBuild ByType.Interface hi first i d) ∧
      ∀ r, r < hi → HeapAt (sort.heapBuild ByType.Interface hi first i d) first hi r := by
  intro i
  induction i with
  | zero =>
    intro d hv hlen hheap
    rw [sort.heapBuild]
    obtain ⟨hs, hpost⟩ := siftDown_spec hi first 0 hi 0 d hv hlen (Nat.le_refl _) (by omega)
      (fun r _ h2 h3 => hheap r (by omega) h2) (fun p _ h => by omega)
    exact ⟨hs, fun r h => hpost r (Nat.zero_le _) h⟩
  | succ i ih =>
    intro d hv hlen hheap
    rw [sort.heapBuild]
    obtain ⟨hs, hpost⟩ := siftDown_spec hi first (i + 1) hi (i + 1) d hv hlen (Nat.le_refl _)
      (by omega) (fun r h1 h2 h3 => hheap r (by omega) h2) (fun p h1 h => by omega)
    obtain ⟨hs2, hpost2⟩ := ih _ (hs.sortable hv) (by rw [hs.length]; exact hlen)
      (fun r h1 h2 => hpost r (by omega) h2)
    exact ⟨hs.trans hs2, hpost2⟩

/-- The root of a heap has the greatest rank. -/
theorem heap_root_max (d : ByType) (first n : Nat) (h : ∀ r, r < n → HeapAt d first n r) :
    ∀ x, x < n → rankAt d (first + x) ≤ rankAt d (first + 0) := by
  intro x
  induction x using Nat.strong_induction_on with
  | _ x ih =>
    intro hx
    by_cases h0 : x = 0
    · subst h0; exact Nat.le_refl _
    · have hp := h ((x - 1) / 2) (by omega)
      have hpar := ih ((x - 1) / 2) (by omega) (by omega)
      by_cases hodd : x = 2 * ((x - 1) / 2) + 1
      · have := hp.1 (by omega)
        rw [← hodd] at this
        exact Nat.le_trans this hpar
      · have hev : x = 2 * ((x - 1) / 2) + 2 := by omega
        have := hp.2 (by omega)
        rw [← hev] at this
        exact Nat.le_trans this hpar

theorem heapPop_spec (first hi : Nat) : ∀ (i : Nat) (d : ByType), Sortable d →
    first + hi ≤ d.length → i < hi →
    (∀ r, r < i + 1 → HeapAt d first (i + 1) r) →
    SortedOn d (first + i + 1) (first + hi) →
    (∀ x y, x ≤ i → i < y → y < hi → rankAt d (first + x) ≤ rankAt d (first + y)) →
    Shuffle first (first + hi) d (sort.heapPop ByType.Interface first i d) ∧
      SortedOn (sort.heapPop ByType.Interface first i d) first (first + hi) := by
  intro i
  induction i with
  | zero =>
    intro d hv hlen hi0 _ hsorted hle
    rw [sort.heapPop, sort.siftDown]
    simp only [ByType.Interface_Swap]
    have hsw : ∀ z, rankAt (ByType.Swap d first first) z = rankAt d z := by
      intro z
      rw [ByType.rankAt_Swap d (by omega) (by omega)]
      split_ifs with h1 <;> simp [h1]
    refine ⟨Shuffle.swap d (Nat.le_refl _) (by omega) (Nat.le_refl _) (by omega) hlen, ?_⟩
    intro x y hx hxy hy
    rw [hsw, hsw]
    by_cases hx0 : x = first
    · have := hle 0 (y - first) (Nat.le_refl _) (by omega) (by omega)
      have e : first + (y - first) = y := by omega
      rw [e] at this
      rw [hx0]; simpa using this
    · exact hsorted x y (by omega) hxy hy
  | succ i ih =>
    intro d hv hlen hihi hheap hsorted hle
    rw [sort.heapPop]
    simp only [ByType.Interface_Swap]
    have hmax := heap_root_max d first (i + 1 + 1) hheap
    have hsw : ∀ z, rankAt (ByType.Swap d first (first + (i + 1))) z =
        if z = first + (i + 1) then rankAt d first
        else if z = first then rankAt d (first + (i + 1)) else rankAt d z :=
      ByType.rankAt_Swap d (by omega) (by omega)
    have hsame : ∀ z, z ≠ 0 → z ≠ i + 1 →
        rankAt (ByType.Swap d first (first + (i + 1))) (first + z) = rankAt d (first + z) := by
      intro z h1 h2
      rw [hsw, if_neg (by omega), if_neg (by omega)]
    have hs1 : Shuffle first (first + hi) d (ByType.Swap d first (first + (i + 1))) :=
      Shuffle.swap d (Nat.le_refl _) (by omega) (by omega) (by omega) hlen
    have hv1 := hs1.sortable hv
    have hl1 : (ByType.Swap d first (first + (i + 1))).length = d.length :=
      ByType.length_Swap _ _ _
    have htop : rankAt (ByType.Swap d first (first + (i + 1))) (first + (i + 1)) =
        rankAt d (first + 0) := by
      rw [hsw, if_pos rfl]; rfl
    -- the heap on the first `i + 1` entries, but for its root
    have hheap1 : ∀ r, 0 ≤ r → r < i + 1 → r ≠ 0 →
        HeapAt (ByType.Swap d first (first + (i + 1))) first (i + 1) r := by
      intro r _ h2 h3
      have hold := hheap r (by omega)
      rw [HeapAt, hsame r h3 (by omega)]
      constructor
      · intro h
        rw [hsame (2 * r + 1) (by omega) (by omega)]; exact hold.1 (by omega)
      · intro h
        rw [hsame (2 * r + 2) (by omega) (by omega)]; exact hold.2 (by omega)
    -- every entry of the new heap is below the entries after it
    have hle1 : ∀ x y, x ≤ i → i < y → y < hi →
        rankAt (ByType.Swap d first (first + (i + 1))) (first + x) ≤
          rankAt (ByType.Swap d first (first + (i + 1))) (first + y) := by
      intro x y hx hy hyh
      have hxmax : rankAt (ByType.Swap d first (first + (i + 1))) (first + x) ≤
          rankAt d (first + 0) := by
        by_cases hx0 : x = 0
        · subst hx0
          rw [hsw, if_neg (by omega), if_pos (by omega)]
          exact hmax (i + 1) (by omega)
        · rw [hsame x hx0 (by omega)]; exact hmax x (by omega)
      by_cases hy1 : y = i + 1
      · rw [hy1, htop]; exact hxmax
      · rw [hsame y (by omega) hy1]
        exact Nat.le_trans hxmax (hle 0 y (by omega) (by omega) hyh)
    have hsorted1 : SortedOn (ByType.Swap d first (first + (i + 1))) (first + i + 1)
        (first + hi) := by
      intro x y hx hxy hy
      have ey : first + (y - first) = y := by omega
      have hyr : rankAt (ByType.Swap d first (first + (i + 1))) y = rankAt d y := by
        rw [← ey, hsame (y - first) (by omega) (by omega)]
      rw [hyr]
      by_cases hx1 : x = first + (i + 1)
      · rw [hx1, htop]
        have := hle 0 (y - first) (by omega) (by omega) (by omega)
        rw [ey] at this
        exact this
      · have ex : first + (x - first) = x := by omega
        rw [← ex, hsame (x - first) (by omega) (by omega), ex]
        exact hsorted x y (by omega) hxy hy
    generalize ByType.Swap d first (first + (i + 1)) = d1 at hs1 hv1 hl1 hheap1 hle1 hsorted1 ⊢
    obtain ⟨hs2, hheap2⟩ := siftDown_spec (i + 1) first 0 (i + 1) 0 d1 hv1 (by omega)
      (Nat.le_refl _) (by omega) hheap1 (fun p _ h => by omega)
    have hle2 : ∀ x y, x ≤ i → i < y → y < hi →
        rankAt (sort.siftDown ByType.Interface (i + 1) first (i + 1) 0 d1) (first + x) ≤
          rankAt (sort.siftDown ByType.Interface (i + 1) first (i + 1) 0 d1) (first + y) := by
      intro x y hx hy hyh
      rw [hs2.rankAt_outside (first + y) (by omega)]
      exact hs2.forall_rank (fun r => r ≤ rankAt d1 (first + y))
        (fun z h1 h2 => by
          have ez : first + (z - first) = z := by omega
          have := hle1 (z - first) y (by omega) hy hyh
          rw [ez] at this
          exact this) (first + x) (by omega) (by omega)
    have e1 : first + i + 1 = first + (i + 1) := by omega
    obtain ⟨hs3, hsorted3⟩ := ih _ (hs2.sortable hv1) (by rw [hs2.length]; omega) (by omega)
      (fun r h => hheap2 r (Nat.zero_le _) h)
      (by
        intro x y hx hxy hy
        rw [hs2.rankAt_outside x (by omega), hs2.rankAt_outside y (by omega)]
        by_cases hx1 : x = first + (i + 1)
        · have := hle1 0 0 (by omega)
          have ey : first + (y - first) = y := by omega
          have h0 := hsorted1 x y (by omega) hxy hy
          exact h0
        · exact hsorted1 x y (by omega) hxy hy)
      hle2
    exact ⟨hs1.trans ((hs2.mono (Nat.le_refl _) (by omega) (by omega)).trans hs3), hsorted3⟩

/-- Heap sort orders the range `[a, b)` by exchanges inside the range. -/
theorem heapSort_spec (d : ByType) (a b : Nat) (hv : Sortable d) (hab : a ≤ b)
    (hb : b ≤ d.length) :
    Shuffle a b d (sort.heapSort ByType.Interface d a b) ∧
      SortedOn (sort.heapSort ByType.Interface d a b) a b := by
  unfold sort.heapSort
  simp only
  by_cases h0 : b - a = 0
  · rw [if_pos h0]
    exact ⟨Shuffle.refl d, fun x y h1 h2 h3 => by omega⟩
  · rw [if_neg h0]
    have e : a + (b - a) = b := by omega
    obtain ⟨hs1, hheap⟩ := heapBuild_spec (b - a) a ((b - a - 1) / 2) d hv (by omega)
      (fun r h1 h2 => ⟨fun h => by omega, fun h => by omega⟩)
    have e1 : b - a - 1 + 1 = b - a := by omega
    obtain ⟨hs2, hsorted⟩ := heapPop_spec a (b - a) (b - a - 1) _ (hs1.sortable hv)
      (by rw [hs1.length]; omega) (by omega)
      (fun r h => by rw [e1] at h ⊢; exact hheap r h)
      (fun x y h1 h2 h3 => by omega) (fun x y h1 h2 h3 => by omega)
    rw [e] at hs1 hs2 hsorted
    exact ⟨hs1.trans hs2, hsorted⟩

/-! ### The main loop of `pdqsort` -/

/-- A property of the ranks that holds on a range before exchanges inside a
part of the range holds on the range after them. -/
theorem Shuffle.forall_rank_mono {a b a' b' : Nat} {d d' : ByType} (h : Shuffle a' b' d d')
    (ha : a ≤ a') (hb : b' ≤ b) (P : Nat → Prop)
    (hP : ∀ x, a ≤ x → x < b → P (rankAt d x)) : ∀ x, a ≤ x → x < b → P (rankAt d' x) := by
  intro x hax hxb
  by_cases hx : a' ≤ x ∧ x < b'
  · exact h.forall_rank P (fun y h1 h2 => hP y (by omega) (by omega)) x hx.1 hx.2
  · rw [h.rankAt_outside x (by omega)]
    exact hP x hax hxb

/-- Two ordered ranges on both sides of a pivot make one ordered range. -/
theorem sortedOn_of_pivot {d : ByType} {a b mid : Nat} (p : Nat) (hmid : rankAt d mid = p)
    (hleft : SortedOn d a mid) (hright : SortedOn d (mid + 1) b)
    (hlt : ∀ x, a ≤ x → x < mid → rankAt d x < p)
    (hge : ∀ x, mid < x → x < b → p ≤ rankAt d x) : SortedOn d a b := by
  intro x y hax hxy hyb
  by_cases hy : y < mid
  · exact hleft x y hax hxy hy
  · by_cases hx : mid < x
    · exact hright x y (by omega) hxy hyb
    · by_cases hxm : x = mid
      · rw [hxm, hmid]; exact hge y (by omega) hyb
      · have h1 := hlt x hax (by omega)
        by_cases hym : y = mid
        · rw [hym, hmid]; omega
        · have h2 := hge y (by omega) hyb
          omega

/-- The loop of `pdqsort` orders the range `[a, b)` by exchanges inside the
range, whatever the limit and the two flags, when no entry of the range has a
smaller rank than the entry right before the range. -/
theorem pdqsortLoop_spec : ∀ (fuel : Nat) (d : ByType) (a b limit : Nat) (wb wp : Bool),
    Sortable d → a ≤ b → b ≤ d.length → b - a < fuel → LowerBound d a b →
    Shuffle a b d (sort.pdqsortLoop ByType.Interface fuel d a b limit wb wp) ∧
      SortedOn (sort.pdqsortLoop ByType.Interface fuel d a b limit wb wp) a b := by
  intro fuel
  induction fuel with
  | zero => intro d a b limit wb wp _ _ _ hf; omega
  | succ fuel ih =>
    intro d a b limit wb wp hv hab hb hf hlb
    rw [sort.pdqsortLoop]
    dsimp only
    by_cases h12 : b - a ≤ 12
    · rw [if_pos h12]; exact insertionSort_spec d a b hv hb
    rw [if_neg h12]
    by_cases hl : limit = 0
    · rw [if_pos hl]; exact heapSort_spec d a b hv hab hb
    rw [if_neg hl]
    -- breakPatterns
    have hs1 : Shuffle a b d
        (if (!wb) = true then sort.breakPatterns ByType.Interface d a b else d) := by
      split_ifs
      · exact breakPatterns_spec d a b hab hb
      · exact Shuffle.refl d
    generalize (if (!wb) = true then sort.breakPatterns ByType.Interface d a b else d) = d1
      at hs1 ⊢
    generalize (if (!wb) = true then limit - 1 else limit) = limit1
    -- choosePivot
    have hcp := choosePivot_mem d1 a b (by omega)
    generalize sort.choosePivot ByType.Interface d1 a b = cp at hcp ⊢
    have hs2 : Shuffle a b d1 (if cp.2 = sort.sortedHint.decreasingHint
        then sort.reverseRange ByType.Interface d1 a b else d1) := by
      split_ifs
      · exact reverseRange_spec d1 a b (by omega) (by rw [hs1.length]; exact hb)
      · exact Shuffle.refl d1
    generalize (if cp.2 = sort.sortedHint.decreasingHint
        then sort.reverseRange ByType.Interface d1 a b else d1) = d2 at hs2 ⊢
    have hpiv : a ≤ (if cp.2 = sort.sortedHint.decreasingHint then b - 1 - (cp.1 - a)
        else cp.1) ∧ (if cp.2 = sort.sortedHint.decreasingHint then b - 1 - (cp.1 - a)
        else cp.1) < b := by
      split_ifs <;> omega
    generalize (if cp.2 = sort.sortedHint.decreasingHint then b - 1 - (cp.1 - a)
        else cp.1) = pivot at hpiv ⊢
    generalize (if cp.2 = sort.sortedHint.decreasingHint then sort.sortedHint.increasingHint
        else cp.2) = hint
    have hs12 := hs1.trans hs2
    have hv2 := hs12.sortable hv
    have hl2 := hs12.length
    have hlb2 := hs12.lowerBound (Nat.le_refl _) (Nat.le_refl _) hlb
    -- partialInsertionSort
    have hpis : Shuffle a b d2 (if (wb && wp && decide (hint = sort.sortedHint.increasingHint))
          = true then sort.partialInsertionSort ByType.Interface d2 a b else (d2, false)).1 ∧
        ((if (wb && wp && decide (hint = sort.sortedHint.increasingHint)) = true
          then sort.partialInsertionSort ByType.Interface d2 a b else (d2, false)).2 = true →
          SortedOn (if (wb && wp && decide (hint = sort.sortedHint.increasingHint)) = true
            then sort.partialInsertionSort ByType.Interface d2 a b else (d2, false)).1 a b) := by
      split_ifs
      · exact partialInsertionSort_spec d2 a b hv2 (by omega) (by omega) hlb2
      · exact ⟨Shuffle.refl d2, fun h => by cases h⟩
    generalize (if (wb && wp && decide (hint = sort.sortedHint.increasingHint)) = true
        then sort.partialInsertionSort ByType.Interface d2 a b else (d2, false)) = pis
      at hpis ⊢
    obtain ⟨hs3, hsorted3⟩ := hpis
    have hs13 := hs12.trans hs3
    by_cases hdone : pis.2 = true
    · rw [if_pos hdone]; exact ⟨hs13, hsorted3 hdone⟩
    rw [if_neg hdone]
    have hv3 := hs13.sortable hv
    have hl3 := hs13.length
    have hlb3 := hs13.lowerBound (Nat.le_refl _) (Nat.le_refl _) hlb
    generalize pis.1 = d3 at hs13 hv3 hl3 hlb3 ⊢
    by_cases heq : (decide (0 < a) && !ByType.Interface.Less d3 (a - 1) pivot) = true
    · -- the pivot is a smallest entry of the range
      rw [if_pos heq]
      simp only [Bool.and_eq_true, decide_eq_true_eq, ByType.Interface_Less,
        Bool.not_eq_true'] at heq
      obtain ⟨hpos, hless⟩ := heq
      have hple := (ByType.Less_eq_false_iff hv3 (by omega) (by omega) (by omega)).mp hless
      have hmin : ∀ x, a ≤ x → x < b → rankAt d3 pivot ≤ rankAt d3 x :=
        fun x h1 h2 => Nat.le_trans hple (hlb3 hpos x h1 h2)
      obtain ⟨hs4, hpe, hpa⟩ := partitionEqual_spec d3 a b pivot hv3 hpiv.1 hpiv.2 (by omega)
      have hmin4 := hs4.forall_rank (fun r => rankAt d3 pivot ≤ r) hmin
      generalize sort.partitionEqual ByType.Interface d3 a b pivot = pe at hs4 hpe hpa hmin4 ⊢
      obtain ⟨hm1, hm2, hm3, hm4⟩ := hpe
      have heqp : ∀ x, a ≤ x → x < pe.2 → rankAt pe.1 x = rankAt d3 pivot := by
        intro x h1 h2
        have h5 := hmin4 x h1 (by omega)
        by_cases hxa : x = a
        · rw [hxa]; exact hpa
        · have := hm3 x (by omega) h2
          rw [hpa] at this
          omega
      obtain ⟨hs5, hsorted5⟩ := ih pe.1 pe.2 b limit1 wb wp (hs4.sortable hv3) hm2
        (by rw [hs4.length]; omega) (by omega)
        (fun _ x h1 h2 => by
          rw [heqp (pe.2 - 1) (by omega) (by omega)]
          have := hm4 x h1 h2
          rw [hpa] at this
          omega)
      refine ⟨hs13.trans (hs4.trans (hs5.mono (by omega) (Nat.le_refl _)
        (by rw [hs4.length]; omega))), ?_⟩
      intro x y hax hxy hyb
      by_cases hy : y < pe.2
      · rw [hs5.rankAt_outside x (by omega), hs5.rankAt_outside y (by omega),
          heqp x hax (by omega), heqp y (by omega) hy]
      · by_cases hx : pe.2 ≤ x
        · exact hsorted5 x y hx hxy hyb
        · rw [hs5.rankAt_outside x (by omega), heqp x hax (by omega)]
          have := hs5.forall_rank (fun r => rankAt d3 pivot < r)
            (fun z h1 h2 => by have := hm4 z h1 h2; rw [hpa] at this; exact this)
            y (by omega) hyb
          exact Nat.le_of_lt this
    · -- the range is split around the pivot
      rw [if_neg heq]
      obtain ⟨hs4, hpr⟩ := partition_spec d3 a b pivot hv3 hpiv.1 hpiv.2 (by omega)
      generalize sort.partition ByType.Interface d3 a b pivot = pr at hs4 hpr ⊢
      obtain ⟨hm1, hm2, hm3, hm4⟩ := hpr
      have hv4 := hs4.sortable hv3
      have hl4 := hs4.length
      have hlb4 := hs4.lowerBound (Nat.le_refl _) (Nat.le_refl _) hlb3
      generalize pr.1 = d4 at hs4 hm3 hm4 hv4 hl4 hlb4 ⊢
      generalize pr.2.1 = mid at hm1 hm2 hm3 hm4 ⊢
      by_cases hside : mid - a < b - mid
      · rw [if_pos hside]
        obtain ⟨hs5, hsorted5⟩ := ih d4 a mid limit1 true true hv4 hm1 (by omega) (by omega)
          (fun hpos x h1 h2 => hlb4 hpos x h1 (by omega))
        generalize sort.pdqsortLoop ByType.Interface fuel d4 a mid limit1 true true = d5
          at hs5 hsorted5 ⊢
        have hmid5 : rankAt d5 mid = rankAt d4 mid := hs5.rankAt_outside mid (by omega)
        obtain ⟨hs6, hsorted6⟩ := ih d5 (mid + 1) b limit1
          (decide ((b - a) / 8 ≤ mid - a)) pr.2.2 (hs5.sortable hv4) (by omega)
          (by rw [hs5.length]; omega) (by omega)
          (fun _ x h1 h2 => by
            simp only [Nat.add_sub_cancel]
            rw [hmid5, hs5.rankAt_outside x (by omega)]
            exact hm4 x (by omega) h2)
        generalize sort.pdqsortLoop ByType.Interface fuel d5 (mid + 1) b limit1
          (decide ((b - a) / 8 ≤ mid - a)) pr.2.2 = d6 at hs6 hsorted6 ⊢
        refine ⟨hs13.trans (hs4.trans ((hs5.mono (Nat.le_refl _) (by omega) (by omega)).trans
          (hs6.mono (by omega) (Nat.le_refl _) (by rw [hs5.length]; omega)))), ?_⟩
        apply sortedOn_of_pivot (rankAt d4 mid)
        · rw [hs6.rankAt_outside mid (by omega), hmid5]
        · exact hs6.sortedOn_disjoint (Or.inl (by omega)) hsorted5
        · exact hsorted6
        · intro x h1 h2
          rw [hs6.rankAt_outside x (by omega)]
          exact hs5.forall_rank (fun r => r < rankAt d4 mid) hm3 x h1 h2
        · intro x h1 h2
          exact hs6.forall_rank (fun r => rankAt d4 mid ≤ r)
            (fun z h3 h4 => by
              rw [hs5.rankAt_outside z (by omega)]
              exact hm4 z (by omega) h4) x (by omega) h2
      · rw [if_neg hside]
        obtain ⟨hs5, hsorted5⟩ := ih d4 (mid + 1) b limit1 true true hv4 (by omega) (by omega)
          (by omega)
          (fun _ x h1 h2 => by
            simp only [Nat.add_sub_cancel]
            exact hm4 x (by omega) h2)
        generalize sort.pdqsortLoop ByType.Interface fuel d4 (mid + 1) b limit1 true true = d5
          at hs5 hsorted5 ⊢
        have hmid5 : rankAt d5 mid = rankAt d4 mid := hs5.rankAt_outside mid (by omega)
        obtain ⟨hs6, hsorted6⟩ := ih d5 a mid limit1
          (decide ((b - a) / 8 ≤ b - mid)) pr.2.2 (hs5.sortable hv4) hm1
          (by rw [hs5.length]; omega) (by omega)
          (fun hpos x h1 h2 => by
            rw [hs5.rankAt_outside (a - 1) (by omega), hs5.rankAt_outside x (by omega)]
            exact hlb4 hpos x h1 (by omega))
        generalize sort.pdqsortLoop ByType.Interface fuel d5 a mid limit1
          (decide ((b - a) / 8 ≤ b - mid)) pr.2.2 = d6 at hs6 hsorted6 ⊢
        refine ⟨hs13.trans (hs4.trans ((hs5.mono (by omega) (Nat.le_refl _) (by omega)).trans
          (hs6.mono (Nat.le_refl _) (by omega) (by rw [hs5.length]; omega)))), ?_⟩
        apply sortedOn_of_pivot (rankAt d4 mid)
        · rw [hs6.rankAt_outside mid (by omega), hmid5]
        · exact hsorted6
        · exact hs6.sortedOn_disjoint (Or.inr (by omega)) hsorted5
        · intro x h1 h2
          exact hs6.forall_rank (fun r => r < rankAt d4 mid)
            (fun z h3 h4 => by
              rw [hs5.rankAt_outside z (by omega)]
              exact hm3 z h3 h4) x h1 h2
        · intro x h1 h2
          rw [hs6.rankAt_outside x (by omega)]
          exact hs5.forall_rank (fun r => rankAt d4 mid ≤ r)
            (fun z h3 h4 => hm4 z (by omega) h4) x (by omega) h2

/-- On a slice that can be ordered by rank, `sort.Sort` with the methods of
`ByType` returns a rearrangement of the slice whose ranks do not decrease. -/
theorem sortSort_spec (d : ByType) (hv : Sortable d) :
    Shuffle 0 d.length d (sort.sortSort ByType.Interface d) ∧
      SortedOn (sort.sortSort ByType.Interface d) 0 d.length := by
  unfold sort.sortSort
  simp only [ByType.Interface_Len]
  by_cases h1 : d.length ≤ 1
  · rw [if_pos h1]
    exact ⟨Shuffle.refl d, fun x y _ h2 h3 => by omega⟩
  · rw [if_neg h1]
    exact pdqsortLoop_spec (d.length + 1) d 0 d.length _ true true hv (Nat.zero_le _)
      (Nat.le_refl _) (by omega) (fun h => by omega)

/-- On a slice that can be ordered by rank, `sort.Sort` with the methods of
`ByType` meets its contract: the result is a rearrangement of the slice that
`sort.IsSorted` accepts. -/
theorem sortSort_sortsCorrectly (d : ByType) (hv : Sortable d) :
    (sort.sortSort ByType.Interface d).Perm d ∧
      sort.IsSorted ByType.Interface (sort.sortSort ByType.Interface d) = true := by
  obtain ⟨hs, hsorted⟩ := sortSort_spec d hv
  refine ⟨hs.perm, ?_⟩
  unfold sort.IsSorted
  rw [List.all_eq_true]
  intro i hi
  simp only [ByType.Interface_Len, List.mem_range, hs.length] at hi
  simp only [ByType.Interface_Less, Bool.not_eq_true']
  rw [ByType.Less_eq_false_iff (hs.sortable hv) (by rw [hs.length]; omega)
    (by rw [hs.length]; omega) (by omega)]
  exact hsorted i (i + 1) (Nat.zero_le _) (by omega) (by omega)

/-! ### `sort.Sort` only rearranges the slice -/

namespace ByType

theorem insertionInner_perm (a : Nat) : ∀ (j : Nat) (d : ByType),
    (sort.insertionInner ByType.Interface a j d).Perm d := by
  intro j
  induction j with
  | zero => intro d; exact List.Perm.refl _
  | succ j ih =>
    intro d
    rw [sort.insertionInner]
    split_ifs
    · exact (ih _).trans (Swap_perm d _ _)
    · exact List.Perm.refl _

theorem insertionOuter_perm (a : Nat) : ∀ (n i : Nat) (d : ByType),
    (sort.insertionOuter ByType.Interface a n i d).Perm d := by
  intro n
  induction n with
  | zero => intro i d; exact List.Perm.refl _
  | succ n ih =>
    intro i d
    rw [sort.insertionOuter]
    exact (ih _ _).trans (insertionInner_perm a i d)

theorem insertionSort_perm (d : ByType) (a b : Nat) :
    (sort.insertionSort ByType.Interface d a b).Perm d :=
  insertionOuter_perm a _ _ d

theorem siftDown_perm (hi first : Nat) : ∀ (fuel root : Nat) (d : ByType),
    (sort.siftDown ByType.Interface hi first fuel root d).Perm d := by
  intro fuel
  induction fuel with
  | zero => intro root d; exact List.Perm.refl _
  | succ fuel ih =>
    intro root d
    rw [sort.siftDown]
    dsimp only
    split_ifs
    all_goals first
      | exact List.Perm.refl _
      | exact (ih _ _).trans (Swap_perm d _ _)

theorem heapBuild_perm (hi first : Nat) : ∀ (i : Nat) (d : ByType),
    (sort.heapBuild ByType.Interface hi first i d).Perm d := by
  intro i
  induction i with
  | zero => intro d; exact siftDown_perm hi first hi 0 d
  | succ i ih =>
    intro d
    rw [sort.heapBuild]
    exact (ih _).trans (siftDown_perm hi first hi (i + 1) d)

theorem heapPop_perm (first : Nat) : ∀ (i : Nat) (d : ByType),
    (sort.heapPop ByType.Interface first i d).Perm d := by
  intro i
  induction i with
  | zero =>
    intro d
    rw [sort.heapPop]
    exact (siftDown_perm 0 first 0 0 _).trans (Swap_perm d _ _)
  | succ i ih =>
    intro d
    rw [sort.heapPop]
    exact (ih _).trans ((siftDown_perm (i + 1) first (i + 1) 0 _).trans (Swap_perm d _ _))

theorem heapSort_perm (d : ByType) (a b : Nat) :
    (sort.heapSort ByType.Interface d a b).Perm d := by
  unfold sort.heapSort
  dsimp only
  split_ifs
  · exact List.Perm.refl _
  · exact (heapPop_perm a _ _).trans (heapBuild_perm _ a _ d)

theorem partitionLoop_perm (a : Nat) : ∀ (fuel : Nat) (d : ByType) (i j : Nat),
    (sort.partitionLoop ByType.Interface a fuel d i j).1.Perm d := by
  intro fuel
  induction fuel with
  | zero => intro d i j; exact List.Perm.refl _
  | succ fuel ih =>
    intro d i j
    rw [sort.partitionLoop]
    split_ifs
    · exact List.Perm.refl _
    · exact (ih _ _ _).trans (Swap_perm d _ _)

theorem partition_perm (d : ByType) (a b pivot : Nat) :
    (sort.partition ByType.Interface d a b pivot).1.Perm d := by
  unfold sort.partition
  dsimp only
  split_ifs
  · exact (Swap_perm _ _ _).trans (Swap_perm d _ _)
  · exact (Swap_perm _ _ _).trans ((partitionLoop_perm a _ _ _ _).trans
      ((Swap_perm _ _ _).trans (Swap_perm d _ _)))

theorem partitionEqualLoop_perm (a : Nat) : ∀ (fuel : Nat) (d : ByType) (i j : Nat),
    (sort.partitionEqualLoop ByType.Interface a fuel d i j).1.Perm d := by
  intro fuel
  induction fuel with
  | zero => intro d i j; exact List.Perm.refl _
  | succ fuel ih =>
    intro d i j
    rw [sort.partitionEqualLoop]
    split_ifs
    · exact List.Perm.refl _
    · exact (ih _ _ _).trans (Swap_perm d _ _)

theorem partitionEqual_perm (d : ByType) (a b pivot : Nat) :
    (sort.partitionEqual ByType.Interface d a b pivot).1.Perm d :=
  (partitionEqualLoop_perm a _ _ _ _).trans (Swap_perm d _ _)

theorem shiftLeft_perm : ∀ (j : Nat) (d : ByType),
    (sort.shiftLeft ByType.Interface j d).Perm d := by
  intro j
  induction j with
  | zero => intro d; exact List.Perm.refl _
  | succ j ih =>
    intro d
    rw [sort.shiftLeft]
    split_ifs
    · exact List.Perm.refl _
    · exact (ih _).trans (Swap_perm d _ _)

theorem shiftRight_perm : ∀ (n j : Nat) (d : ByType),
    (sort.shiftRight ByType.Interface n j d).Perm d := by
  intro n
  induction n with
  | zero => intro j d; exact List.Perm.refl _
  | succ n ih =>
    intro j d
    rw [sort.shiftRight]
    split_ifs
    · exact List.Perm.refl _
    · exact (ih _ _).trans (Swap_perm d _ _)

theorem partialInsertionLoop_perm (a b : Nat) : ∀ (steps i : Nat) (d : ByType),
    (sort.partialInsertionLoop ByType.Interface a b steps i d).1.Perm d := by
  intro steps
  induction steps with
  | zero => intro i d; exact List.Perm.refl _
  | succ steps ih =>
    intro i d
    rw [sort.partialInsertionLoop]
    dsimp only
    split_ifs
    all_goals first
      | exact List.Perm.refl _
      | exact (ih _ _).trans (Swap_perm d _ _)
      | exact (ih _ _).trans ((shiftLeft_perm _ _).trans (Swap_perm d _ _))
      | exact (ih _ _).trans ((shiftRight_perm _ _ _).trans (Swap_perm d _ _))
      | exact (ih _ _).trans ((shiftRight_perm _ _ _).trans
          ((shiftLeft_perm _ _).trans (Swap_perm d _ _)))

theorem partialInsertionSort_perm (d : ByType) (a b : Nat) :
    (sort.partialInsertionSort ByType.Interface d a b).1.Perm d :=
  partialInsertionLoop_perm a b 5 (a + 1) d

theorem breakPatternsLoop_perm (a length modulus idx : Nat) : ∀ (n i random : Nat) (d : ByType),
    (sort.breakPatternsLoop ByType.Interface a length modulus idx n i random d).Perm d := by
  intro n
  induction n with
  | zero => intro i random d; exact List.Perm.refl _
  | succ n ih =>
    intro i random d
    rw [sort.breakPatternsLoop]
    exact (ih _ _ _).trans (Swap_perm d _ _)

theorem breakPatterns_perm (d : ByType) (a b : Nat) :
    (sort.breakPatterns ByType.Interface d a b).Perm d := by
  unfold sort.breakPatterns
  dsimp only
  split_ifs
  · exact breakPatternsLoop_perm _ _ _ _ _ _ _ d
  · exact List.Perm.refl _

theorem reverseLoop_perm : ∀ (fuel i j : Nat) (d : ByType),
    (sort.reverseLoop ByType.Interface fuel i j d).Perm d := by
  intro fuel
  induction fuel with
  | zero => intro i j d; exact List.Perm.refl _
  | succ fuel ih =>
    intro i j d
    rw [sort.reverseLoop]
    split_ifs
    · exact (ih _ _ _).trans (Swap_perm d _ _)
    · exact List.Perm.refl _

theorem reverseRange_perm (d : ByType) (a b : Nat) :
    (sort.reverseRange ByType.Interface d a b).Perm d :=
  reverseLoop_perm _ _ _ d

theorem pdqsortLoop_perm : ∀ (fuel : Nat) (d : ByType) (a b limit : Nat) (wb wp : Bool),
    (sort.pdqsortLoop ByType.Interface fuel d a b limit wb wp).Perm d := by
  intro fuel
  induction fuel with
  | zero => intro d a b limit wb wp; exact List.Perm.refl _
  | succ fuel ih =>
    intro d a b limit wb wp
    rw [sort.pdqsortLoop]
    dsimp only
    by_cases h12 : b - a ≤ 12
    · rw [if_pos h12]; exact insertionSort_perm d a b
    rw [if_neg h12]
    by_cases hl : limit = 0
    · rw [if_pos hl]; exact heapSort_perm d a b
    rw [if_neg hl]
    have hs1 : (if (!wb) = true then sort.breakPatterns ByType.Interface d a b else d).Perm d := by
      split_ifs
      · exact breakPatterns_perm d a b
      · exact List.Perm.refl _
    generalize (if (!wb) = true then sort.breakPatterns ByType.Interface d a b else d) = d1
      at hs1 ⊢
    generalize (if (!wb) = true then limit - 1 else limit) = limit1
    generalize sort.choosePivot ByType.Interface d1 a b = cp
    have hs2 : (if cp.2 = sort.sortedHint.decreasingHint
        then sort.reverseRange ByType.Interface d1 a b else d1).Perm d1 := by
      split_ifs
      · exact reverseRange_perm d1 a b
      · exact List.Perm.refl _
    generalize (if cp.2 = sort.sortedHint.decreasingHint
        then sort.reverseRange ByType.Interface d1 a b else d1) = d2 at hs2 ⊢
    generalize (if cp.2 = sort.sortedHint.decreasingHint then b - 1 - (cp.1 - a)
        else cp.1) = pivot
    generalize (if cp.2 = sort.sortedHint.decreasingHint then sort.sortedHint.increasingHint
        else cp.2) = hint
    have hs3 : (if (wb && wp && decide (hint = sort.sortedHint.increasingHint)) = true
        then sort.partialInsertionSort ByType.Interface d2 a b else (d2, false)).1.Perm d2 := by
      split_ifs
      · exact partialInsertionSort_perm d2 a b
      · exact List.Perm.refl _
    generalize (if (wb && wp && decide (hint = sort.sortedHint.increasingHint)) = true
        then sort.partialInsertionSort ByType.Interface d2 a b else (d2, false)) = pis
      at hs3 ⊢
    have hs13 := hs3.trans (hs2.trans hs1)
    split_ifs
    · exact hs13
    · exact (ih _ _ _ _ _ _).trans ((partitionEqual_perm _ _ _ _).trans hs13)
    · exact (ih _ _ _ _ _ _).trans ((ih _ _ _ _ _ _).trans ((partition_perm _ _ _ _).trans hs13))
    · exact (ih _ _ _ _ _ _).trans ((ih _ _ _ _ _ _).trans ((partition_perm _ _ _ _).trans hs13))

/-- The result of `sort.Sort` with the methods of `ByType` is a rearrangement
of the slice, whatever the slice. -/
theorem sortSort_perm (d : ByType) : (sort.sortSort ByType.Interface d).Perm d := by
  unfold sort.sortSort
  dsimp only
  split_ifs
  · exact List.Perm.refl _
  · exact pdqsortLoop_perm _ d _ _ _ _ _

end ByType

/-! ## The slices that `FileListing` hands to `sort.Sort` -/

theorem name_of_rankAt_eq_zero {d : ByType} {i : Nat} (hi : i < d.length)
    (h : rankAt d i = 0) : (d.get ⟨i, hi⟩).Name = ".." := by
  rw [rankAt_of_get? (List.get?_eq_get hi)] at h
  exact (entryRank_eq_zero_iff _).mp h

/-- A slice without any entry displayed as `..` can be ordered by rank. -/
theorem sortable_of_names (l : ByType) (h : ∀ e ∈ l, e.Name ≠ "..") : Sortable l := by
  refine ⟨fun e he hn => absurd hn (h e he), ?_⟩
  intro i j hi _ hri _
  exact absurd (name_of_rankAt_eq_zero hi hri) (h _ (List.get_mem _ _ _))

/-- A slice without any entry displayed as `..`, followed by the entry of a
parent that is a directory, can be ordered by rank. -/
theorem sortable_append_previous (l : ByType) (previous : FileInfo)
    (h : ∀ e ∈ l, e.Name ≠ "..") (hdir : previous.IsDir = true) :
    Sortable (l ++ [Entry.previousDirectory previous]) := by
  have hlast : ∀ i (hi : i < (l ++ [Entry.previousDirectory previous]).length),
      rankAt (l ++ [Entry.previousDirectory previous]) i = 0 → i = l.length := by
    intro i hi hri
    by_contra hne
    have hil : i < l.length := by
      simp only [List.length_append, List.length_singleton] at hi; omega
    have hn := name_of_rankAt_eq_zero hi hri
    rw [List.get_eq_getElem, List.getElem_append_left hil] at hn
    exact h _ (List.getElem_mem hil) hn
  refine ⟨?_, fun i j hi hj hri hrj => by rw [hlast i hi hri, hlast j hj hrj]⟩
  intro e he hn
  rcases List.mem_append.mp he with he | he
  · exact absurd hn (h e he)
  · rw [List.mem_singleton] at he
    subst he
    exact hdir

/-- On the answers of a directory tree, the slice `FileListing` hands to
`sort.Sort` can be ordered by rank. -/
theorem Browser.collectFiles_sortable (b : Browser) (p : String) (c : Collected)
    (hc : b.collectFiles p = Except.ok c) (hreal : RealListing b p) : Sortable c.files := by
  obtain ⟨files, _, _, hread, _, hcase⟩ := Browser.collectFiles_ok b p c hc
  have hnames : ∀ e ∈ files.map Entry.info, e.Name ≠ ".." := by
    intro e he
    obtain ⟨fi, hfi, rfl⟩ := List.mem_map.mp he
    exact hreal.1 files hread fi hfi
  rcases hcase with ⟨_, _, _, previous, hstat, hcf, _⟩ | ⟨_, hcf, _⟩
  · rw [hcf]
    exact sortable_append_previous _ previous hnames (hreal.2 previous hstat)
  · rw [hcf]
    exact sortable_of_names _ hnames

/-- When `sort.Sort` meets its contract on the slice it is given, a call that
returns no error for a resolved path other than the root (both absolute)
hands the entry displayed as `..` to the template first. -/
theorem Browser.parent_first_of_contract (rt : Runtime) (b : Browser) (p abs : String)
    (hres : b.fs.Abs (requestPath p) = Except.ok abs)
    (hok : (b.FileListing rt p).err = none)
    (hne : abs ≠ b.rootAbs)
    (habs : filepath.IsAbs abs = true) (hroot : filepath.IsAbs b.rootAbs = true)
    (hsort : ∀ c, b.collectFiles p = Except.ok c → rt.SortsCorrectly c.files) :
    ∃ d, (b.FileListing rt p).data = some d ∧ d.Files.head?.map Entry.Name = some ".." := by
  obtain ⟨c, d, hc, hd, hfiles⟩ := Browser.FileListing_ok rt b p hok
  obtain ⟨files, hres', hge, _, _, hcase⟩ := Browser.collectFiles_ok b p c hc
  have habs' : c.abs = abs := by
    rw [hres] at hres'; exact (Except.ok.inj hres').symm
  rw [habs'] at hge hcase
  refine ⟨d, hd, ?_⟩
  rcases hcase with ⟨_, _, _, previous, _, hcf, _⟩ | ⟨hno, _, _⟩
  · obtain ⟨hperm, hsorted⟩ := hsort c hc
    rw [← hfiles] at hperm hsorted
    have hmem : Entry.previousDirectory previous ∈ d.Files :=
      hperm.symm.subset (by rw [hcf]; simp)
    cases hdf : d.Files with
    | nil => rw [hdf] at hmem; cases hmem
    | cons x rest =>
      rw [hdf] at hmem hsorted
      have htail := ByType.name_tail_of_isSorted x rest hsorted
      rcases List.mem_cons.mp hmem with hx | hx
      · simp [← hx, Entry.Name]
      · exact absurd rfl (htail _ hx)
  · exfalso
    have h1 : abs = "/" ∨ abs = "." := by
      by_contra hcon
      push_neg at hcon
      exact hno ⟨hcon.1, hcon.2, hne⟩
    rcases h1 with h1 | h1
    · subst h1
      have hle : len b.rootAbs ≤ 1 := by
        have : len "/" = 1 := by decide
        omega
      exact hne (filepath.eq_root_of_len_le_one hroot hle).symm
    · subst h1
      exact absurd habs (by decide)

/-- When `sort.Sort` meets its contract on the slice it is given, a call that
returns no error hands every directory to the template before every entry
that is not a directory. -/
theorem Browser.dirs_first_of_contract (rt : Runtime) (b : Browser) (p : String)
    (hok : (b.FileListing rt p).err = none)
    (hsort : ∀ c, b.collectFiles p = Except.ok c → rt.SortsCorrectly c.files) :
    ∃ d, (b.FileListing rt p).data = some d ∧
      d.Files.Pairwise (fun x y => y.IsDir = true → x.IsDir = true) := by
  obtain ⟨c, d, hc, hd, hfiles⟩ := Browser.FileListing_ok rt b p hok
  refine ⟨d, hd, ?_⟩
  have hsorted := (hsort c hc).2
  rw [← hfiles] at hsorted
  exact ByType.dirs_first_of_isSorted d.Files hsorted

/-- With the `sort.Sort` of Go 1.19 and later, the contract of `sort.Sort` is
met on every slice that `FileListing` builds from the answers of a directory tree. -/
theorem Browser.sortsCorrectly_of_real (rt : Runtime) (b : Browser) (p : String)
    (hrt : rt.sortSort = sort.sortSort) (hreal : RealListing b p) :
    ∀ c, b.collectFiles p = Except.ok c → rt.SortsCorrectly c.files := by
  intro c hc
  unfold Runtime.SortsCorrectly
  rw [hrt]
  exact sortSort_sortsCorrectly c.files (Browser.collectFiles_sortable b p c hc hreal)

/-- The answers of the disk of the examples to the request `sub` are those of
a directory tree. -/
theorem realListing_sample_sub : RealListing (sampleBrowser "listing") "sub" := by
  constructor
  · intro files h
    have h0 : (sampleBrowser "listing").fs.ReadDir (requestPath "sub") =
        Except.ok [dirInfo "deep"] := by decide
    rw [h0] at h
    rw [← Except.ok.inj h]
    decide
  · intro previous h
    have h0 : (sampleBrowser "listing").fs.Stat ".." = Except.ok (dirInfo "srv") := by decide
    rw [h0] at h
    rw [← Except.ok.inj h]
    rfl

/-- The answers of the disk of the examples to the empty request are those of
a directory tree. -/
theorem realListing_sample_root : RealListing (sampleBrowser "listing") "" := by
  constructor
  · intro files h
    have h0 : (sampleBrowser "listing").fs.ReadDir (requestPath "") =
        Except.ok [fileInfo "a.txt", dirInfo "sub"] := by decide
    rw [h0] at h
    rw [← Except.ok.inj h]
    decide
  · intro previous h
    have h0 : (sampleBrowser "listing").fs.Stat ".." = Except.ok (dirInfo "srv") := by decide
    rw [h0] at h
    rw [← Except.ok.inj h]
    rfl
/-! ## Confinement -/

/-- C1: when the file system resolves the cleaned request path to a strict
ancestor of the root (both in the clean absolute form `filepath.Abs` gives),
`FileListing` returns `ErrAccessDenied`, its only call on the file system is
the `Abs` call, so `ReadDir` is never called, and nothing is written. -/
theorem FileListing_strict_ancestor_denied (rt : Runtime) (b : Browser) (p abs : String)
    (hres : b.fs.Abs (requestPath p) = Except.ok abs)
    (hroot : filepath.CleanAbs b.rootAbs) (habs : filepath.CleanAbs abs)
    (hanc : filepath.StrictAncestor abs b.rootAbs) :
    (b.FileListing rt p).err = some ErrAccessDenied ∧
      (b.FileListing rt p).calls = [FSCall.Abs (requestPath p)] ∧
      (∀ root, FSCall.ReadDir root ∉ (b.FileListing rt p).calls) ∧
      (b.FileListing rt p).writes = [] := by
  have hlt := filepath.len_lt_of_strictAncestor habs hroot hanc
  unfold Browser.FileListing
  rw [Browser.collectFiles_denied b p abs hres hlt]
  simp

/-- C1 at `Root = /srv/files`: the request path `../..` resolves to `/`, a
strict ancestor of the root, and is rejected without any enumeration. -/
theorem FileListing_strict_ancestor_denied_witness :
    filepath.StrictAncestor "/" (sampleBrowser "listing").rootAbs ∧
    (((sampleBrowser "listing").FileListing goRuntime "../..").err = some ErrAccessDenied ∧
      ((sampleBrowser "listing").FileListing goRuntime "../..").calls =
        [FSCall.Abs (requestPath "../..")] ∧
      (∀ root, FSCall.ReadDir root ∉ ((sampleBrowser "listing").FileListing goRuntime "../..").calls) ∧
      ((sampleBrowser "listing").FileListing goRuntime "../..").writes = []) :=
  ⟨by decide,
    FileListing_strict_ancestor_denied goRuntime (sampleBrowser "listing") "../.." "/"
      (by decide) ⟨"/srv/files", by decide, by decide⟩ ⟨"/", by decide, by decide⟩ (by decide)⟩

/-- The scenario of the specification: with `Root = /srv/files` the request
path `../../etc` resolves to `/etc`, which is shorter than the root, and the
call is rejected with `ErrAccessDenied` after the single call `Abs`. -/
theorem FileListing_etc_denied :
    (sampleBrowser "listing").fs.Abs (requestPath "../../etc") = Except.ok "/etc" ∧
    ((sampleBrowser "listing").FileListing goRuntime "../../etc").err = some ErrAccessDenied ∧
    ((sampleBrowser "listing").FileListing goRuntime "../../etc").calls =
      [FSCall.Abs "../../etc"] := by
  decide

/-- C3: when the file system resolves the cleaned request path to the root or
to a path below it (both in clean absolute form), the confinement check lets
the call through: `ReadDir` is called, and `ErrAccessDenied` is not returned
unless the file system or the runtime returns that very value itself. -/
theorem FileListing_within_root_passes (rt : Runtime) (b : Browser) (p abs : String)
    (hres : b.fs.Abs (requestPath p) = Except.ok abs)
    (hroot : filepath.CleanAbs b.rootAbs) (habs : filepath.CleanAbs abs)
    (hin : filepath.Within b.rootAbs abs) :
    FSCall.ReadDir (requestPath p) ∈ (b.FileListing rt p).calls ∧
      (SentinelFree rt b → (b.FileListing rt p).err ≠ some ErrAccessDenied) := by
  have hge : ¬ len abs < len b.rootAbs :=
    Nat.not_lt.mpr (filepath.len_le_of_within hroot habs hin)
  unfold requestPath at hres ⊢
  unfold Browser.FileListing Browser.collectFiles Browser.renderListing
  simp only [hres, if_neg hge]
  generalize filepath.Clean (if p = "" then "/" else p) = q
  cases hread : b.fs.ReadDir q with
  | error e =>
    refine ⟨by simp, ?_⟩
    intro hs h
    simp only [Option.some.injEq] at h
    exact hs.1 q (by rw [hread, h])
  | ok files =>
    by_cases hinj : abs ≠ "/" ∧ abs ≠ "." ∧ abs ≠ b.rootAbs
    · simp only [if_pos hinj]
      cases hstat : b.fs.Stat ".." with
      | error e =>
        refine ⟨by simp, ?_⟩
        intro hs h
        simp only [Option.some.injEq] at h
        exact hs.2.1 ".." (by rw [hstat, h])
      | ok previous =>
        cases hparse : rt.templateParse b.template with
        | error e =>
          refine ⟨by simp, ?_⟩
          intro hs h
          simp only [Option.some.injEq] at h
          exact hs.2.2.1 (by rw [hparse, h])
        | ok t =>
          cases hun : rt.PathUnescape q with
          | error e =>
            refine ⟨by simp [hun], ?_⟩
            intro hs h
            simp only [hun, Option.some.injEq] at h
            exact hs.2.2.2.1 q (by rw [hun, h])
          | ok u =>
            refine ⟨by simp [hun], ?_⟩
            intro hs h
            simp only [hun] at h
            exact hs.2.2.2.2 t _ hparse h
    · simp only [if_neg hinj]
      cases hparse : rt.templateParse b.template with
      | error e =>
        refine ⟨by simp, ?_⟩
        intro hs h
        simp only [Option.some.injEq] at h
        exact hs.2.2.1 (by rw [hparse, h])
      | ok t =>
        cases hun : rt.PathUnescape q with
        | error e =>
          refine ⟨by simp [hun], ?_⟩
          intro hs h
          simp only [hun, Option.some.injEq] at h
          exact hs.2.2.2.1 q (by rw [hun, h])
        | ok u =>
          refine ⟨by simp [hun], ?_⟩
          intro hs h
          simp only [hun] at h
          exact hs.2.2.2.2 t _ hparse h

/-- C3 at `Root = /srv/files`: the request path `sub` resolves to
`/srv/files/sub`, below the root, and the directory is read. -/
theorem FileListing_within_root_passes_witness :
    filepath.Within (sampleBrowser "listing").rootAbs "/srv/files/sub" ∧
    (FSCall.ReadDir (requestPath "sub") ∈ ((sampleBrowser "listing").FileListing goRuntime "sub").calls ∧
      (SentinelFree goRuntime (sampleBrowser "listing") →
        ((sampleBrowser "listing").FileListing goRuntime "sub").err ≠ some ErrAccessDenied)) :=
  ⟨by decide,
    FileListing_within_root_passes goRuntime (sampleBrowser "listing") "sub" "/srv/files/sub"
      (by decide) ⟨"/srv/files", by decide, by decide⟩ ⟨"/srv/files/sub", by decide, by decide⟩
      (by decide)⟩

/-- C2 on `Root = /srv/files`: the request path `../secret-data` resolves to
`/srv/secret-data`, which is outside the root but not shorter than it; the
call is not rejected, `ReadDir` is called with the path, which `FS` joins to
`/srv/secret-data`, and the content of that directory is handed to the template. -/
theorem FileListing_lists_outside_root :
    (sampleBrowser "listing").fs.Abs (requestPath "../secret-data") =
      Except.ok "/srv/secret-data" ∧
    ¬ filepath.Within (sampleBrowser "listing").rootAbs "/srv/secret-data" ∧
    ((sampleBrowser "listing").FileListing goRuntime "../secret-data").err = none ∧
    ((sampleBrowser "listing").FileListing goRuntime "../secret-data").calls =
      [FSCall.Abs "../secret-data", FSCall.ReadDir "../secret-data", FSCall.Stat ".."] ∧
    filepath.Join ["/srv/files", "../secret-data"] = "/srv/secret-data" ∧
    ((sampleBrowser "listing").FileListing goRuntime "../secret-data").data.map
      (fun d => d.Files.map Entry.Name) = some ["..", "passwords.txt"] := by
  decide

/-! ## Ordering of the listing -/

/-- C4: with the `sort.Sort` of Go 1.19 and later and the answers of a
directory tree, when the call returns no error and the resolved path is not
the root (both being absolute paths), the first entry handed to the template
as `Files` is displayed as `..`. -/
theorem FileListing_parent_first (rt : Runtime) (b : Browser) (p abs : String)
    (hrt : rt.sortSort = sort.sortSort)
    (hres : b.fs.Abs (requestPath p) = Except.ok abs)
    (hok : (b.FileListing rt p).err = none)
    (hne : abs ≠ b.rootAbs)
    (habs : filepath.IsAbs abs = true) (hroot : filepath.IsAbs b.rootAbs = true)
    (hreal : RealListing b p) :
    ∃ d, (b.FileListing rt p).data = some d ∧ d.Files.head?.map Entry.Name = some ".." :=
  Browser.parent_first_of_contract rt b p abs hres hok hne habs hroot
    (Browser.sortsCorrectly_of_real rt b p hrt hreal)

/-- C4 at `Root = /srv/files`: the listing of `sub` starts with the `..` entry. -/
theorem FileListing_parent_first_witness :
    ((sampleBrowser "listing").FileListing goRuntime "sub").data.map
      (fun d => d.Files.map Entry.Name) = some ["..", "deep"] ∧
    ∃ d, ((sampleBrowser "listing").FileListing goRuntime "sub").data = some d ∧
      d.Files.head?.map Entry.Name = some ".." :=
  ⟨by decide,
    FileListing_parent_first goRuntime (sampleBrowser "listing") "sub" "/srv/files/sub" rfl
      (by decide) (by decide) (by decide) (by decide) (by decide) realListing_sample_sub⟩

/-- C5: with the `sort.Sort` of Go 1.19 and later and the answers of a
directory tree, when the call returns no error, every directory among the
entries handed to the template comes before every entry that is not a
directory. -/
theorem FileListing_dirs_first (rt : Runtime) (b : Browser) (p : String)
    (hrt : rt.sortSort = sort.sortSort)
    (hok : (b.FileListing rt p).err = none)
    (hreal : RealListing b p) :
    ∃ d, (b.FileListing rt p).data = some d ∧
      d.Files.Pairwise (fun x y => y.IsDir = true → x.IsDir = true) :=
  Browser.dirs_first_of_contract rt b p hok (Browser.sortsCorrectly_of_real rt b p hrt hreal)

/-- C5 at `Root = /srv/files`, which holds the file `a.txt` and the directory
`sub`: the root is listed as `sub`, `a.txt`. -/
theorem FileListing_dirs_first_witness :
    ((sampleBrowser "listing").fs.ReadDir (requestPath "")) =
      Except.ok [fileInfo "a.txt", dirInfo "sub"] ∧
    ((sampleBrowser "listing").FileListing goRuntime "").data.map
      (fun d => d.Files.map Entry.Name) = some ["sub", "a.txt"] ∧
    ∃ d, ((sampleBrowser "listing").FileListing goRuntime "").data = some d ∧
      d.Files.Pairwise (fun x y => y.IsDir = true → x.IsDir = true) :=
  ⟨by decide, by decide,
    FileListing_dirs_first goRuntime (sampleBrowser "listing") "" rfl (by decide)
      realListing_sample_root⟩

/-- C6 fails on a directory of thirteen entries: `ReadDir` returns the
regular files `e02` and `e06` in this order (and `e00` before `e02`), the
call returns no error, and the template receives `e06` before `e02` and
`e00` after `e05`; the regular files are not in the order of `ReadDir`. -/
theorem FileListing_not_stable :
    wideBrowser.fs.ReadDir (requestPath "") = Except.ok wideEntries ∧
    wideEntries.map (fun fi => (fi.Name, fi.IsDir)) =
      [("e00", false), ("e01", true), ("e02", false), ("e03", false), ("e04", false),
       ("e05", false), ("e06", false), ("e07", false), ("e08", false), ("e09", false),
       ("e10", false), ("e11", false), ("e12", false)] ∧
    (wideBrowser.FileListing goRuntime "").err = none ∧
    (wideBrowser.FileListing goRuntime "").data.map (fun d => d.Files.map Entry.Name) =
      some ["e01", "e06", "e02", "e03", "e04", "e05", "e00", "e07", "e08", "e09", "e10",
            "e11", "e12"] ∧
    (wideBrowser.FileListing goRuntime "").data.map (fun d => d.Files.filter (ofKind false)) ≠
      some ((wideEntries.map Entry.info).filter (ofKind false)) := by
  decide

/-- C6 as amended: with the `sort.Sort` of Go 1.19 and later, when the call
returns no error and the slice handed to `sort.Sort` has at most twelve
entries, the directories handed to the template are the directories `ReadDir`
returned, in the same order, and so are the other entries (among the entries
not displayed as `..`). -/
theorem FileListing_short_stable (rt : Runtime) (b : Browser) (p : String)
    (hrt : rt.sortSort = sort.sortSort)
    (hok : (b.FileListing rt p).err = none)
    (hlen : ∀ c, b.collectFiles p = Except.ok c → c.files.length ≤ 12) :
    ∃ files d, b.fs.ReadDir (requestPath p) = Except.ok files ∧
      (b.FileListing rt p).data = some d ∧
      ∀ dir : Bool, d.Files.filter (ofKind dir) = (files.map Entry.info).filter (ofKind dir) := by
  obtain ⟨c, d, hc, hd, hfiles⟩ := Browser.FileListing_ok rt b p hok
  obtain ⟨files, _, _, hread, _, hcase⟩ := Browser.collectFiles_ok b p c hc
  refine ⟨files, d, hread, hd, ?_⟩
  intro dir
  rw [hfiles, hrt, ByType.filter_sortSort_short dir c.files (hlen c hc)]
  rcases hcase with ⟨_, _, _, previous, _, hcf, _⟩ | ⟨_, hcf, _⟩
  · rw [hcf, List.filter_append]
    simp [ofKind, Entry.Name]
  · rw [hcf]

/-- C6 as amended, at `Root = /srv/files`: the listing of the root keeps the
order of `ReadDir` within each category. -/
theorem FileListing_short_stable_witness :
    ∃ files d, (sampleBrowser "listing").fs.ReadDir (requestPath "") = Except.ok files ∧
      ((sampleBrowser "listing").FileListing goRuntime "").data = some d ∧
      ∀ dir : Bool, d.Files.filter (ofKind dir) = (files.map Entry.info).filter (ofKind dir) :=
  FileListing_short_stable goRuntime (sampleBrowser "listing") "" rfl (by decide)
    (fun c hc => by
      have h0 : (sampleBrowser "listing").collectFiles "" = Except.ok
          { path := "/", abs := "/srv/files",
            files := [Entry.info (fileInfo "a.txt"), Entry.info (dirInfo "sub")],
            calls := [FSCall.Abs "/", FSCall.ReadDir "/"] } := by decide
      rw [h0] at hc
      rw [← Except.ok.inj hc]
      decide)

/-- C8: with the `sort.Sort` of Go 1.19 and later, when the resolved path is
the root and the call returns no error, no parent entry is appended: the
entries handed to the template are a rearrangement of the entries `ReadDir`
returned, none of them is the `previousDirectory` wrapper, and none is
displayed as `..` unless `ReadDir` returned an entry of that name. -/
theorem FileListing_root_no_parent (rt : Runtime) (b : Browser) (p abs : String)
    (hrt : rt.sortSort = sort.sortSort)
    (hres : b.fs.Abs (requestPath p) = Except.ok abs) (hroot : abs = b.rootAbs)
    (hok : (b.FileListing rt p).err = none) :
    ∃ files d, b.fs.ReadDir (requestPath p) = Except.ok files ∧
      (b.FileListing rt p).data = some d ∧
      d.Files.Perm (files.map Entry.info) ∧
      (∀ e ∈ d.Files, e.isPrevious = false) ∧
      ((∀ fi ∈ files, fi.Name ≠ "..") → ∀ e ∈ d.Files, e.Name ≠ "..") := by
  obtain ⟨c, d, hc, hd, hfiles⟩ := Browser.FileListing_ok rt b p hok
  obtain ⟨files, hres', _, hread, _, hcase⟩ := Browser.collectFiles_ok b p c hc
  have habs' : c.abs = abs := by
    rw [hres] at hres'; exact (Except.ok.inj hres').symm
  rw [habs'] at hcase
  rcases hcase with ⟨_, _, h3, _⟩ | ⟨_, hcf, _⟩
  · exact absurd hroot h3
  · have hp : d.Files.Perm (files.map Entry.info) := by
      rw [hfiles, ← hcf, hrt]; exact ByType.sortSort_perm c.files
    refine ⟨files, d, hread, hd, hp, ?_, ?_⟩
    · intro e he
      obtain ⟨fi, _, rfl⟩ := List.mem_map.mp (hp.subset he)
      rfl
    · intro hnames e he
      obtain ⟨fi, hfi, rfl⟩ := List.mem_map.mp (hp.subset he)
      exact hnames fi hfi

/-- C8 at `Root = /srv/files`: the empty request path resolves to the root,
and its listing holds `sub` and `a.txt` only. -/
theorem FileListing_root_no_parent_witness :
    (sampleBrowser "listing").fs.Abs (requestPath "") = Except.ok "/srv/files" ∧
    ((sampleBrowser "listing").FileListing goRuntime "").data.map
      (fun d => d.Files.map Entry.Name) = some ["sub", "a.txt"] ∧
    ∃ files d, (sampleBrowser "listing").fs.ReadDir (requestPath "") = Except.ok files ∧
      ((sampleBrowser "listing").FileListing goRuntime "").data = some d ∧
      d.Files.Perm (files.map Entry.info) ∧
      (∀ e ∈ d.Files, e.isPrevious = false) ∧
      ((∀ fi ∈ files, fi.Name ≠ "..") → ∀ e ∈ d.Files, e.Name ≠ "..") :=
  ⟨by decide, by decide,
    FileListing_root_no_parent goRuntime (sampleBrowser "listing") "" "/srv/files" rfl
      (by decide) (by decide) (by decide)⟩

/-! ## The parent entry -/

/-- Whatever the request path, the only `Stat` call of `FileListing` has the
fixed argument `..`, which `FS` resolves against its base directory. -/
theorem FileListing_stat_argument (rt : Runtime) (b : Browser) (p name : String)
    (h : FSCall.Stat name ∈ (b.FileListing rt p).calls) : name = ".." := by
  unfold Browser.FileListing at h
  cases hc : b.collectFiles p with
  | ok c =>
    rw [hc] at h
    simp only [Browser.renderListing_calls] at h
    obtain ⟨files, _, _, _, _, hcase⟩ := Browser.collectFiles_ok b p c hc
    rcases hcase with ⟨_, _, _, previous, _, _, hcalls⟩ | ⟨_, _, hcalls⟩
    · rw [hcalls] at h; simpa using h
    · rw [hcalls] at h; simp at h
  | error l =>
    rw [hc] at h
    unfold Browser.collectFiles at hc
    simp only at hc
    generalize filepath.Clean (if p = "" then "/" else p) = q at hc
    cases hres : b.fs.Abs q with
    | error e => simp only [hres, Except.error.injEq] at hc; subst hc; simp at h
    | ok abs =>
      simp only [hres] at hc
      by_cases hlt : len abs < len b.rootAbs
      · simp only [if_pos hlt, Except.error.injEq] at hc; subst hc; simp at h
      · simp only [if_neg hlt] at hc
        cases hread : b.fs.ReadDir q with
        | error e => simp only [hread, Except.error.injEq] at hc; subst hc; simp at h
        | ok files =>
          simp only [hread] at hc
          by_cases hinj : abs ≠ "/" ∧ abs ≠ "." ∧ abs ≠ b.rootAbs
          · simp only [if_pos hinj] at hc
            cases hstat : b.fs.Stat ".." with
            | error e => simp only [hstat, Except.error.injEq] at hc; subst hc; simpa using h
            | ok previous => simp [hstat] at hc
          · simp [if_neg hinj] at hc

/-- C7 on `Root = /srv/files`, request path `sub/deep`: the directory listed
is `/srv/files/sub/deep`, whose parent is `/srv/files/sub`; `FileListing` asks
the file system for `Stat("..")`, which `FS` resolves to `/srv`, the parent of
the root, and the parent entry carries the attributes of `/srv`, which are
not those of `/srv/files/sub`. -/
theorem FileListing_parent_entry_of_root_parent :
    (sampleBrowser "listing").fs.Abs (requestPath "sub/deep") =
      Except.ok "/srv/files/sub/deep" ∧
    ((sampleBrowser "listing").FileListing goRuntime "sub/deep").err = none ∧
    ((sampleBrowser "listing").FileListing goRuntime "sub/deep").calls =
      [FSCall.Abs "sub/deep", FSCall.ReadDir "sub/deep", FSCall.Stat ".."] ∧
    filepath.Join ["/srv/files", ".."] = "/srv" ∧
    ((sampleBrowser "listing").FileListing goRuntime "sub/deep").data.map (fun d => d.Files) =
      some [Entry.previousDirectory (dirInfo "srv")] ∧
    sampleOS.Stat "/srv" = Except.ok (dirInfo "srv") ∧
    sampleOS.Stat "/srv/files/sub" = Except.ok (dirInfo "sub") ∧
    dirInfo "srv" ≠ dirInfo "sub" := by
  decide

/-! ## Failures and the HTTP response -/

/-- C9 fails when the execution of the template fails after it has written:
with the template `brokenTemplate` the listing of the root returns an error
and `<b>` has been written to `w`. -/
theorem FileListing_partial_output :
    ((sampleBrowser brokenTemplate).FileListing goRuntime "").err =
      some (Error.other "template: files: can't evaluate field Nope in type string") ∧
    ((sampleBrowser brokenTemplate).FileListing goRuntime "").writes = ["<b>"] := by
  decide

/-- C9 as amended: when `FileListing` returns an error and has not reached
`t.Execute` (the error comes from the path resolution, the confinement check,
the enumeration, the parent stat, the parsing of the template or the
unescaping), nothing has been written to `w`; when it has reached
`t.Execute`, the error and the writes are those of `t.Execute`, so nothing
has been written if template executions never fail after writing. -/
theorem FileListing_error_writes (rt : Runtime) (b : Browser) (p : String)
    (herr : (b.FileListing rt p).err ≠ none) :
    ((b.FileListing rt p).data = none → (b.FileListing rt p).writes = []) ∧
    (∀ d, (b.FileListing rt p).data = some d →
      ∃ t, rt.templateParse b.template = Except.ok t ∧
        (b.FileListing rt p).err = (t d).err ∧ (b.FileListing rt p).writes = (t d).writes) ∧
    ((∀ t d, rt.templateParse b.template = Except.ok t → (t d).err ≠ none → (t d).writes = []) →
      (b.FileListing rt p).writes = []) := by
  have h1 : (b.FileListing rt p).data = none → (b.FileListing rt p).writes = [] := by
    unfold Browser.FileListing
    cases hc : b.collectFiles p with
    | error l => intro _; exact (Browser.collectFiles_error b p l hc).2.2
    | ok c => intro h; exact (Browser.renderListing_no_data rt b c h).2
  have h2 : ∀ d, (b.FileListing rt p).data = some d →
      ∃ t, rt.templateParse b.template = Except.ok t ∧
        (b.FileListing rt p).err = (t d).err ∧ (b.FileListing rt p).writes = (t d).writes := by
    unfold Browser.FileListing
    cases hc : b.collectFiles p with
    | error l =>
      intro d h
      rw [(Browser.collectFiles_error b p l hc).2.1] at h
      cases h
    | ok c => intro d h; exact (Browser.renderListing_data rt b c d h).2.2
  refine ⟨h1, h2, ?_⟩
  intro hengine
  cases hd : (b.FileListing rt p).data with
  | none => exact h1 hd
  | some d =>
    obtain ⟨t, ht, he, hw⟩ := h2 d hd
    rw [hw]
    exact hengine t d ht (by rw [← he]; exact herr)

/-- C9 as amended, at `Root = /srv/files`: the request path `nonexistent`
fails in the enumeration and nothing is written. -/
theorem FileListing_error_writes_witness :
    ((sampleBrowser "listing").FileListing goRuntime "nonexistent").writes = [] ∧
    ((((sampleBrowser "listing").FileListing goRuntime "nonexistent").data = none →
        ((sampleBrowser "listing").FileListing goRuntime "nonexistent").writes = []) ∧
     (∀ d, ((sampleBrowser "listing").FileListing goRuntime "nonexistent").data = some d →
        ∃ t, goRuntime.templateParse (sampleBrowser "listing").template = Except.ok t ∧
          ((sampleBrowser "listing").FileListing goRuntime "nonexistent").err = (t d).err ∧
          ((sampleBrowser "listing").FileListing goRuntime "nonexistent").writes = (t d).writes) ∧
     ((∀ t d, goRuntime.templateParse (sampleBrowser "listing").template = Except.ok t →
          (t d).err ≠ none → (t d).writes = []) →
        ((sampleBrowser "listing").FileListing goRuntime "nonexistent").writes = [])) :=
  ⟨by decide,
    FileListing_error_writes goRuntime (sampleBrowser "listing") "nonexistent" (by decide)⟩

theorem ResponseWriter.foldl_Write_body (writes : List String) :
    ∀ w : ResponseWriter,
      (writes.foldl ResponseWriter.Write w).body = writes.foldl (fun r s => r ++ s) w.body := by
  induction writes with
  | nil => intro w; rfl
  | cons s rest ih =>
    intro w
    have hb : (w.Write s).body = w.body ++ s := by
      unfold ResponseWriter.Write ResponseWriter.WriteHeader
      cases w.status <;> rfl
    simp only [List.foldl_cons]
    rw [ih, hb]

theorem ResponseWriter.foldl_Write_sentStatus (writes : List String) :
    (writes.foldl ResponseWriter.Write ResponseWriter.new).sentStatus = 200 := by
  have h : ∀ w : ResponseWriter, w.sentStatus = 200 →
      (writes.foldl ResponseWriter.Write w).sentStatus = 200 := by
    induction writes with
    | nil => intro w hw; exact hw
    | cons s rest ih =>
      intro w hw
      simp only [List.foldl_cons]
      apply ih
      unfold ResponseWriter.sentStatus ResponseWriter.Write ResponseWriter.WriteHeader at *
      cases hs : w.status <;> simp_all
  exact h _ rfl

/-- C10 fails when the execution of the template fails after it has written:
with the template `brokenTemplate` the request for the root gets an error
that is not `ErrAccessDenied` from `FileListing`, and the response has status
200 and the body `<b>an error occurred`. -/
theorem ServeHTTP_error_after_output :
    ((sampleBrowser brokenTemplate).FileListing goRuntime
        (http.Request.queryGet { query := [("path", [""])] } "path")).err =
      some (Error.other "template: files: can't evaluate field Nope in type string") ∧
    ((sampleBrowser brokenTemplate).ServeHTTP goRuntime ResponseWriter.new
        { query := [("path", [""])] }).sentStatus = 200 ∧
    ((sampleBrowser brokenTemplate).ServeHTTP goRuntime ResponseWriter.new
        { query := [("path", [""])] }).body = "<b>an error occurred" := by
  decide

/-- C10 as amended: on a fresh response, with `res` the outcome of
`FileListing` on the `path` query parameter: if `res` is `ErrAccessDenied`
and nothing was written, the status is 403 and the body is `Forbidden`
followed by a newline; if it is another error and nothing was written, the
status is 500 and the body is `an error occurred`; if there is no error, the
status is 200 and the body is what the template wrote. -/
theorem ServeHTTP_response (rt : Runtime) (b : Browser) (r : http.Request) :
    ((b.FileListing rt (r.queryGet "path")).err = some ErrAccessDenied →
      (b.FileListing rt (r.queryGet "path")).writes = [] →
      (b.ServeHTTP rt ResponseWriter.new r).sentStatus = 403 ∧
        (b.ServeHTTP rt ResponseWriter.new r).body = "Forbidden\n") ∧
    (∀ e, (b.FileListing rt (r.queryGet "path")).err = some e → e ≠ ErrAccessDenied →
      (b.FileListing rt (r.queryGet "path")).writes = [] →
      (b.ServeHTTP rt ResponseWriter.new r).sentStatus = 500 ∧
        (b.ServeHTTP rt ResponseWriter.new r).body = "an error occurred") ∧
    ((b.FileListing rt (r.queryGet "path")).err = none →
      (b.ServeHTTP rt ResponseWriter.new r).sentStatus = 200 ∧
        (b.ServeHTTP rt ResponseWriter.new r).body =
          String.join (b.FileListing rt (r.queryGet "path")).writes) := by
  refine ⟨?_, ?_, ?_⟩
  · intro he hw
    unfold Browser.ServeHTTP
    simp only [he, hw, List.foldl_nil, if_true]
    decide
  · intro e he hne hw
    unfold Browser.ServeHTTP
    simp only [he, hw, List.foldl_nil, if_neg hne]
    exact ⟨rfl, rfl⟩
  · intro he
    unfold Browser.ServeHTTP
    simp only [he]
    exact ⟨ResponseWriter.foldl_Write_sentStatus _, ResponseWriter.foldl_Write_body _ _⟩

/-- C10 as amended, at `Root = /srv/files`: the request path `../../etc`
gets 403 and `Forbidden`, the request path `nonexistent` gets 500 and
`an error occurred`, and the empty request path gets 200 and the rendered listing. -/
theorem ServeHTTP_response_examples :
    (((sampleBrowser "listing").ServeHTTP goRuntime ResponseWriter.new
        { query := [("path", ["../../etc"])] }).sentStatus = 403 ∧
      ((sampleBrowser "listing").ServeHTTP goRuntime ResponseWriter.new
        { query := [("path", ["../../etc"])] }).body = "Forbidden\n") ∧
    (((sampleBrowser "listing").ServeHTTP goRuntime ResponseWriter.new
        { query := [("path", ["nonexistent"])] }).sentStatus = 500 ∧
      ((sampleBrowser "listing").ServeHTTP goRuntime ResponseWriter.new
        { query := [("path", ["nonexistent"])] }).body = "an error occurred") ∧
    (((sampleBrowser "listing").ServeHTTP goRuntime ResponseWriter.new
        { query := [] }).sentStatus = 200 ∧
      ((sampleBrowser "listing").ServeHTTP goRuntime ResponseWriter.new
        { query := [] }).body = "listing") := by
  decide
